import Mathlib

/-!
# ARM-style C++ demangler (`cpp_demangle_arm.c`): embedding and properties

The input of `cpp_demangle_ARM` is a C string.  It is represented by the list
of its characters before the terminating NUL; a `char` is represented by a
`Char` and its integer value by `Char.toNat`.  The cursor `d->p` is the offset
of the pointer from the start of the string.  Reading the offset that equals
the length yields the terminator; reading a larger offset is a read outside the
string and is reported as `Res.oob`.

Outcomes of a call are kept apart: a normal `true`/non-NULL return (`ok`), a
`false`/NULL return (`fail`), a failed `assert` (`abort`), a read outside the
string or outside the argument table (`oob`), and exhaustion of the recursion
budget of the embedding (`nofuel`).

`errno` is the C global; its value on entry is a parameter and `strtol`
updates it as the FreeBSD libc does.  A `long` has 64 bits, and so has
`size_t`.  Memory allocation is taken to succeed.
-/

namespace ARM

/-! ## Outcomes -/

/-- Outcome of a call of one of the functions of the decoder. -/
inductive Res (α : Type) where
  | ok : α → Res α
  | fail : Res α
  | abort : Res α
  | oob : Res α
  | nofuel : Res α
deriving DecidableEq

/-- Sequencing of outcomes: everything but `ok` is propagated. -/
def Res.bind {α β : Type} : Res α → (α → Res β) → Res β
  | .ok a, f => f a
  | .fail, _ => .fail
  | .abort, _ => .abort
  | .oob, _ => .oob
  | .nofuel, _ => .nofuel

instance : Monad Res where
  pure := Res.ok
  bind := Res.bind

/-! ## libc -/

/-- The string terminator. -/
def NUL : Char := Char.ofNat 0

/-- `*(p)` for the pointer at offset `i` of the string `s`. -/
def peek (s : List Char) (i : Nat) : Res Char :=
  match s.get? i with
  | some c => .ok c
  | none => if i = s.length then .ok NUL else .oob

/-- `isdigit` in the C locale. -/
def isdigit (c : Char) : Bool := decide (48 ≤ c.toNat ∧ c.toNat ≤ 57)

/-- `isspace` in the C locale: space, and `\t \n \v \f \r`. -/
def isspace (c : Char) : Bool := decide (c.toNat = 32 ∨ (9 ≤ c.toNat ∧ c.toNat ≤ 13))

def EINVAL : Nat := 22

def ERANGE : Nat := 34

def LONG_MAX : Int := 9223372036854775807

def LONG_MIN : Int := -9223372036854775808

/-- Value of a run of decimal digits, most significant first. -/
def digits_value (ds : List Char) : Nat :=
  ds.foldl (fun a c => 10 * a + (c.toNat - 48)) 0

/-- What `strtol(nptr, &endptr, 10)` hands back: the value, the offset of
`endptr`, and `errno` after the call. -/
structure strtol_result where
  val : Int
  endp : Nat
  errno : Nat
deriving DecidableEq

/-- `strtol(s + i, &endptr, 10)` of the FreeBSD libc, for `i ≤ s.length`: white
space is skipped, one sign is accepted, the longest run of digits is converted.
Without a digit the value is 0, `endptr` is `nptr` and `errno` is `EINVAL`; a
value outside `long` is clamped and `errno` is `ERANGE`; otherwise `errno` is
left alone. -/
def strtol (s : List Char) (i : Nat) (errno : Nat) : strtol_result :=
  let t := s.drop i
  let ws := t.takeWhile isspace
  let t1 := t.dropWhile isspace
  let neg : Bool := decide (t1.head? = some '-')
  let sgn : Nat := if t1.head? = some '-' ∨ t1.head? = some '+' then 1 else 0
  let ds := (t1.drop sgn).takeWhile isdigit
  let acc := digits_value ds
  let e := i + ws.length + sgn + ds.length
  if ds = [] then ⟨0, i, EINVAL⟩
  else if neg then
    if acc > 9223372036854775808 then ⟨LONG_MIN, e, ERANGE⟩ else ⟨-(acc : Int), e, errno⟩
  else
    if acc > 9223372036854775807 then ⟨LONG_MAX, e, ERANGE⟩ else ⟨(acc : Int), e, errno⟩

/-- Conversion of a `long` to `size_t`. -/
def to_size_t (v : Int) : Nat := (v % 18446744073709551616).toNat

/-- `strnstr(s, "__", strlen(s))`: offset of the first `"__"` in `s`, if any. -/
def strnstr (s : List Char) : Option Nat :=
  match s with
  | [] => none
  | c :: t => if c = '_' ∧ t.head? = some '_' then some 0 else (strnstr t).map Nat.succ

/-! ## The token builder (`vector_str`) -/

/-- Modelled from the spec: `struct vector_str` (vector_str.h is not among the
sources), "an ordered sequence of owned text fragments". -/
abbrev vector_str := List (List Char)

/-- Modelled from the spec: `vector_str_push(v, str, len)`, "append(text)"; the
fragment is the first `len` characters of the C string `str`. -/
def vector_str_push (v : vector_str) (str : List Char) (len : Nat) : vector_str :=
  v ++ [str.take len]

/-- Modelled from the spec: `vector_str_pop`, "removes most recently appended
fragment". -/
def vector_str_pop (v : vector_str) : vector_str := v.dropLast

/-- Modelled from the spec: `vector_str_get_flat`, "flattening is simply the
concatenation of fragments in order". -/
def vector_str_get_flat (v : vector_str) : List Char := v.flatten

/-- Modelled from the spec: `vector_str_substr(v, begin, end, _)`, "flattened
view of an inclusive fragment range"; NULL when `begin > end`. -/
def vector_str_substr (v : vector_str) (b e : Nat) : Option (List Char) :=
  if b > e then none else some ((v.drop b).take (e + 1 - b)).flatten

/-! ## Decoder state -/

inductive encode_type where
  | ENCODE_FUNC
  | ENCODE_OP
  | ENCODE_OP_CT
  | ENCODE_OP_DT
deriving DecidableEq

open encode_type

/-- The C `struct demangle_data`, with the cursor as an offset, together with
the global `errno`. -/
structure demangle_data where
  ptr : Bool
  ref : Bool
  cnst : Bool
  p : Nat
  type : encode_type
  vec : vector_str
  arg : vector_str
  errno : Nat
deriving DecidableEq

def SIMPLE_HASH (x y : Char) : Nat := 64 * x.toNat + y.toNat

def CPP_DEMANGLE_ARM_TRY : Nat := 128

/-- The C `init_demangle_data`, followed by the assignment of the cursor. -/
def init_demangle_data (p : Nat) (errno : Nat) : demangle_data :=
  ⟨false, false, false, p, ENCODE_FUNC, [], [], errno⟩

/-- The call `vector_str_push(&d->vec, lit, len)` for a string literal. -/
def vpush (d : demangle_data) (lit : String) (len : Nat) : demangle_data :=
  { d with vec := vector_str_push d.vec lit.toList len }

/-- The move `d->p += n`. -/
def skip (d : demangle_data) (n : Nat) : demangle_data :=
  { d with p := d.p + n }

/-! ## Names: `read_class`, `read_qual_name`, `read_func`, `read_op`, `read_func_name` -/

/-- The C `read_class`: a decimal length, then that many characters. -/
def read_class (s : List Char) (d : demangle_data) : Res demangle_data :=
  if d.p > s.length then .oob
  else
    let r := strtol s d.p d.errno
    let len := to_size_t r.val
    if len = 0 ∧ (r.errno = EINVAL ∨ r.errno = ERANGE) then .fail
    else if ¬ (len > 0) then .abort
    else
      .ok { d with
        vec := vector_str_push d.vec (s.drop r.endp) len
        p := r.endp + len
        errno := r.errno }

/-- The `for` loop of `read_qual_name`, with the number of rounds still to run. -/
def read_qual_name_loop (s : List Char) : Nat → demangle_data → Res demangle_data
  | 0, d => .ok d
  | n + 1, d => do
    let d ← read_class s d
    read_qual_name_loop s n (vpush d "::" 2)

/-- The C `read_qual_name`: single digit + class names. -/
def read_qual_name (s : List Char) (d : demangle_data) : Res demangle_data := do
  let c ← peek s d.p
  if ¬ (c.toNat > 48 ∧ c.toNat < 58) then .abort
  else
    let num := c.toNat - 48
    let d ← read_qual_name_loop s num (skip d 1)
    .ok (skip d 2)

/-- The C `read_func`. -/
def read_func (s : List Char) (d : demangle_data) : Res demangle_data :=
  match strnstr (s.drop d.p) with
  | none => .fail
  | some len =>
    if len = 0 then .abort
    else do
      let name := s.drop d.p
      let d := skip d (len + 2)
      let c ← peek s d.p
      let d ←
        if c = 'Q' then do
          let c1 ← peek s (d.p + 1)
          if isdigit c1 then read_qual_name s (skip d 1) else .ok d
        else if isdigit c then do
          let d ← read_class s d
          .ok (vpush d "::" 2)
        else .ok d
      .ok { d with vec := vector_str_push d.vec name len }

/-- A case of `read_op` of the shape `d->p += n; return vector_str_push(...)`. -/
def op_push (d : demangle_data) (n : Nat) (lit : String) (len : Nat) : Res demangle_data :=
  .ok (vpush (skip d n) lit len)

/-- A case of `read_op` of the shape `assert(*(d->p + 2) == c); d->p += 3; return
vector_str_push(...)`. -/
def op_push3 (s : List Char) (d : demangle_data) (c : Char) (lit : String) (len : Nat) :
    Res demangle_data := do
  let c2 ← peek s (d.p + 2)
  if c2 ≠ c then .abort else .ok (vpush (skip d 3) lit len)

/-- The cases `ct` and `dt` of `read_op`. -/
def op_ctdt (s : List Char) (d : demangle_data) (t : encode_type) : Res demangle_data := do
  let d := { skip d 4 with type := t }
  let c ← peek s d.p
  if c = 'Q' then do
    let c1 ← peek s (d.p + 1)
    if isdigit c1 then read_qual_name s (skip d 1) else .fail
  else if isdigit c then read_class s d
  else .fail

/-- The C `read_op`: a `switch` on the hash of the next two characters. -/
def read_op (s : List Char) (d : demangle_data) : Res demangle_data := do
  let c0 ← peek s d.p
  let c1 ← peek s (d.p + 1)
  let h := SIMPLE_HASH c0 c1
  if h = SIMPLE_HASH 'm' 'l' then op_push d 2 "operator*" 9
  else if h = SIMPLE_HASH 'd' 'v' then op_push d 2 "operator/" 9
  else if h = SIMPLE_HASH 'm' 'd' then op_push d 2 "operator%" 9
  else if h = SIMPLE_HASH 'p' 'l' then op_push d 2 "operator+" 9
  else if h = SIMPLE_HASH 'm' 'i' then op_push d 2 "operator-" 9
  else if h = SIMPLE_HASH 'l' 's' then op_push d 2 "operator<<" 10
  else if h = SIMPLE_HASH 'r' 's' then op_push d 2 "operator>>" 10
  else if h = SIMPLE_HASH 'e' 'q' then op_push d 2 "operator==" 10
  else if h = SIMPLE_HASH 'n' 'e' then op_push d 2 "operator!=" 10
  else if h = SIMPLE_HASH 'l' 't' then op_push d 2 "operator<" 9
  else if h = SIMPLE_HASH 'g' 't' then op_push d 2 "operator>" 9
  else if h = SIMPLE_HASH 'l' 'e' then op_push d 2 "operator<=" 10
  else if h = SIMPLE_HASH 'g' 'e' then op_push d 2 "operator>=" 10
  else if h = SIMPLE_HASH 'a' 'd' then do
    let d := skip d 2
    let c ← peek s d.p
    if c = 'v' then op_push d 1 "operator/=" 10 else op_push d 0 "operator&" 9
  else if h = SIMPLE_HASH 'o' 'r' then op_push d 2 "operator|" 9
  else if h = SIMPLE_HASH 'e' 'r' then op_push d 2 "operator^" 9
  else if h = SIMPLE_HASH 'a' 'a' then do
    let d := skip d 2
    let c ← peek s d.p
    if c = 'd' then op_push d 1 "operator&=" 10 else op_push d 0 "operator&&" 10
  else if h = SIMPLE_HASH 'o' 'o' then op_push d 2 "operator||" 10
  else if h = SIMPLE_HASH 'n' 't' then op_push d 2 "operator!" 9
  else if h = SIMPLE_HASH 'c' 'o' then op_push d 2 "operator~" 9
  else if h = SIMPLE_HASH 'p' 'p' then op_push d 2 "operator++" 10
  else if h = SIMPLE_HASH 'm' 'm' then op_push d 2 "operator--" 10
  else if h = SIMPLE_HASH 'a' 's' then op_push d 2 "operator=" 9
  else if h = SIMPLE_HASH 'r' 'f' then op_push d 2 "operator->" 10
  else if h = SIMPLE_HASH 'a' 'p' then op_push3 s d 'l' "operator+=" 10
  else if h = SIMPLE_HASH 'a' 'm' then do
    let d := skip d 2
    let c ← peek s d.p
    if c = 'i' then op_push d 1 "operator-=" 10
    else if c = 'u' then op_push d 1 "operator*=" 10
    else if c = 'd' then op_push d 1 "operator%=" 10
    else .fail
  else if h = SIMPLE_HASH 'a' 'l' then op_push3 s d 's' "operator<<=" 11
  else if h = SIMPLE_HASH 'a' 'r' then op_push3 s d 's' "operator>>=" 11
  else if h = SIMPLE_HASH 'a' 'o' then op_push3 s d 'r' "operator|=" 10
  else if h = SIMPLE_HASH 'a' 'e' then op_push3 s d 'r' "operator^=" 10
  else if h = SIMPLE_HASH 'c' 'm' then op_push d 2 "operator," 9
  else if h = SIMPLE_HASH 'r' 'm' then op_push d 2 "operator->*" 11
  else if h = SIMPLE_HASH 'c' 'l' then op_push d 2 "()" 2
  else if h = SIMPLE_HASH 'v' 'c' then op_push d 2 "[]" 2
  else if h = SIMPLE_HASH 'c' 't' then op_ctdt s d ENCODE_OP_CT
  else if h = SIMPLE_HASH 'd' 't' then op_ctdt s d ENCODE_OP_DT
  else if h = SIMPLE_HASH 'n' 'w' then op_push d 2 "operator new()" 14
  else if h = SIMPLE_HASH 'd' 'l' then op_push d 2 "operator delete()" 17
  else .fail

/-- The two scoped-operator branches of `read_func_name`: the operator fragment
is saved in a buffer of `len + 1` bytes and popped, the scope is read, then
`"::"` and the first `len` characters of the saved fragment are pushed. -/
def scoped_op (scope : demangle_data → Res demangle_data) (extra : Nat)
    (d : demangle_data) : Res demangle_data :=
  match d.vec.getLast? with
  | none => .abort
  | some last => do
    let len := last.length + extra
    let op_name := last.take len
    let d := { d with vec := vector_str_pop d.vec }
    let d ← scope d
    let d := vpush d "::" 2
    .ok { d with vec := vector_str_push d.vec op_name len }

/-- The C `read_func_name`. -/
def read_func_name (s : List Char) (d : demangle_data) : Res demangle_data := do
  let c0 ← peek s d.p
  let isop ← if c0 = '_' then do
      let c1 ← peek s (d.p + 1)
      pure (decide (c1 = '_'))
    else pure false
  if isop then do
    let d := { skip d 2 with type := ENCODE_OP }
    let d ← read_op s d
    if d.type = ENCODE_OP_CT ∨ d.type = ENCODE_OP_DT then .ok d
    else
      let d := skip d 2
      let c ← peek s d.p
      if c = 'Q' then do
        let c1 ← peek s (d.p + 1)
        if isdigit c1 then scoped_op (read_qual_name s) 0 (skip d 1) else .fail
      else if isdigit c then scoped_op (read_class s) 1 d
      else .fail
  else read_func s d

/-! ## Types: `read_type` -/

/-- The three suffix pushes that follow a call of `read_type`, in the driver
(`d.ptr`, `d.ref`, `d.cnst`) and in the argument loop of a function pointer. -/
def push_suffix (d : demangle_data) : demangle_data :=
  let d := if d.ptr then { vpush d "*" 1 with ptr := false } else d
  let d := if d.ref then { vpush d "&" 1 with ref := false } else d
  if d.cnst then { vpush d " const" 6 with cnst := false } else d

/-- The condition of the `while` loop of `read_type`. -/
def is_modifier_code (c : Char) : Bool :=
  decide (c = 'U' ∨ c = 'C' ∨ c = 'V' ∨ c = 'S' ∨ c = 'P' ∨ c = 'R' ∨ c = 'A' ∨ c = 'F' ∨ c = 'M')

/-- The part of `read_type` after the `while` loop; `c` is `*d->p`. -/
def read_base_type (s : List Char) (d : demangle_data) (c : Char) : Res demangle_data :=
  if isdigit c then read_class s d
  else if c = 'Q' then read_qual_name s d
  else if c = 'v' then .ok (vpush (skip d 1) "void" 4)
  else if c = 'c' then .ok (vpush (skip d 1) "char" 4)
  else if c = 's' then .ok (vpush (skip d 1) "short" 5)
  else if c = 'i' then .ok (vpush (skip d 1) "int" 3)
  else if c = 'l' then .ok (vpush (skip d 1) "long" 4)
  else if c = 'f' then .ok (vpush (skip d 1) "float" 5)
  else if c = 'd' then .ok (vpush (skip d 1) "double" 6)
  else if c = 'r' then .ok (vpush (skip d 1) "long double" 11)
  else if c = 'e' then .ok (vpush (skip d 1) "..." 3)
  else .fail

/-- The `for (;;)` loop over the argument types of a function pointer in
`read_type`; `rt` is the recursive call of `read_type`, `lim` the C counter. -/
def fptr_args (rt : demangle_data → Res demangle_data) (s : List Char) :
    Nat → Nat → demangle_data → Res demangle_data
  | 0, _, _ => .nofuel
  | fuel + 1, lim, fptr => do
    let fptr ← rt fptr
    let fptr := push_suffix fptr
    let c ← peek s fptr.p
    if c = '_' then .ok fptr
    else
      let fptr := vpush fptr ", " 2
      if lim + 1 > CPP_DEMANGLE_ARM_TRY then .fail
      else fptr_args rt s fuel (lim + 1) fptr

/-- The C `read_type`.  One unit of fuel is spent by each round of the `while`
loop; the nested calls get what is left.  The cases `A`, `F`, `M` leave the
`switch` without moving the cursor, so the loop runs again on the same state. -/
def read_type (s : List Char) : Nat → demangle_data → Res demangle_data
  | 0, d => do
    let c ← peek s d.p
    if is_modifier_code c then .nofuel else read_base_type s d c
  | fuel + 1, d => do
    let c ← peek s d.p
    if is_modifier_code c then
      if c = 'U' then read_type s fuel (vpush (skip d 1) "unsigned " 9)
      else if c = 'C' then do
        let d := skip d 1
        let c1 ← peek s d.p
        if c1 = 'P' then read_type s fuel { d with cnst := true }
        else read_type s fuel (vpush d "const " 6)
      else if c = 'V' then read_type s fuel (vpush (skip d 1) "volatile " 9)
      else if c = 'S' then read_type s fuel (vpush (skip d 1) "signed " 7)
      else if c = 'P' then do
        let d := skip d 1
        let c1 ← peek s d.p
        if c1 = 'F' then do
          let fptr := init_demangle_data (d.p + 1) d.errno
          let fptr ← fptr_args (read_type s fuel) s (CPP_DEMANGLE_ARM_TRY + 1) 0 fptr
          let arg_type := vector_str_get_flat fptr.vec
          let d := { d with p := fptr.p + 1, errno := fptr.errno }
          let fptr := init_demangle_data d.p d.errno
          let fptr ← read_type s fuel fptr
          let rtn_type := vector_str_get_flat fptr.vec
          let d := { d with p := fptr.p, errno := fptr.errno }
          let d := { d with vec := vector_str_push d.vec rtn_type rtn_type.length }
          let d := vpush d " (*)(" 5
          let d := { d with vec := vector_str_push d.vec arg_type arg_type.length }
          .ok (vpush d ")" 1)
        else read_type s fuel { d with ptr := true }
      else if c = 'R' then read_type s fuel { skip d 1 with ref := true }
      else read_type s fuel d
    else read_base_type s d c

/-! ## The driver: `push_CTDT`, `cpp_demangle_ARM`, `is_cpp_mangled_ARM` -/

/-- The C `push_CTDT`. -/
def push_CTDT (str : String) (l : Nat) (v : vector_str) : Res vector_str :=
  let v := vector_str_push v str.toList l
  if ¬ (v.length > 1) then .abort
  else
    match v.get? (v.length - 2) with
    | none => .oob
    | some e => .ok (vector_str_push (vector_str_push v e e.length) "()".toList 2)

/-- The `for` loop of the `N` branch of the driver, with the number of rounds
still to run (`repeat - i`); `i != repeat - 1` is `n ≠ 0`. -/
def repeat_loop (idx : Nat) : Nat → demangle_data → Res demangle_data
  | 0, d => .ok d
  | n + 1, d =>
    match d.arg.get? (idx - 1) with
    | none => .oob
    | some a =>
      let d := { d with vec := vector_str_push d.vec a a.length }
      let d := { d with arg := vector_str_push d.arg a a.length }
      let d := if n ≠ 0 then vpush d ", " 2 else d
      repeat_loop idx n d

/-- The `for (;;)` loop of `cpp_demangle_ARM` over the parameter list; `try_` is
the C counter `try`.  One unit of fuel is spent by each round. -/
def arg_loop (s : List Char) : Nat → Nat → demangle_data → Res demangle_data
  | 0, _, _ => .nofuel
  | fuel + 1, try_, d => do
    let c ← peek s d.p
    if c = 'T' then
      let r := strtol s (d.p + 1) d.errno
      let idx := to_size_t r.val
      if idx = 0 ∧ (r.errno = EINVAL ∨ r.errno = ERANGE) then .fail
      else if ¬ (idx > 0) then .abort
      else
        let d := { d with p := r.endp, errno := r.errno }
        match d.arg.get? (idx - 1) with
        | none => .oob
        | some a => do
          let d := { d with vec := vector_str_push d.vec a a.length }
          let d := { d with arg := vector_str_push d.arg a a.length }
          let c ← peek s d.p
          if c = NUL then .ok d else arg_loop s fuel try_ d
    else if c = 'N' then do
      let d := skip d 1
      let c ← peek s d.p
      if ¬ (c.toNat > 48 ∧ c.toNat < 58) then .abort
      else
        let rep := c.toNat - 48
        if ¬ (rep > 1) then .abort
        else
          let d := skip d 1
          let r := strtol s d.p d.errno
          let idx := to_size_t r.val
          if idx = 0 ∧ (r.errno = EINVAL ∨ r.errno = ERANGE) then .fail
          else if ¬ (idx > 0) then .abort
          else do
            let d := { d with p := r.endp, errno := r.errno }
            let d ← repeat_loop idx rep d
            let c ← peek s d.p
            if c = NUL then .ok d else arg_loop s fuel try_ d
    else do
      let arg_begin := d.vec.length
      let d ← read_type s fuel d
      let d := push_suffix d
      let c ← peek s d.p
      if c = NUL then .ok d
      else
        match vector_str_substr d.vec arg_begin (d.vec.length - 1) with
        | none => .fail
        | some arg =>
          let d := { d with arg := vector_str_push d.arg arg arg.length }
          let d := vpush d ", " 2
          if try_ + 1 > CPP_DEMANGLE_ARM_TRY then .fail
          else arg_loop s fuel (try_ + 1) d

/-- The body of `cpp_demangle_ARM` up to the label `flat`, for a non-NULL `org`:
the decoder state that is flattened.  `fuel` bounds the rounds of the loops. -/
def demangle_state (fuel : Nat) (errno : Nat) (org : List Char) : Res demangle_data := do
  let d := init_demangle_data 0 errno
  let d ← read_func_name org d
  if d.type = ENCODE_OP_CT then do
    let v ← push_CTDT "::" 2 d.vec
    .ok { d with vec := v }
  else if d.type = ENCODE_OP_DT then do
    let v ← push_CTDT "::~" 3 d.vec
    .ok { d with vec := v }
  else do
    let c ← peek org d.p
    if c ≠ 'F' then .fail
    else do
      let d := skip d 1
      let d := vpush d "(" 1
      let d ← arg_loop org fuel 0 d
      .ok (vpush d ")" 1)

/-- The C `cpp_demangle_ARM` with an explicit bound on the rounds of its loops. -/
def cpp_demangle_ARM_fuel (fuel : Nat) (errno : Nat) (org : List Char) : Res (List Char) := do
  let d ← demangle_state fuel errno org
  .ok (vector_str_get_flat d.vec)

/-- The C `cpp_demangle_ARM` for a non-NULL `org`, entered with `errno` as the
value of the C global: the new string, or `fail` for NULL.  Every round of a
loop that does not stay on the same state moves the cursor forward, so
`org.length + 1` rounds are as good as any larger number. -/
def cpp_demangle_ARM (errno : Nat) (org : List Char) : Res (List Char) :=
  cpp_demangle_ARM_fuel (org.length + 1) errno org

/-- The C `is_cpp_mangled_ARM` for a non-NULL `org`. -/
def is_cpp_mangled_ARM (org : List Char) : Bool := (strnstr org).isSome

/-! ## Vocabulary of the properties -/

/-- A class name as the properties take it: not empty, not starting with a
decimal digit, and of a length that fits a C `long`. -/
def class_name (cls : List Char) : Prop :=
  cls ≠ [] ∧ (∀ c, cls.head? = some c → isdigit c = false) ∧ cls.length ≤ 9223372036854775807

/-- The encoding of a class name: the decimal numeral of its length, then the name. -/
def class_code (cls : List Char) : List Char := Nat.toDigits 10 cls.length ++ cls

/-- A plain function name as the properties take it: not empty, without `"__"`
inside, and not ending in `'_'`. -/
def function_name (name : List Char) : Prop :=
  name ≠ [] ∧ ¬ (['_', '_'] <:+: name) ∧ name.getLast? ≠ some '_'

/-- The encoding of the scope of a plain function: nothing, or one class name. -/
def scope_code : Option (List Char) → List Char
  | none => []
  | some cls => class_code cls

/-- The text a scope is rendered as: nothing, or the class name and `"::"`. -/
def scope_text : Option (List Char) → List Char
  | none => []
  | some cls => cls ++ "::".toList

/-- The fragments a plain function head leaves in the builder. -/
def head_vec (scope : Option (List Char)) (name : List Char) : vector_str :=
  match scope with
  | none => [name]
  | some cls => [cls, "::".toList, name]

/-- The fundamental type codes. -/
def fund_codes : List Char := ['v', 'c', 's', 'i', 'l', 'f', 'd', 'r', 'e']

/-- The spelling of a fundamental type code: `v` void, `c` char, `s` short, `i` int,
`l` long, `f` float, `d` double, `r` long double, `e` "...". -/
def sp (c : Char) : List Char :=
  if c = 'v' then "void".toList
  else if c = 'c' then "char".toList
  else if c = 's' then "short".toList
  else if c = 'i' then "int".toList
  else if c = 'l' then "long".toList
  else if c = 'f' then "float".toList
  else if c = 'd' then "double".toList
  else if c = 'r' then "long double".toList
  else "...".toList

/-- The texts `ts` joined by `", "`. -/
def comma_sep (ts : List (List Char)) : List Char := ", ".toList.intercalate ts

/-- The pending flags of a decoder state are all clear. -/
def no_flags (d : demangle_data) : Prop := d.ptr = false ∧ d.ref = false ∧ d.cnst = false

/-- The characters `l` stand at offset `p` of `s`. -/
def stands_at (s : List Char) : Nat → List Char → Prop
  | _, [] => True
  | p, c :: cs => peek s p = .ok c ∧ stands_at s (p + 1) cs

/-- The fragments pushed for a run of type codes each followed by more input. -/
def funds_vec (codes : List Char) : vector_str := codes.flatMap (fun c => [sp c, ", ".toList])

/-- The simple two-character operator codes with their symbols. -/
def simple_ops : List (Char × Char × String) :=
  [('m', 'l', "*"), ('d', 'v', "/"), ('m', 'd', "%"), ('p', 'l', "+"), ('m', 'i', "-"),
   ('l', 's', "<<"), ('r', 's', ">>"), ('e', 'q', "=="), ('n', 'e', "!="), ('l', 't', "<"),
   ('g', 't', ">"), ('l', 'e', "<="), ('g', 'e', ">="), ('o', 'r', "|"), ('e', 'r', "^"),
   ('o', 'o', "||"), ('n', 't', "!"), ('c', 'o', "~"), ('p', 'p', "++"), ('m', 'm', "--"),
   ('a', 's', "="), ('r', 'f', "->"), ('c', 'm', ","), ('r', 'm', "->*")]

/-- The three-character operator codes of fixed length with their symbols. -/
def fixed3_ops : List (Char × Char × Char × String) :=
  [('a', 'p', 'l', "+="), ('a', 'l', 's', "<<="), ('a', 'r', 's', ">>="),
   ('a', 'o', 'r', "|="), ('a', 'e', 'r', "^=")]

/-- The operator codes with one fixed spelling: the simple two-character codes
and the three-character codes of fixed length, each with its symbol. -/
def fixed_spelling_ops : List (List Char × String) :=
  simple_ops.map (fun e => ([e.1, e.2.1], e.2.2)) ++
    fixed3_ops.map (fun e => ([e.1, e.2.1, e.2.2.1], e.2.2.2))

/-- The case labels of the `switch` of `read_op`, in the order of the source. -/
def op_keys : List (Char × Char) :=
  [('m', 'l'), ('d', 'v'), ('m', 'd'), ('p', 'l'), ('m', 'i'), ('l', 's'), ('r', 's'),
   ('e', 'q'), ('n', 'e'), ('l', 't'), ('g', 't'), ('l', 'e'), ('g', 'e'), ('a', 'd'),
   ('o', 'r'), ('e', 'r'), ('a', 'a'), ('o', 'o'), ('n', 't'), ('c', 'o'), ('p', 'p'),
   ('m', 'm'), ('a', 's'), ('r', 'f'), ('a', 'p'), ('a', 'm'), ('a', 'l'), ('a', 'r'),
   ('a', 'o'), ('a', 'e'), ('c', 'm'), ('r', 'm'), ('c', 'l'), ('v', 'c'), ('c', 't'),
   ('d', 't'), ('n', 'w'), ('d', 'l')]

/-- The encoding of the components of a qualified name: each class name with the
decimal numeral of its length in front. -/
def qual_code (comps : List (List Char)) : List Char := comps.flatMap class_code

/-- The fragments `read_qual_name` pushes: each component, then `"::"`. -/
def qual_vec (comps : List (List Char)) : vector_str :=
  comps.flatMap (fun c => [c, "::".toList])

/-- The text of a qualified scope: each component followed by `"::"`. -/
def qual_text (comps : List (List Char)) : List Char :=
  comps.flatMap (fun c => c ++ "::".toList)

/-- The prefix codes of a type that set a flag or push a word. -/
def modifier_codes : List Char := ['U', 'C', 'V', 'S', 'P', 'R']

/-- The words of a sequence of prefix codes, in the order of the codes:
`"unsigned "` for `U`, `"volatile "` for `V`, `"signed "` for `S`, and `"const "`
for a `C` whose next character is not `P`. -/
def modifier_frags : List Char → vector_str
  | [] => []
  | c :: t =>
    if c = 'U' then "unsigned ".toList :: modifier_frags t
    else if c = 'V' then "volatile ".toList :: modifier_frags t
    else if c = 'S' then "signed ".toList :: modifier_frags t
    else if c = 'C' ∧ t.head? ≠ some 'P' then "const ".toList :: modifier_frags t
    else modifier_frags t

/-- The suffixes of a sequence of prefix codes: `"*"` if it has a `P`, then `"&"`
if it has an `R`, then `" const"` if it has a `C` immediately followed by `P`. -/
def suffix_frags (w : List Char) : vector_str :=
  (if 'P' ∈ w then ["*".toList] else []) ++ (if 'R' ∈ w then ["&".toList] else []) ++
    (if ['C', 'P'] <:+: w then [" const".toList] else [])

/-- A parameter type made of prefix codes and a fundamental type code. -/
def valid_arg (a : List Char × Char) : Prop :=
  (∀ c ∈ a.1, c ∈ modifier_codes) ∧ a.2 ∈ fund_codes

/-- The encoding of such a type: the prefix codes, then the type code. -/
def arg_code (a : List Char × Char) : List Char := a.1 ++ [a.2]

/-- The fragments of such a type with its suffixes. -/
def arg_frags (a : List Char × Char) : vector_str :=
  modifier_frags a.1 ++ [sp a.2] ++ suffix_frags a.1

/-- The text of such a type with its suffixes. -/
def arg_text (a : List Char × Char) : List Char := (arg_frags a).flatten

/-- The fragments of a run of such types, each followed by `", "`. -/
def args_vec (args : List (List Char × Char)) : vector_str :=
  args.flatMap (fun a => arg_frags a ++ [", ".toList])

end ARM

/-!
# S-Record and Intel HEX lines (`elfcopy/ascii.c`): embedding

A `uint64_t` is a natural number below `2 ^ 64`, a byte one below 256, and an
`int` that holds a checksum is in `0 .. 255`.  A function that returns -1, calls
`errx` or would run into undefined behaviour gives `none`.
-/

namespace Ascii

/-! ## Characters and hexadecimal digits -/

/-- The terminator of a C string. -/
def NUL : Char := Char.ofNat 0

/-- The size of the line buffers of `srec_write` and `ihex_write`. -/
def _LINE_BUFSZ : Nat := 1024

/-- The size of the data buffer that `srec_read` is called with. -/
def _DATA_BUFSZ : Nat := 256

/-- The C `hex_digit`; `n` is a `uint8_t`, and the callers pass a value below 16. -/
def hex_digit (n : Nat) : Char :=
  if n < 10 then Char.ofNat (48 + n) else Char.ofNat (65 + (n - 10))

/-- The C `hex_value`, an `int`. -/
def hex_value (x : Char) : Int :=
  if ARM.isdigit x then (x.toNat : Int) - 48
  else if 97 ≤ x.toNat ∧ x.toNat ≤ 102 then (x.toNat : Int) - 97 + 10
  else (x.toNat : Int) - 65 + 10

/-- The C `ishexdigit`. -/
def ishexdigit (x : Char) : Bool :=
  if ARM.isdigit x then true
  else if (97 ≤ x.toNat ∧ x.toNat ≤ 102) ∨ (65 ≤ x.toNat ∧ x.toNat ≤ 70) then true
  else false

/-! ## The number codec: `read_num` and `write_num`

A line that is read is a C string: the list of its characters before the
terminator, and the character at the offset of the length is the terminator.
`read_num` stops at the first character that is no hexadecimal digit, so it reads
no offset behind the one of the terminator.  A line that is written is the part
`line[0 .. len)` of the buffer; every write is at the offset `len` and appends.
An `int *checksum` is a value and the flag `upd` for `checksum != NULL`. -/

/-- The `for` loop of `read_num` with `sz` rounds to go: the new `*len`, `*num` and
`*checksum`, or `none` for the return value -1. -/
def read_num_loop (line : List Char) : Nat → Nat → Nat → Nat → Bool → Option (Nat × Nat × Nat)
  | 0, len, num, checksum, _ => some (len, num, checksum)
  | sz + 1, len, num, checksum, upd =>
    if ¬ (ishexdigit (line.getD len NUL) = true) then none
    else if ¬ (ishexdigit (line.getD (len + 1) NUL) = true) then none
    else
      let b := (((hex_value (line.getD len NUL)).toNat <<< 4) |||
        (hex_value (line.getD (len + 1) NUL)).toNat) % 256
      let num := ((num <<< 8) % 2 ^ 64) ||| b
      read_num_loop line sz (len + 2) num (if upd then (checksum + b) % 256 else checksum) upd

/-- The C `read_num`. -/
def read_num (line : List Char) (len sz checksum : Nat) (upd : Bool) :
    Option (Nat × Nat × Nat) :=
  read_num_loop line sz len 0 checksum upd

/-- The C `write_num`: the new line and `*checksum`.  A shift of a `uint64_t` by 64
or more is undefined, and so is a write behind the end of the buffer; both give
`none`. -/
def write_num (line : List Char) (num : Nat) : Nat → Nat → Bool → Option (List Char × Nat)
  | 0, checksum, _ => some (line, checksum)
  | sz + 1, checksum, upd =>
    if sz * 8 ≥ 64 then none
    else if line.length + 2 > _LINE_BUFSZ then none
    else
      let b := ((num % 2 ^ 64) >>> (sz * 8)) % 256
      let line := line ++ [hex_digit ((b >>> 4) % 16), hex_digit (b % 16)]
      write_num line num sz (if upd then (checksum + b) % 256 else checksum) upd

/-- The loop `for (p = buf, pe = p + sz; p < pe; p++) write_num(line, &len, *p, 1,
&checksum)` of `srec_write` and `ihex_write` over the bytes `p .. pe`. -/
def write_buf : List Nat → List Char → Nat → Option (List Char × Nat)
  | [], line, checksum => some (line, checksum)
  | b :: bs, line, checksum =>
    match write_num line b 1 checksum true with
    | none => none
    | some (line, checksum) => write_buf bs line checksum

/-! ## S-Records: `srec_read` and `srec_write` -/

/-- The results `*type`, `*addr`, `data[0 .. *sz)` and `*sz` of `srec_read`. -/
structure srec_rec where
  type : Char
  addr : Nat
  data : List Nat
  sz : Nat
deriving DecidableEq

/-- The `for` loop of `srec_read` over the data bytes, with `count - i` rounds to
go. -/
def read_data (line : List Char) : Nat → Nat → Nat → List Nat → Option (Nat × Nat × List Nat)
  | 0, len, checksum, data => some (len, checksum, data)
  | n + 1, len, checksum, data =>
    match read_num line len 1 checksum true with
    | none => none
    | some (len, num, checksum) => read_data line n len checksum (data ++ [num % 256])

/-- The C `srec_read`: the results for the return value 0, `none` for -1.  In
`~checksum & 0xFF` the `int` is in `0 .. 255`. -/
def srec_read (line : List Char) : Option srec_rec :=
  match read_num line 2 1 0 true with
  | none => none
  | some (len, count, checksum) =>
    let type := line.getD 1 NUL
    let addr_sz : Option Nat :=
      if type = '0' ∨ type = '1' ∨ type = '5' ∨ type = '9' then some 2
      else if type = '2' ∨ type = '8' then some 3
      else if type = '3' ∨ type = '7' then some 4
      else none
    match addr_sz with
    | none => none
    | some addr_sz =>
      match read_num line len addr_sz checksum true with
      | none => none
      | some (len, addr, checksum) =>
        let count := (count + 2 ^ 64 - (addr_sz + 1)) % 2 ^ 64
        let r : Option (Nat × Nat × List Nat × Nat) :=
          if 48 ≤ type.toNat ∧ type.toNat ≤ 51 then
            match read_data line count len checksum [] with
            | none => none
            | some (len, checksum, data) => some (len, checksum, data, count)
          else some (len, checksum, [], 0)
        match r with
        | none => none
        | some (len, checksum, data, sz) =>
          match read_num line len 1 0 false with
          | none => none
          | some (_, _checksum, _) =>
            if _checksum ≠ 255 - checksum % 256 then none
            else some ⟨type, addr, data, sz⟩

/-- The C `srec_write`: the line that is handed to `write`.  `buf` holds the bytes
the pointer `buf` points to; reading behind them gives `none`. -/
def srec_write (type : Char) (addr : Nat) (buf : List Nat) (sz : Nat) : Option (List Char) :=
  let addr_sz : Nat :=
    if type = '0' ∨ type = '1' ∨ type = '5' ∨ type = '9' then 2
    else if type = '2' ∨ type = '8' then 3
    else 4
  match write_num ['S', type] ((addr_sz + sz + 1) % 2 ^ 64) 1 0 true with
  | none => none
  | some (line, checksum) =>
    match write_num line addr addr_sz checksum true with
    | none => none
    | some (line, checksum) =>
      if buf.length < sz then none
      else
        match write_buf (buf.take sz) line checksum with
        | none => none
        | some (line, checksum) =>
          match write_num line (255 - checksum % 256) 1 0 false with
          | none => none
          | some (line, _) =>
            if line.length + 2 > _LINE_BUFSZ then none
            else some (line ++ ['\r', '\n'])

/-! ## Intel HEX: `ihex_write` -/

/-- The C `ihex_write`: the line that is handed to `write`, `none` for `errx` and
for undefined behaviour.  `buf` is `none` for NULL; `type` is an `int` and is
converted to `uint64_t`; in `(~checksum + 1) & 0xFF` the `int` is in `0 .. 255`. -/
def ihex_write (type : Int) (addr num : Nat) (buf : Option (List Nat)) (sz : Nat) :
    Option (List Char) :=
  if sz > 16 then none
  else
    match write_num [':'] sz 1 0 true with
    | none => none
    | some (line, checksum) =>
      match write_num line addr 2 checksum true with
      | none => none
      | some (line, checksum) =>
        match write_num line (type % 2 ^ 64).toNat 1 checksum true with
        | none => none
        | some (line, checksum) =>
          let r : Option (List Char × Nat) :=
            if sz > 0 then
              match buf with
              | some bytes =>
                if bytes.length < sz then none else write_buf (bytes.take sz) line checksum
              | none => write_num line num sz checksum true
            else some (line, checksum)
          match r with
          | none => none
          | some (line, checksum) =>
            match write_num line ((256 - checksum % 256) % 256) 1 0 false with
            | none => none
            | some (line, _) =>
              if line.length + 2 > _LINE_BUFSZ then none
              else some (line ++ ['\r', '\n'])

/-! ## Vocabulary of the properties -/

/-- The `sz` low bytes of `num`, most significant first. -/
def bytes_be (num : Nat) : Nat → List Nat
  | 0 => []
  | sz + 1 => ((num % 2 ^ 64) >>> (sz * 8)) % 256 :: bytes_be num sz

/-- The two hexadecimal digits of a byte, high nibble first. -/
def hex_pair (b : Nat) : List Char := [hex_digit ((b >>> 4) % 16), hex_digit (b % 16)]

/-- The hexadecimal digits of a sequence of bytes. -/
def hex_of_bytes (bs : List Nat) : List Char := bs.flatMap hex_pair

/-- The bytes that a sequence of pairs of hexadecimal digits stands for; `none`
when a character is no hexadecimal digit or one is left over. -/
def decode_pairs : List Char → Option (List Nat)
  | [] => some []
  | [_] => none
  | c1 :: c2 :: t =>
    if ishexdigit c1 = true ∧ ishexdigit c2 = true then
      (decode_pairs t).map (fun bs => ((hex_value c1).toNat * 16 + (hex_value c2).toNat) :: bs)
    else none

/-- The address size of an S-Record of the given type: 2 for the types 0, 1, 5 and
9, 3 for 2 and 8, and 4 otherwise. -/
def srec_addr_sz (type : Char) : Nat :=
  if type = '0' ∨ type = '1' ∨ type = '5' ∨ type = '9' then 2
  else if type = '2' ∨ type = '8' then 3
  else 4

end Ascii

/-!
# Sibling lookup (`testing/libdwarf/dwarf_die.c`): embedding

The DIEs of a compilation unit are the list of the queue `cu_die`.  A `Dwarf_Die`
is NULL (`none`) or the position of a DIE in the queue of the current compilation
unit; `STAILQ_NEXT` moves to the next position and gives NULL behind the last one.
The error descriptor that `DWARF_SET_ERROR` fills is left out.
-/

namespace Dwarf

/-! ## Data -/

/-- The return values `DW_DLV_OK`, `DW_DLV_ERROR` and `DW_DLV_NO_ENTRY`. -/
inductive Dwarf_Ret where
  | DW_DLV_OK : Dwarf_Ret
  | DW_DLV_ERROR : Dwarf_Ret
  | DW_DLV_NO_ENTRY : Dwarf_Ret
deriving DecidableEq

/-- The field of a DIE that `dwarf_siblingof` reads. -/
structure Dwarf_Die_ where
  die_level : Int
deriving DecidableEq

/-- A compilation unit: the queue `cu_die` of its DIEs in the order of
`STAILQ_NEXT`. -/
structure Dwarf_CU_ where
  cu_die : List Dwarf_Die_

/-- The field of the debug context that `dwarf_siblingof` reads; `none` is NULL. -/
structure Dwarf_Debug_ where
  dbg_cu_current : Option Dwarf_CU_

/-! ## `dwarf_siblingof` -/

/-- The `while` loop of `dwarf_siblingof` for a DIE of the level `level`: `rest`
holds the DIEs behind `next` and `i` is the position of the first of them.  The
result is `next` after the loop, which is also what `*caller_ret_die` is set to when
it is not NULL. -/
def sibling_loop (level : Int) : List Dwarf_Die_ → Nat → Option Nat
  | [], _ => none
  | d :: rest, i =>
    if d.die_level < level then none
    else if d.die_level = level then some i
    else sibling_loop level rest (i + 1)

/-- The C `dwarf_siblingof`: the return value and the content of `*caller_ret_die`
afterwards.  `caller_ret_die` is `none` for NULL and else the content of the cell it
points to.  The outer `none` stands for a `die` that is no DIE of the current CU. -/
def dwarf_siblingof (dbg : Option Dwarf_Debug_) (die : Option Nat)
    (caller_ret_die : Option (Option Nat)) : Option (Dwarf_Ret × Option (Option Nat)) :=
  match dbg, caller_ret_die with
  | none, _ => some (.DW_DLV_ERROR, caller_ret_die)
  | some _, none => some (.DW_DLV_ERROR, none)
  | some dbg, some cell =>
    match dbg.dbg_cu_current with
    | none => some (.DW_DLV_ERROR, some cell)
    | some cu =>
      match die with
      | none =>
        match cu.cu_die with
        | [] => some (.DW_DLV_NO_ENTRY, some none)
        | _ :: _ => some (.DW_DLV_OK, some (some 0))
      | some i =>
        match cu.cu_die.get? i with
        | none => none
        | some d =>
          match sibling_loop d.die_level (cu.cu_die.drop (i + 1)) (i + 1) with
          | none => some (.DW_DLV_NO_ENTRY, some none)
          | some j => some (.DW_DLV_OK, some (some j))

/-! ## Vocabulary of the properties -/

/-- The level of the DIE at a position of the queue. -/
def level_at (dies : List Dwarf_Die_) (k : Nat) : Int :=
  match dies.get? k with
  | some d => d.die_level
  | none => 0

/-- The DIE at `j` is the first one behind the DIE at `i` that has the level of the
DIE at `i`. -/
def first_equal_level (dies : List Dwarf_Die_) (i j : Nat) : Prop :=
  i < j ∧ j < dies.length ∧ level_at dies j = level_at dies i ∧
    ∀ k, i < k → k < j → level_at dies k ≠ level_at dies i

/-- No DIE strictly between the positions `i` and `j` has a level smaller than the
DIE at `i`. -/
def none_smaller_between (dies : List Dwarf_Die_) (i j : Nat) : Prop :=
  ∀ k, i < k → k < j → ¬ (level_at dies k < level_at dies i)

end Dwarf

/-! # Properties -/

namespace ARM

open encode_type

/-! ## Decimal numerals and `strtol` -/

theorem digitChar_spec (m : Nat) (h : m < 10) :
    isdigit (Nat.digitChar m) = true ∧ (Nat.digitChar m).toNat - 48 = m := by
  interval_cases m <;> decide

theorem digits_value_append (l : List Char) (c : Char) :
    digits_value (l ++ [c]) = 10 * digits_value l + (c.toNat - 48) := by
  simp [digits_value, List.foldl_append]

theorem toDigitsCore_spec : ∀ (fuel n : Nat) (ds : List Char), n < fuel →
    ∃ l, Nat.toDigitsCore 10 fuel n ds = l ++ ds ∧ l ≠ [] ∧
      (∀ c ∈ l, isdigit c = true) ∧ digits_value l = n := by
  intro fuel
  induction fuel with
  | zero => intro n ds h; omega
  | succ f ih =>
    intro n ds h
    have hd := digitChar_spec (n % 10) (Nat.mod_lt _ (by decide))
    by_cases h0 : n / 10 = 0
    · refine ⟨[Nat.digitChar (n % 10)], ?_, by simp, ?_, ?_⟩
      · simp [Nat.toDigitsCore, h0]
      · intro c hc
        simp only [List.mem_singleton] at hc
        rw [hc]; exact hd.1
      · have h1 : n % 10 = n := by omega
        have h2 := hd.2
        rw [h1] at h2
        rw [h1]; simp [digits_value, h2]
    · obtain ⟨l, hl, _, hall, hv⟩ := ih (n / 10) (Nat.digitChar (n % 10) :: ds) (by omega)
      refine ⟨l ++ [Nat.digitChar (n % 10)], ?_, by simp, ?_, ?_⟩
      · simp [Nat.toDigitsCore, h0, hl]
      · intro c hc
        rcases List.mem_append.1 hc with hc | hc
        · exact hall c hc
        · simp only [List.mem_singleton] at hc
          rw [hc]; exact hd.1
      · rw [digits_value_append, hv, hd.2]; omega

theorem toDigits_spec (n : Nat) :
    Nat.toDigits 10 n ≠ [] ∧ (∀ c ∈ Nat.toDigits 10 n, isdigit c = true) ∧
      digits_value (Nat.toDigits 10 n) = n := by
  obtain ⟨l, hl, hne, hall, hv⟩ := toDigitsCore_spec (n + 1) n [] (by omega)
  have : Nat.toDigits 10 n = l := by simp [Nat.toDigits, hl]
  rw [this]; exact ⟨hne, hall, hv⟩

theorem takeWhile_append_stop {p : Char → Bool} (l t : List Char) (hl : ∀ c ∈ l, p c = true)
    (ht : ∀ c, t.head? = some c → p c = false) : (l ++ t).takeWhile p = l := by
  induction l with
  | nil =>
    cases t with
    | nil => rfl
    | cons a t => simp [List.takeWhile, ht a rfl]
  | cons a l ih =>
    have ha := hl a (List.mem_cons_self _ _)
    simp [List.takeWhile, ha, ih (fun c hc => hl c (List.mem_cons_of_mem _ hc))]

theorem isdigit_not_space (c : Char) (h : isdigit c = true) : isspace c = false := by
  simp only [isdigit, isspace, decide_eq_true_eq, decide_eq_false_iff_not] at *
  omega

theorem isdigit_not_sign (c : Char) (h : isdigit c = true) : c ≠ '-' ∧ c ≠ '+' := by
  constructor <;> (intro hc; subst hc; revert h; decide)

/-- Parsing a run of digits that stands at offset `pre.length`. -/
theorem strtol_digits (pre ds t : List Char) (errno : Nat) (hne : ds ≠ [])
    (hall : ∀ c ∈ ds, isdigit c = true) (ht : ∀ c, t.head? = some c → isdigit c = false)
    (hv : digits_value ds ≤ 9223372036854775807) :
    strtol (pre ++ ds ++ t) pre.length errno =
      ⟨(digits_value ds : Int), pre.length + ds.length, errno⟩ := by
  have htw : (ds ++ t).takeWhile isdigit = ds := takeWhile_append_stop _ _ hall ht
  have hdrop : (pre ++ ds ++ t).drop pre.length = ds ++ t := by
    simp [List.append_assoc]
  obtain ⟨a, l, hal⟩ := List.exists_cons_of_ne_nil hne
  have ha : isdigit a = true := hall a (by simp [hal])
  have hsp := isdigit_not_space a ha
  have hsg := isdigit_not_sign a ha
  have hws : (ds ++ t).takeWhile isspace = [] := by simp [hal, List.takeWhile, hsp]
  have hdw : (ds ++ t).dropWhile isspace = ds ++ t := by simp [hal, List.dropWhile, hsp]
  have hhd : (ds ++ t).head? = some a := by simp [hal]
  have h1 : ¬ (some a = some '-') := by simpa using hsg.1
  have h2 : ¬ (some a = some '+') := by simpa using hsg.2
  have h3 : ¬ (digits_value ds > 9223372036854775807) := by omega
  simp only [strtol, hdrop, hws, hdw, hhd, h1, h2, or_self, if_false, List.drop_zero, htw,
    decide_False, hne, h3, List.length_nil, Nat.add_zero]
  simp

/-! ## Small facts about the embedding -/

@[simp] theorem bind_ok {α β : Type} (a : α) (f : α → Res β) : (Res.ok a >>= f) = f a := rfl

@[simp] theorem bind_fail {α β : Type} (f : α → Res β) : (Res.fail >>= f) = Res.fail := rfl

@[simp] theorem bind_abort {α β : Type} (f : α → Res β) : (Res.abort >>= f) = Res.abort := rfl

@[simp] theorem bind_oob {α β : Type} (f : α → Res β) : (Res.oob >>= f) = Res.oob := rfl

@[simp] theorem bind_nofuel {α β : Type} (f : α → Res β) : (Res.nofuel >>= f) = Res.nofuel := rfl

@[simp] theorem pure_eq_ok {α : Type} (a : α) : (pure a : Res α) = Res.ok a := rfl

@[simp] theorem peek_zero (a : Char) (s : List Char) : peek (a :: s) 0 = .ok a := rfl

@[simp] theorem peek_succ (a : Char) (s : List Char) (n : Nat) :
    peek (a :: s) (n + 1) = peek s n := by
  simp [peek]

theorem peek_append (pre t : List Char) (n : Nat) :
    peek (pre ++ t) (pre.length + n) = peek t n := by
  induction pre with
  | nil => simp
  | cons a pre ih =>
    have : (a :: pre).length + n = (pre.length + n) + 1 := by simp; omega
    rw [List.cons_append, this, peek_succ, ih]

theorem peek_at (pre t : List Char) (c : Char) : peek (pre ++ c :: t) pre.length = .ok c := by
  simpa using peek_append pre (c :: t) 0

theorem peek_end (s : List Char) : peek s s.length = .ok NUL := by
  simp [peek]

theorem to_size_t_of_nat (n : Nat) (h : n ≤ 9223372036854775807) :
    to_size_t (n : Int) = n := by
  unfold to_size_t
  omega

theorem push_full (v : vector_str) (str : List Char) (len : Nat) (h : str.length ≤ len) :
    vector_str_push v str len = v ++ [str] := by
  simp [vector_str_push, List.take_of_length_le h]

/-- `read_class` on the encoding of a class name that stands at offset `pre.length`. -/
theorem read_class_ok (pre cls rest : List Char) (d : demangle_data) (hp : d.p = pre.length)
    (hc : class_name cls) :
    read_class (pre ++ class_code cls ++ rest) d =
      .ok { d with vec := d.vec ++ [cls], p := (pre ++ class_code cls).length } := by
  obtain ⟨hne, hhd, hlen⟩ := hc
  obtain ⟨dne, dall, dval⟩ := toDigits_spec cls.length
  have hs : pre ++ class_code cls ++ rest = pre ++ Nat.toDigits 10 cls.length ++ (cls ++ rest) := by
    simp [class_code, List.append_assoc]
  have hhd2 : ∀ c, (cls ++ rest).head? = some c → isdigit c = false := by
    intro c h
    apply hhd c
    cases cls with
    | nil => exact absurd rfl hne
    | cons a l => simpa using h
  have hst := strtol_digits pre (Nat.toDigits 10 cls.length) (cls ++ rest) d.errno dne dall hhd2
    (by rw [dval]; exact hlen)
  rw [dval] at hst
  have hpos : 0 < cls.length := List.length_pos.2 hne
  have hdrop : (pre ++ Nat.toDigits 10 cls.length ++ (cls ++ rest)).drop
      (pre.length + (Nat.toDigits 10 cls.length).length) = cls ++ rest := by
    rw [← List.length_append, List.drop_left]
  have hle : ¬ (d.p > (pre ++ Nat.toDigits 10 cls.length ++ (cls ++ rest)).length) := by
    rw [hp]; simp
  rw [hs]
  unfold read_class
  rw [if_neg hle, hp, hst]
  simp only [to_size_t_of_nat _ hlen, hdrop]
  have h0 : cls.length ≠ 0 := by omega
  simp [h0, vector_str_push, class_code, hpos]
  omega

theorem class_code_head (cls : List Char) :
    ∃ a l, class_code cls = a :: l ∧ isdigit a = true := by
  obtain ⟨dne, dall, _⟩ := toDigits_spec cls.length
  obtain ⟨a, l, hal⟩ := List.exists_cons_of_ne_nil dne
  exact ⟨a, l ++ cls, by simp [class_code, hal], dall a (by simp [hal])⟩

theorem isdigit_ne_Q (c : Char) (h : isdigit c = true) : c ≠ 'Q' := by
  intro hc; subst hc; revert h; decide

/-- The first character of the encoding of a class name is a digit. -/
theorem peek_class_code (pre cls rest : List Char) :
    ∃ a, peek (pre ++ class_code cls ++ rest) pre.length = .ok a ∧ isdigit a = true := by
  obtain ⟨a, l, hal, ha⟩ := class_code_head cls
  refine ⟨a, ?_, ha⟩
  rw [hal, List.append_assoc, List.cons_append]
  exact peek_at _ _ _

/-- The cases `ct`/`dt` of `read_op` in front of the encoding of a class name. -/
theorem op_ctdt_class (pre cls rest : List Char) (d : demangle_data) (t : encode_type)
    (hp : d.p + 4 = pre.length) (hc : class_name cls) :
    op_ctdt (pre ++ class_code cls ++ rest) d t =
      .ok { d with type := t, vec := d.vec ++ [cls], p := (pre ++ class_code cls).length } := by
  obtain ⟨a, hpk, ha⟩ := peek_class_code pre cls rest
  have hQ := isdigit_ne_Q a ha
  have hrc := read_class_ok pre cls rest { skip d 4 with type := t } (by simp [skip, hp]) hc
  unfold op_ctdt
  simp only [skip] at hrc ⊢
  rw [hp, hpk]
  simp only [bind_ok, if_neg hQ, ha, if_true]
  rw [← hp, hrc]

theorem read_op_ct (s : List Char) (d : demangle_data) (h0 : peek s d.p = .ok 'c')
    (h1 : peek s (d.p + 1) = .ok 't') : read_op s d = op_ctdt s d ENCODE_OP_CT := by
  unfold read_op
  rw [h0, h1]
  rfl

theorem read_op_dt (s : List Char) (d : demangle_data) (h0 : peek s d.p = .ok 'd')
    (h1 : peek s (d.p + 1) = .ok 't') : read_op s d = op_ctdt s d ENCODE_OP_DT := by
  unfold read_op
  rw [h0, h1]
  rfl

/-- Name resolution of a constructor (`ct`) and of a destructor (`dt`) encoding
with a class-name scope. -/
theorem read_func_name_ctdt (errno : Nat) (cls rest : List Char) (x y : Char)
    (hc : class_name cls) :
    read_func_name (['_', '_', 'c', 't', x, y] ++ class_code cls ++ rest)
        (init_demangle_data 0 errno) =
      .ok ⟨false, false, false, 6 + (class_code cls).length, ENCODE_OP_CT, [cls], [], errno⟩ ∧
    read_func_name (['_', '_', 'd', 't', x, y] ++ class_code cls ++ rest)
        (init_demangle_data 0 errno) =
      .ok ⟨false, false, false, 6 + (class_code cls).length, ENCODE_OP_DT, [cls], [], errno⟩ := by
  constructor
  · have hop := op_ctdt_class ['_', '_', 'c', 't', x, y] cls rest
      ⟨false, false, false, 2, ENCODE_OP, [], [], errno⟩ ENCODE_OP_CT rfl hc
    have hro := read_op_ct (['_', '_', 'c', 't', x, y] ++ class_code cls ++ rest)
      ⟨false, false, false, 2, ENCODE_OP, [], [], errno⟩ rfl rfl
    simp only [List.cons_append, List.nil_append, List.length_cons, List.length_append] at hop hro
    simp [read_func_name, init_demangle_data, skip, hro, hop]
    omega
  · have hop := op_ctdt_class ['_', '_', 'd', 't', x, y] cls rest
      ⟨false, false, false, 2, ENCODE_OP, [], [], errno⟩ ENCODE_OP_DT rfl hc
    have hro := read_op_dt (['_', '_', 'd', 't', x, y] ++ class_code cls ++ rest)
      ⟨false, false, false, 2, ENCODE_OP, [], [], errno⟩ rfl rfl
    simp only [List.cons_append, List.nil_append, List.length_cons, List.length_append] at hop hro
    simp [read_func_name, init_demangle_data, skip, hro, hop]
    omega

/-- C1: for every class name `cls`, every two characters `x y` and every trailing
text `rest`, `"__ct" x y <n><cls> rest` decodes to `cls::cls()` and
`"__dt" x y <n><cls> rest` to `cls::~cls()`, with `n` the decimal numeral of the
length of `cls`; no `F` is looked for. -/
theorem ctor_dtor_class (errno : Nat) (cls rest : List Char) (x y : Char) (hc : class_name cls) :
    cpp_demangle_ARM errno ("__ct".toList ++ [x, y] ++ class_code cls ++ rest) =
      .ok (cls ++ "::".toList ++ cls ++ "()".toList) ∧
    cpp_demangle_ARM errno ("__dt".toList ++ [x, y] ++ class_code cls ++ rest) =
      .ok (cls ++ "::~".toList ++ cls ++ "()".toList) := by
  have hs1 : "__ct".toList ++ [x, y] ++ class_code cls ++ rest =
      ['_', '_', 'c', 't', x, y] ++ class_code cls ++ rest := by simp
  have hs2 : "__dt".toList ++ [x, y] ++ class_code cls ++ rest =
      ['_', '_', 'd', 't', x, y] ++ class_code cls ++ rest := by simp
  obtain ⟨h1, h2⟩ := read_func_name_ctdt errno cls rest x y hc
  rw [hs1, hs2]
  constructor
  · simp only [cpp_demangle_ARM, cpp_demangle_ARM_fuel, demangle_state, h1, bind_ok]
    simp [push_CTDT, vector_str_push, vector_str_get_flat]
  · simp only [cpp_demangle_ARM, cpp_demangle_ARM_fuel, demangle_state, h2, bind_ok]
    simp [push_CTDT, vector_str_push, vector_str_get_flat]

theorem ctor_dtor_class_witness :
    class_name "Foo".toList ∧
    cpp_demangle_ARM 0 "__ct__3Foo".toList = .ok "Foo::Foo()".toList ∧
    cpp_demangle_ARM 0 "__dt__3Foo".toList = .ok "Foo::~Foo()".toList :=
  ⟨by simp [class_name]; decide,
    ctor_dtor_class 0 "Foo".toList [] '_' '_' (by simp [class_name]; decide)⟩

/-! ## The delimiter search -/

theorem prefix_delim_iff (c : Char) (t : List Char) :
    ['_', '_'] <+: (c :: t) ↔ c = '_' ∧ t.head? = some '_' := by
  cases t with
  | nil => simp [List.cons_prefix_cons]
  | cons b t => simp [List.cons_prefix_cons, eq_comm]

/-- The search finds nothing exactly when `"__"` does not occur. -/
theorem strnstr_eq_none_iff (l : List Char) : strnstr l = none ↔ ¬ (['_', '_'] <:+: l) := by
  induction l with
  | nil => simp [strnstr]
  | cons c t ih =>
    rw [List.infix_cons_iff, prefix_delim_iff]
    unfold strnstr
    by_cases h : c = '_' ∧ t.head? = some '_'
    · simp [h]
    · rw [if_neg h]
      simp only [Option.map_eq_none', ih]
      tauto

theorem strnstr_append (name t : List Char) (hne : name ≠ []) (hno : strnstr name = none)
    (hlast : name.getLast? ≠ some '_') :
    strnstr (name ++ '_' :: '_' :: t) = some name.length := by
  induction name with
  | nil => exact absurd rfl hne
  | cons a l ih =>
    cases l with
    | nil =>
      have ha : a ≠ '_' := by simpa using hlast
      simp [strnstr, ha]
    | cons b l =>
      have hcond : ¬ (a = '_' ∧ (b :: l).head? = some '_') := by
        intro hc
        simp [strnstr, hc] at hno
      have hno2 : strnstr (b :: l) = none := by
        rw [strnstr, if_neg hcond] at hno
        simpa using hno
      have ih2 := ih (by simp) hno2 (by simpa [List.getLast?_cons_cons] using hlast)
      have hcond2 : ¬ (a = '_' ∧ (b :: l ++ '_' :: '_' :: t).head? = some '_') := by
        simpa using hcond
      rw [List.cons_append, strnstr, if_neg hcond2, ih2]
      simp

theorem peek_head (pre rest : List Char) :
    peek (pre ++ rest) pre.length = .ok (rest.headD NUL) := by
  cases rest with
  | nil => simpa using peek_end pre
  | cons c t => simpa using peek_at pre t c

/-- A function name is not taken for an operator: `read_func_name` goes to `read_func`. -/
theorem read_func_name_plain (name t : List Char) (d : demangle_data) (hp : d.p = 0)
    (hn : function_name name) :
    read_func_name (name ++ t) d = read_func (name ++ t) d := by
  obtain ⟨hne, hno, hlast⟩ := hn
  unfold read_func_name
  rw [hp]
  cases name with
  | nil => exact absurd rfl hne
  | cons a l =>
    by_cases ha : a = '_'
    · cases l with
      | nil => simp [ha] at hlast
      | cons b l =>
        have hb : b ≠ '_' := by
          intro hb
          apply hno
          rw [ha, hb]
          exact ⟨[], l, by simp⟩
        simp [ha, hb]
    · simp [ha]

/-- Name resolution of a plain function head `name__<scope>`: the cursor ends
after the scope, the builder holds the scope fragments and then the name. -/
theorem read_func_name_head (errno : Nat) (s name rest : List Char) (scope : Option (List Char))
    (hs : s = name ++ "__".toList ++ scope_code scope ++ rest)
    (hn : function_name name) (hsc : ∀ cls, scope = some cls → class_name cls)
    (hr : scope = none → isdigit (rest.headD NUL) = false ∧ rest.headD NUL ≠ 'Q') :
    read_func_name s (init_demangle_data 0 errno) =
      .ok ⟨false, false, false, (name ++ "__".toList ++ scope_code scope).length, ENCODE_FUNC,
        head_vec scope name, [], errno⟩ := by
  have hs0 : s = name ++ ("__".toList ++ scope_code scope ++ rest) := by
    rw [hs]; simp [List.append_assoc]
  have hplain := read_func_name_plain name ("__".toList ++ scope_code scope ++ rest)
    (init_demangle_data 0 errno) rfl hn
  rw [← hs0] at hplain
  rw [hplain]
  obtain ⟨hne, hno, hlast⟩ := hn
  have hfind : strnstr s = some name.length := by
    have := strnstr_append name (scope_code scope ++ rest) hne
      ((strnstr_eq_none_iff name).2 hno) hlast
    rw [hs]
    simpa [List.append_assoc] using this
  have hlen0 : name.length ≠ 0 := by
    intro h; exact hne (List.length_eq_zero.1 h)
  have htake : s.take name.length = name := by
    rw [hs]; simp [List.append_assoc]
  have hl2 : (name ++ "__".toList).length = name.length + 2 := by simp
  unfold read_func
  simp only [init_demangle_data, List.drop_zero, hfind, if_neg hlen0, skip, Nat.zero_add,
    vector_str_push, htake]
  cases scope with
  | none =>
    obtain ⟨hr1, hr2⟩ := hr rfl
    have hpk : peek s (name.length + 2) = .ok (rest.headD NUL) := by
      rw [hs, ← hl2]; simpa [scope_code] using peek_head (name ++ "__".toList) rest
    simp only [hpk, bind_ok, if_neg hr2, hr1]
    simp [scope_code, head_vec]
  | some cls =>
    obtain ⟨a, hpk, ha⟩ := peek_class_code (name ++ "__".toList) cls rest
    have hQ := isdigit_ne_Q a ha
    have hrc := read_class_ok (name ++ "__".toList) cls rest
      ⟨false, false, false, name.length + 2, ENCODE_FUNC, [], [], errno⟩ (by simp) (hsc cls rfl)
    simp only [scope_code] at hs
    rw [← hs] at hpk hrc
    rw [hl2] at hpk
    simp only [hpk, bind_ok, if_neg hQ, ha, if_true, hrc, vpush, vector_str_push]
    simp [scope_code, head_vec]

/-! ## Fundamental type codes in the parameter loop -/

theorem fund_codes_facts : ∀ c ∈ fund_codes,
    is_modifier_code c = false ∧ isdigit c = false ∧ c ≠ 'Q' ∧ c ≠ 'T' ∧ c ≠ 'N' ∧
      c ≠ NUL ∧ c ≠ '_' ∧ c ≠ 'F' := by
  decide

theorem read_base_type_fund (s : List Char) (d : demangle_data) (c : Char)
    (hc : c ∈ fund_codes) :
    read_base_type s d c = .ok { d with p := d.p + 1, vec := d.vec ++ [sp c] } := by
  simp only [fund_codes, List.mem_cons, List.mem_singleton, List.mem_nil_iff, or_false] at hc
  rcases hc with rfl | rfl | rfl | rfl | rfl | rfl | rfl | rfl | rfl <;>
    simp [read_base_type, isdigit, sp, vpush, skip, vector_str_push]

/-- `read_type` on a fundamental type code: one character is consumed and its
spelling is pushed. -/
theorem read_type_fund (s : List Char) (fuel : Nat) (d : demangle_data) (c : Char)
    (hc : c ∈ fund_codes) (hpk : peek s d.p = .ok c) :
    read_type s fuel d = .ok { d with p := d.p + 1, vec := d.vec ++ [sp c] } := by
  have hm := (fund_codes_facts c hc).1
  cases fuel with
  | zero => simp [read_type, hpk, hm, read_base_type_fund s d c hc]
  | succ n => simp [read_type, hpk, hm, read_base_type_fund s d c hc]

theorem push_suffix_no_flags (d : demangle_data) (h : no_flags d) : push_suffix d = d := by
  obtain ⟨h1, h2, h3⟩ := h
  simp [push_suffix, h1, h2, h3]

theorem substr_last (v : vector_str) (x : List Char) :
    vector_str_substr (v ++ [x]) v.length ((v ++ [x]).length - 1) = some x := by
  simp [vector_str_substr]

/-- A round of the parameter loop on a fundamental type code that is followed by
more input. -/
theorem arg_loop_step (s : List Char) (fuel try_ : Nat) (d : demangle_data) (c c2 : Char)
    (hc : c ∈ fund_codes) (hpk : peek s d.p = .ok c) (hpk2 : peek s (d.p + 1) = .ok c2)
    (hc2 : c2 ≠ NUL) (hfl : no_flags d) (htry : try_ < 128) :
    arg_loop s (fuel + 1) try_ d =
      arg_loop s fuel (try_ + 1)
        { d with p := d.p + 1, vec := d.vec ++ [sp c, ", ".toList], arg := d.arg ++ [sp c] } := by
  obtain ⟨_, _, _, hT, hN, _, _, _⟩ := fund_codes_facts c hc
  have hrt := read_type_fund s fuel d c hc hpk
  have hfl2 : no_flags { d with p := d.p + 1, vec := d.vec ++ [sp c] } := hfl
  have htry2 : ¬ (try_ + 1 > CPP_DEMANGLE_ARM_TRY) := by
    simp only [CPP_DEMANGLE_ARM_TRY]; omega
  rw [arg_loop]
  simp only [hpk, bind_ok, if_neg hT, if_neg hN, hrt, push_suffix_no_flags _ hfl2, hpk2,
    if_neg hc2, substr_last, vpush, vector_str_push, if_neg htry2]
  simp

/-- The last round of the parameter loop: a fundamental type code at the end of
the input. -/
theorem arg_loop_last (s : List Char) (fuel try_ : Nat) (d : demangle_data) (c : Char)
    (hc : c ∈ fund_codes) (hpk : peek s d.p = .ok c) (hpk2 : peek s (d.p + 1) = .ok NUL)
    (hfl : no_flags d) :
    arg_loop s (fuel + 1) try_ d = .ok { d with p := d.p + 1, vec := d.vec ++ [sp c] } := by
  obtain ⟨_, _, _, hT, hN, _, _, _⟩ := fund_codes_facts c hc
  have hrt := read_type_fund s fuel d c hc hpk
  have hfl2 : no_flags { d with p := d.p + 1, vec := d.vec ++ [sp c] } := hfl
  rw [arg_loop]
  simp only [hpk, bind_ok, if_neg hT, if_neg hN, hrt, push_suffix_no_flags _ hfl2, hpk2, if_true]

theorem stands_at_append (pre l rest : List Char) :
    stands_at (pre ++ l ++ rest) pre.length l := by
  induction l generalizing pre with
  | nil => trivial
  | cons c cs ih =>
    refine ⟨?_, ?_⟩
    · rw [List.append_assoc, List.cons_append]; exact peek_at _ _ _
    · have := ih (pre ++ [c])
      simpa [List.append_assoc] using this

/-- The rounds of the parameter loop on a run of fundamental type codes that is
followed by more input (`c2`). -/
theorem arg_loop_funds (s : List Char) (c2 : Char) (hc2 : c2 ≠ NUL) (codes : List Char) :
    ∀ (fuel try_ : Nat) (d : demangle_data), (∀ c ∈ codes, c ∈ fund_codes) →
      stands_at s d.p codes → peek s (d.p + codes.length) = .ok c2 → no_flags d →
      try_ + codes.length ≤ 128 →
      arg_loop s (fuel + codes.length) try_ d =
        arg_loop s fuel (try_ + codes.length)
          { d with p := d.p + codes.length, vec := d.vec ++ funds_vec codes,
                   arg := d.arg ++ codes.map sp } := by
  induction codes with
  | nil =>
    intro fuel try_ d _ _ _ _ _
    simp [funds_vec]
  | cons c cs ih =>
    intro fuel try_ d hall hst hend hfl htry
    obtain ⟨hpk, hst2⟩ := hst
    have hc := hall c (List.mem_cons_self _ _)
    have hnext : ∃ c3, peek s (d.p + 1) = .ok c3 ∧ c3 ≠ NUL := by
      cases cs with
      | nil => exact ⟨c2, by simpa using hend, hc2⟩
      | cons b bs =>
        exact ⟨b, hst2.1, (fund_codes_facts b (hall b (by simp))).2.2.2.2.2.1⟩
    obtain ⟨c3, hpk3, hc3⟩ := hnext
    simp only [List.length_cons] at htry hend ⊢
    have hstep := arg_loop_step s (fuel + cs.length) try_ d c c3 hc hpk hpk3 hc3 hfl (by omega)
    have hih := ih fuel (try_ + 1)
      { d with p := d.p + 1, vec := d.vec ++ [sp c, ", ".toList], arg := d.arg ++ [sp c] }
      (fun x hx => hall x (List.mem_cons_of_mem _ hx)) hst2
      (by simpa [Nat.add_assoc, Nat.add_comm 1] using hend) hfl (by omega)
    rw [← Nat.add_assoc, hstep, hih]
    simp [funds_vec, Nat.add_assoc, Nat.add_comm 1]

/-! ## The driver on a plain function -/

theorem intercalate_cons_of_ne_nil (sep a : List Char) (l : List (List Char)) (h : l ≠ []) :
    sep.intercalate (a :: l) = a ++ sep ++ sep.intercalate l := by
  cases l with
  | nil => exact absurd rfl h
  | cons b l => simp [List.intercalate, List.intersperse]

/-- Flattening the fragments of a run of types and one more text gives the texts
joined by `", "`. -/
theorem flatten_funds_vec (codes : List Char) (x : List Char) :
    (funds_vec codes).flatten ++ x = comma_sep (codes.map sp ++ [x]) := by
  induction codes with
  | nil => simp [funds_vec, comma_sep, List.intercalate]
  | cons c cs ih =>
    have h : funds_vec (c :: cs) = [sp c, ", ".toList] ++ funds_vec cs := by
      simp [funds_vec]
    rw [h]
    simp only [List.map_cons, List.cons_append, comma_sep]
    rw [intercalate_cons_of_ne_nil _ _ _ (by simp)]
    simp only [comma_sep] at ih
    rw [← ih]
    simp

/-- The driver after a head that is not a constructor or destructor: `F`, the
parameter loop, and the closing parenthesis. -/
theorem demangle_state_params (fuel errno : Nat) (s : List Char) (d0 d1 : demangle_data)
    (hh : read_func_name s (init_demangle_data 0 errno) = .ok d0)
    (ht : d0.type = ENCODE_FUNC ∨ d0.type = ENCODE_OP) (hF : peek s d0.p = .ok 'F')
    (hl : arg_loop s fuel 0 { d0 with p := d0.p + 1, vec := d0.vec ++ ["(".toList] } = .ok d1) :
    demangle_state fuel errno s = .ok { d1 with vec := d1.vec ++ [")".toList] } := by
  have h1 : ¬ (d0.type = ENCODE_OP_CT) := by rcases ht with h | h <;> simp [h]
  have h2 : ¬ (d0.type = ENCODE_OP_DT) := by rcases ht with h | h <;> simp [h]
  have h3 : vpush (skip d0 1) "(" 1 = { d0 with p := d0.p + 1, vec := d0.vec ++ ["(".toList] } := by
    simp [vpush, skip, vector_str_push]
  simp only [demangle_state, hh, bind_ok, if_neg h1, if_neg h2, hF, ne_eq, not_true_eq_false,
    if_false, h3, hl]
  simp [vpush, vector_str_push]

/-- The state that is flattened when a head (`pre`, leaving the fragments `hv`) is
followed by `F` and fundamental parameter types up to the end of the input; at
most 129 types pass the loop counter. -/
theorem params_funds_state (errno : Nat) (s pre : List Char) (hv : vector_str)
    (ty : encode_type) (init : List Char) (last : Char)
    (hh : read_func_name s (init_demangle_data 0 errno) =
      .ok ⟨false, false, false, pre.length, ty, hv, [], errno⟩)
    (hty : ty = ENCODE_FUNC ∨ ty = ENCODE_OP) (hk : init.length ≤ 128)
    (hall : ∀ c ∈ init, c ∈ fund_codes) (hlast : last ∈ fund_codes)
    (hs : s = pre ++ "F".toList ++ (init ++ [last])) :
    demangle_state (s.length + 1) errno s =
      .ok ⟨false, false, false, s.length, ty,
        hv ++ ["(".toList] ++ funds_vec init ++ [sp last] ++ [")".toList],
        init.map sp, errno⟩ := by
  have hF : peek s pre.length = .ok 'F' := by
    rw [hs]; simpa [List.append_assoc] using peek_at pre (init ++ [last]) 'F'
  have hst : stands_at s (pre.length + 1) init := by
    have := stands_at_append (pre ++ "F".toList) init [last]
    rw [hs]
    simpa [List.append_assoc] using this
  have hpl : peek s (pre.length + 1 + init.length) = .ok last := by
    have := peek_at (pre ++ "F".toList ++ init) [] last
    rw [hs]
    convert this using 2
    · simp [List.append_assoc]
    · simp [List.append_assoc]; omega
  have hlen : s.length = pre.length + 1 + init.length + 1 := by
    rw [hs]; simp [List.append_assoc]; omega
  have hpe : peek s (pre.length + 1 + init.length + 1) = .ok NUL := by
    rw [← hlen]; exact peek_end s
  have hfuel : s.length + 1 = (s.length - init.length) + 1 + init.length := by omega
  have hlastN := (fund_codes_facts last hlast).2.2.2.2.2.1
  have hrun := arg_loop_funds s last hlastN init (s.length - init.length + 1) 0
    ⟨false, false, false, pre.length + 1, ty, hv ++ ["(".toList], [], errno⟩
    hall hst hpl ⟨rfl, rfl, rfl⟩ (by omega)
  have hfin := arg_loop_last s (s.length - init.length) (0 + init.length)
    ⟨false, false, false, pre.length + 1 + init.length, ty,
      hv ++ ["(".toList] ++ funds_vec init, [] ++ init.map sp, errno⟩
    last hlast hpl hpe ⟨rfl, rfl, rfl⟩
  have hl := hrun.trans hfin
  rw [← hfuel] at hl
  have := demangle_state_params (s.length + 1) errno s _ _ hh hty hF hl
  rw [this, hlen]
  simp

/-- The state in which a plain function with fundamental parameter types is
flattened. -/
theorem plain_function_state (errno : Nat) (name : List Char) (scope : Option (List Char))
    (init : List Char) (last : Char) (hn : function_name name)
    (hsc : ∀ cls, scope = some cls → class_name cls) (hk : init.length ≤ 128)
    (hall : ∀ c ∈ init, c ∈ fund_codes) (hlast : last ∈ fund_codes) (s : List Char)
    (hs : s = name ++ "__".toList ++ scope_code scope ++ "F".toList ++ (init ++ [last])) :
    demangle_state (s.length + 1) errno s =
      .ok ⟨false, false, false, s.length, ENCODE_FUNC,
        head_vec scope name ++ ["(".toList] ++ funds_vec init ++ [sp last] ++ [")".toList],
        init.map sp, errno⟩ := by
  have hh := read_func_name_head errno s name ("F".toList ++ (init ++ [last])) scope
    (by rw [hs]; simp [List.append_assoc]) hn hsc
    (fun _ => ⟨rfl, by show 'F' ≠ 'Q'; decide⟩)
  exact params_funds_state errno s _ _ _ init last hh (Or.inl rfl) hk hall hlast hs

/-- The text of a plain function head, then the parenthesised parameter texts. -/
theorem flatten_plain (scope : Option (List Char)) (name : List Char) (init : List Char)
    (x : List Char) :
    (head_vec scope name ++ ["(".toList] ++ funds_vec init ++ [x] ++ [")".toList]).flatten =
      scope_text scope ++ name ++ "(".toList ++ comma_sep (init.map sp ++ [x]) ++ ")".toList := by
  simp only [List.flatten_append, List.flatten_cons, List.flatten_nil, List.append_nil]
  rw [← flatten_funds_vec]
  cases scope <;> simp [head_vec, scope_text]

/-- C2: for every function name, every scope that is empty or one class name, and
every list of 1 to 128 fundamental type codes, `name__<scope>F<codes>` decodes to
the scope text, the name, and the spellings of the codes joined by `", "` between
parentheses. -/
theorem plain_function (errno : Nat) (name : List Char) (scope : Option (List Char))
    (codes : List Char) (hn : function_name name)
    (hsc : ∀ cls, scope = some cls → class_name cls) (hne : codes ≠ [])
    (hk : codes.length ≤ 128) (hall : ∀ c ∈ codes, c ∈ fund_codes) :
    cpp_demangle_ARM errno (name ++ "__".toList ++ scope_code scope ++ "F".toList ++ codes) =
      .ok (scope_text scope ++ name ++ "(".toList ++ comma_sep (codes.map sp) ++ ")".toList) := by
  obtain ⟨init, last, rfl⟩ : ∃ init last, codes = init ++ [last] :=
    ⟨codes.dropLast, codes.getLast hne, (List.dropLast_append_getLast hne).symm⟩
  have hst := plain_function_state errno name scope init last hn hsc
    (by simp at hk; omega) (fun c hc => hall c (by simp [hc])) (hall last (by simp)) _ rfl
  simp only [cpp_demangle_ARM, cpp_demangle_ARM_fuel, hst, bind_ok, vector_str_get_flat,
    flatten_plain]
  simp

theorem plain_function_witness :
    cpp_demangle_ARM 0 "bar__3FooFic".toList = .ok "Foo::bar(int, char)".toList :=
  plain_function 0 "bar".toList (some "Foo".toList) "ic".toList
    (by simp [function_name]; decide) (by simp [class_name]; decide) (by simp) (by simp)
    (by decide)

/-! ## Operators with a class scope -/

/-- The simple cases of `read_op`: two characters are consumed and `operator`
followed by the symbol is pushed. -/
theorem read_op_simple : ∀ e ∈ simple_ops, ∀ (s : List Char) (d : demangle_data),
    peek s d.p = .ok e.1 → peek s (d.p + 1) = .ok e.2.1 →
    read_op s d = .ok { d with p := d.p + 2, vec := d.vec ++ ["operator".toList ++ e.2.2.toList] } := by
  intro e he
  simp only [simple_ops, List.mem_cons, List.mem_singleton, List.mem_nil_iff, or_false] at he
  rcases he with rfl | rfl | rfl | rfl | rfl | rfl | rfl | rfl | rfl | rfl | rfl | rfl |
    rfl | rfl | rfl | rfl | rfl | rfl | rfl | rfl | rfl | rfl | rfl | rfl <;>
  · intro s d h0 h1
    unfold read_op
    rw [h0, h1]
    rfl

/-- The fixed three-character cases of `read_op`. -/
theorem read_op_fixed3 : ∀ e ∈ fixed3_ops, ∀ (s : List Char) (d : demangle_data),
    peek s d.p = .ok e.1 → peek s (d.p + 1) = .ok e.2.1 → peek s (d.p + 2) = .ok e.2.2.1 →
    read_op s d =
      .ok { d with p := d.p + 3, vec := d.vec ++ ["operator".toList ++ e.2.2.2.toList] } := by
  intro e he
  simp only [fixed3_ops, List.mem_cons, List.mem_singleton, List.mem_nil_iff, or_false] at he
  rcases he with rfl | rfl | rfl | rfl | rfl <;>
  · intro s d h0 h1 h2
    have h : ∀ (c : Char) (lit : String) (len : Nat), peek s (d.p + 2) = .ok c →
        op_push3 s d c lit len = .ok (vpush (skip d 3) lit len) := by
      intro c lit len hc
      simp [op_push3, hc]
    unfold read_op
    rw [h0, h1]
    exact h _ _ _ h2

/-- Name resolution of an operator with a class-name scope: `pre` is `"__"`, the
operator code and the two skipped characters; `read_op` has left the cursor at
`q` and the fragment `frag`. -/
theorem read_func_name_op (errno q : Nat) (s pre cls rest frag : List Char)
    (hs : s = pre ++ class_code cls ++ rest) (hc : class_name cls)
    (h0 : peek s 0 = .ok '_') (h1 : peek s 1 = .ok '_') (hq : q + 2 = pre.length)
    (hop : read_op s ⟨false, false, false, 2, ENCODE_OP, [], [], errno⟩ =
      .ok ⟨false, false, false, q, ENCODE_OP, [frag], [], errno⟩) :
    read_func_name s (init_demangle_data 0 errno) =
      .ok ⟨false, false, false, (pre ++ class_code cls).length, ENCODE_OP,
        [cls, "::".toList, frag], [], errno⟩ := by
  obtain ⟨a, hpk, ha⟩ := peek_class_code pre cls rest
  have hQ := isdigit_ne_Q a ha
  have hrc := read_class_ok pre cls rest
    ⟨false, false, false, q + 2, ENCODE_OP, [], [], errno⟩ hq hc
  rw [← hs] at hpk hrc
  rw [← hq] at hpk
  unfold read_func_name
  simp only [init_demangle_data, h0, bind_ok, if_true, skip, Nat.zero_add, h1, pure_eq_ok,
    decide_True, hop]
  simp only [hpk, bind_ok, if_neg hQ, ha, if_true, scoped_op, List.getLast?_singleton,
    vector_str_pop, List.dropLast_single, hrc, vpush, vector_str_push]
  have ht : List.take (frag.length + 1) frag = frag := List.take_of_length_le (by omega)
  simp [ht]

/-- The state in which an operator with a class-name scope and fundamental
parameter types is flattened. -/
theorem scoped_op_state (errno q : Nat) (s pre cls frag init : List Char) (last : Char)
    (hs : s = pre ++ class_code cls ++ "F".toList ++ (init ++ [last])) (hc : class_name cls)
    (h0 : peek s 0 = .ok '_') (h1 : peek s 1 = .ok '_') (hq : q + 2 = pre.length)
    (hop : read_op s ⟨false, false, false, 2, ENCODE_OP, [], [], errno⟩ =
      .ok ⟨false, false, false, q, ENCODE_OP, [frag], [], errno⟩)
    (hk : init.length ≤ 128) (hall : ∀ c ∈ init, c ∈ fund_codes) (hlast : last ∈ fund_codes) :
    demangle_state (s.length + 1) errno s =
      .ok ⟨false, false, false, s.length, ENCODE_OP,
        [cls, "::".toList, frag] ++ ["(".toList] ++ funds_vec init ++ [sp last] ++ [")".toList],
        init.map sp, errno⟩ := by
  have hh := read_func_name_op errno q s pre cls ("F".toList ++ (init ++ [last])) frag
    (by rw [hs]; simp [List.append_assoc]) hc h0 h1 hq hop
  exact params_funds_state errno s _ _ _ init last hh (Or.inr rfl) hk hall hlast hs

/-- C4: for every simple operator code with its symbol and every class name,
`"__" code "__" <n><cls> "Fi"` decodes to `cls::operator<symbol>(int)`; name
resolution leaves the class name, `"::"` and the operator fragment, in this
order, in the builder. -/
theorem scoped_simple_operator (errno : Nat) (e : Char × Char × String) (cls : List Char)
    (he : e ∈ simple_ops) (hc : class_name cls) :
    cpp_demangle_ARM errno
        ("__".toList ++ [e.1, e.2.1] ++ "__".toList ++ class_code cls ++ "Fi".toList) =
      .ok (cls ++ "::operator".toList ++ e.2.2.toList ++ "(int)".toList) ∧
    ∃ d, read_func_name
        ("__".toList ++ [e.1, e.2.1] ++ "__".toList ++ class_code cls ++ "Fi".toList)
        (init_demangle_data 0 errno) = .ok d ∧
      d.vec = [cls, "::".toList, "operator".toList ++ e.2.2.toList] ∧
      d.type = ENCODE_OP := by
  have hs : "__".toList ++ [e.1, e.2.1] ++ "__".toList ++ class_code cls ++ "Fi".toList =
      ['_', '_', e.1, e.2.1, '_', '_'] ++ class_code cls ++ "F".toList ++ ([] ++ ['i']) := by
    simp
  have hop := read_op_simple e he
    (['_', '_', e.1, e.2.1, '_', '_'] ++ class_code cls ++ "F".toList ++ ([] ++ ['i']))
    ⟨false, false, false, 2, ENCODE_OP, [], [], errno⟩ (by simp) (by simp)
  have hst := scoped_op_state errno 4 _ ['_', '_', e.1, e.2.1, '_', '_'] cls
    ("operator".toList ++ e.2.2.toList) [] 'i' rfl hc (by simp) (by simp) rfl hop (by simp)
    (by simp) (by decide)
  have hh := read_func_name_op errno 4
    (['_', '_', e.1, e.2.1, '_', '_'] ++ class_code cls ++ "F".toList ++ ([] ++ ['i']))
    ['_', '_', e.1, e.2.1, '_', '_'] cls ("F".toList ++ ([] ++ ['i']))
    ("operator".toList ++ e.2.2.toList) (by simp [List.append_assoc]) hc (by simp) (by simp)
    rfl hop
  rw [hs]
  refine ⟨?_, _, hh, rfl, rfl⟩
  simp only [cpp_demangle_ARM, cpp_demangle_ARM_fuel, hst, bind_ok, vector_str_get_flat]
  simp [funds_vec, sp]

theorem scoped_simple_operator_witness :
    cpp_demangle_ARM 0 "__rm__3FooFi".toList = .ok "Foo::operator->*(int)".toList ∧
    ∃ d, read_func_name "__rm__3FooFi".toList (init_demangle_data 0 0) = .ok d ∧
      d.vec = ["Foo".toList, "::".toList, "operator->*".toList] ∧ d.type = ENCODE_OP :=
  scoped_simple_operator 0 ('r', 'm', "->*") "Foo".toList (by decide)
    (by simp [class_name]; decide)

/-! ## The parameter-list marker -/

/-- After a head that is not a constructor or destructor, anything but `F` at the
cursor makes the driver fail. -/
theorem demangle_state_no_F (fuel errno : Nat) (s : List Char) (d0 : demangle_data) (c : Char)
    (hh : read_func_name s (init_demangle_data 0 errno) = .ok d0)
    (h1 : d0.type ≠ ENCODE_OP_CT) (h2 : d0.type ≠ ENCODE_OP_DT)
    (hpk : peek s d0.p = .ok c) (hc : c ≠ 'F') :
    demangle_state fuel errno s = .fail := by
  simp only [demangle_state, hh, bind_ok, if_neg h1, if_neg h2, hpk, ne_eq, hc, not_false_eq_true,
    if_true]

/-- Name resolution of `"__" code "__1C"` for a code with a fixed spelling. -/
theorem read_func_name_fixed (errno : Nat) (code : List Char) (sym : String) (rest : List Char)
    (he : (code, sym) ∈ fixed_spelling_ops) :
    read_func_name ("__".toList ++ code ++ "__".toList ++ class_code ['C'] ++ rest)
        (init_demangle_data 0 errno) =
      .ok ⟨false, false, false, ("__".toList ++ code ++ "__".toList ++ class_code ['C']).length,
        ENCODE_OP, [['C'], "::".toList, "operator".toList ++ sym.toList], [], errno⟩ := by
  have hcls : class_name ['C'] := by simp [class_name]; decide
  simp only [fixed_spelling_ops, List.mem_append, List.mem_map] at he
  rcases he with ⟨e, he, heq⟩ | ⟨e, he, heq⟩
  · obtain ⟨rfl, rfl⟩ := Prod.mk.inj heq
    have hop := read_op_simple e he
      ("__".toList ++ [e.1, e.2.1] ++ "__".toList ++ class_code ['C'] ++ rest)
      ⟨false, false, false, 2, ENCODE_OP, [], [], errno⟩ (by simp) (by simp)
    exact read_func_name_op errno 4 _ ("__".toList ++ [e.1, e.2.1] ++ "__".toList) ['C'] rest _
      rfl hcls (by simp) (by simp) rfl hop
  · obtain ⟨rfl, rfl⟩ := Prod.mk.inj heq
    have hop := read_op_fixed3 e he
      ("__".toList ++ [e.1, e.2.1, e.2.2.1] ++ "__".toList ++ class_code ['C'] ++ rest)
      ⟨false, false, false, 2, ENCODE_OP, [], [], errno⟩ (by simp) (by simp) (by simp)
    exact read_func_name_op errno 5 _ ("__".toList ++ [e.1, e.2.1, e.2.2.1] ++ "__".toList)
      ['C'] rest _ rfl hcls (by simp) (by simp) rfl hop

/-- C3, as the code has it: for every operator code with a fixed spelling, name
resolution of `"__" code "__1C"` renders `C::operator<symbol>` and stops at the
end of the input, the decode of that input fails for want of the `F`, and with
one fundamental parameter type `c` the input `"__" code "__1CF" c` decodes to
`C::operator<symbol>(<spelling of c>)`. -/
theorem fixed_operator_class_C (errno : Nat) (code : List Char) (sym : String)
    (he : (code, sym) ∈ fixed_spelling_ops) :
    (∃ d, read_func_name ("__".toList ++ code ++ "__1C".toList) (init_demangle_data 0 errno)
        = .ok d ∧ vector_str_get_flat d.vec = "C::operator".toList ++ sym.toList ∧
        d.p = ("__".toList ++ code ++ "__1C".toList).length) ∧
    cpp_demangle_ARM errno ("__".toList ++ code ++ "__1C".toList) = .fail ∧
    ∀ c ∈ fund_codes,
      cpp_demangle_ARM errno ("__".toList ++ code ++ "__1C".toList ++ "F".toList ++ [c]) =
        .ok ("C::operator".toList ++ sym.toList ++ "(".toList ++ sp c ++ ")".toList) := by
  have hcode : ∀ rest, "__".toList ++ code ++ "__1C".toList ++ rest =
      "__".toList ++ code ++ "__".toList ++ class_code ['C'] ++ rest := by
    intro rest
    have : class_code ['C'] = ['1', 'C'] := by decide
    simp [this]
  have hlen : ("__".toList ++ code ++ "__".toList ++ class_code ['C']).length =
      ("__".toList ++ code ++ "__1C".toList).length := by
    have := hcode []
    simp only [List.append_nil] at this
    rw [this]
  have hh := read_func_name_fixed errno code sym [] he
  rw [← hcode [], List.append_nil] at hh
  refine ⟨⟨_, hh, by simp [vector_str_get_flat], hlen⟩, ?_, ?_⟩
  · exact congrArg (fun r => r >>= fun d => Res.ok (vector_str_get_flat d.vec))
      (demangle_state_no_F _ errno _ _ NUL hh (by simp) (by simp)
        (by simp only [hlen]; exact peek_end _) (by decide))
  · intro c hc
    have hh2 := read_func_name_fixed errno code sym ("F".toList ++ ([] ++ [c])) he
    have hs : "__".toList ++ code ++ "__1C".toList ++ "F".toList ++ [c] =
        "__".toList ++ code ++ "__".toList ++ class_code ['C'] ++ "F".toList ++ ([] ++ [c]) := by
      have := hcode ("F".toList ++ [c])
      simpa [List.append_assoc] using this
    rw [← List.append_assoc] at hh2
    have hst := params_funds_state errno
      ("__".toList ++ code ++ "__".toList ++ class_code ['C'] ++ "F".toList ++ ([] ++ [c]))
      ("__".toList ++ code ++ "__".toList ++ class_code ['C']) _ _ [] c
      hh2 (Or.inr rfl) (by simp) (by simp) hc rfl
    rw [hs]
    simp only [cpp_demangle_ARM, cpp_demangle_ARM_fuel, hst, bind_ok]
    simp [vector_str_get_flat, funds_vec]

theorem fixed_operator_class_C_witness :
    (∃ d, read_func_name "__pl__1C".toList (init_demangle_data 0 0) = .ok d ∧
        vector_str_get_flat d.vec = "C::operator+".toList ∧ d.p = 8) ∧
    cpp_demangle_ARM 0 "__pl__1C".toList = .fail ∧
    cpp_demangle_ARM 0 "__pl__1CFi".toList = .ok "C::operator+(int)".toList :=
  ⟨(fixed_operator_class_C 0 "pl".toList "+" (by decide)).1,
    (fixed_operator_class_C 0 "pl".toList "+" (by decide)).2.1,
    (fixed_operator_class_C 0 "pl".toList "+" (by decide)).2.2 'i' (by decide)⟩

/-- C3, as stated, fails: `"__pl__1C"` has no `F` after the head and is a decode
failure, not `C::operator+`. -/
theorem fixed_operator_needs_F :
    cpp_demangle_ARM 0 "__pl__1C".toList = .fail ∧
    cpp_demangle_ARM 0 "__pl__1C".toList ≠ .ok "C::operator+".toList := by
  decide

/-- C10: whenever the name head resolves to something that is not a constructor
or destructor and the character at the cursor (the terminator at the end of the
input) is not `F`, the decode fails, whatever follows; no text is returned. -/
theorem missing_F_fails (errno : Nat) (s : List Char) (d0 : demangle_data) (c : Char)
    (hh : read_func_name s (init_demangle_data 0 errno) = .ok d0)
    (h1 : d0.type ≠ ENCODE_OP_CT) (h2 : d0.type ≠ ENCODE_OP_DT)
    (hpk : peek s d0.p = .ok c) (hc : c ≠ 'F') :
    cpp_demangle_ARM errno s = .fail ∧ ∀ fuel, cpp_demangle_ARM_fuel fuel errno s = .fail := by
  have h : ∀ fuel, cpp_demangle_ARM_fuel fuel errno s = .fail := by
    intro fuel
    simp only [cpp_demangle_ARM_fuel, demangle_state_no_F fuel errno s d0 c hh h1 h2 hpk hc,
      bind_fail]
  exact ⟨h _, h⟩

theorem missing_F_fails_witness :
    read_func_name "bar__3Fooi".toList (init_demangle_data 0 0) =
      .ok ⟨false, false, false, 9, ENCODE_FUNC, ["Foo".toList, "::".toList, "bar".toList], [], 0⟩ ∧
    peek "bar__3Fooi".toList 9 = .ok 'i' ∧
    cpp_demangle_ARM 0 "bar__3Fooi".toList = .fail :=
  ⟨by decide, by decide,
    (missing_F_fails 0 "bar__3Fooi".toList
      ⟨false, false, false, 9, ENCODE_FUNC, ["Foo".toList, "::".toList, "bar".toList], [], 0⟩ 'i'
      (by decide) (by decide) (by decide) (by decide) (by decide)).1⟩

/-! ## Back-references and repeats in the parameter loop -/

/-- The texts of a run of types followed by further texts, joined by `", "`. -/
theorem flatten_funds_vec_append (codes : List Char) (l : List (List Char)) (hl : l ≠ []) :
    (funds_vec codes).flatten ++ comma_sep l = comma_sep (codes.map sp ++ l) := by
  induction codes with
  | nil => simp [funds_vec]
  | cons c cs ih =>
    have h : funds_vec (c :: cs) = [sp c, ", ".toList] ++ funds_vec cs := by
      simp [funds_vec]
    rw [h]
    simp only [List.map_cons, List.cons_append]
    unfold comma_sep at ih ⊢
    rw [intercalate_cons_of_ne_nil _ _ _ (by simp [hl]), ← ih]
    simp

/-- The `T` branch of the parameter loop at the end of the input. -/
theorem arg_loop_T_last (s : List Char) (fuel try_ : Nat) (d : demangle_data) (j e : Nat)
    (a : List Char) (hpk : peek s d.p = .ok 'T')
    (hst : strtol s (d.p + 1) d.errno = ⟨(j : Int), e, d.errno⟩)
    (hj1 : 1 ≤ j) (hj2 : j ≤ 9223372036854775807) (ha : d.arg.get? (j - 1) = some a)
    (hend : peek s e = .ok NUL) :
    arg_loop s (fuel + 1) try_ d =
      .ok { d with p := e, vec := d.vec ++ [a], arg := d.arg ++ [a] } := by
  have h0 : ¬ (j = 0 ∧ (d.errno = EINVAL ∨ d.errno = ERANGE)) := by omega
  have h1 : ¬ ¬ (j > 0) := by omega
  rw [arg_loop]
  simp only [hpk, bind_ok, if_true, hst, to_size_t_of_nat j hj2, if_neg h0, if_neg h1, ha, hend,
    vector_str_push, List.take_length]

/-- The `for` loop of the `N` branch: `n` rounds push the referenced text `n`
times, `", "` in between, and record it `n` times. -/
theorem repeat_loop_spec (idx : Nat) (a : List Char) (n : Nat) :
    ∀ d : demangle_data, d.arg.get? (idx - 1) = some a →
      repeat_loop idx n d =
        .ok { d with vec := d.vec ++ (List.replicate n a).intersperse ", ".toList,
                     arg := d.arg ++ List.replicate n a } := by
  induction n with
  | zero => intro d _; simp [repeat_loop]
  | succ n ih =>
    intro d ha
    have hlt : idx - 1 < d.arg.length := by
      rcases Nat.lt_or_ge (idx - 1) d.arg.length with h | h
      · exact h
      · have hnone : d.arg.get? (idx - 1) = none := by simp [h]
        rw [hnone] at ha; cases ha
    have ha2 : (d.arg ++ [a]).get? (idx - 1) = some a := by
      simpa [List.getElem?_append_left hlt] using ha
    rw [repeat_loop]
    simp only [ha, vector_str_push, List.take_length]
    cases n with
    | zero => simp [repeat_loop]
    | succ m =>
      have := ih { d with vec := d.vec ++ [a] ++ [", ".toList], arg := d.arg ++ [a] } ha2
      simp only [ne_eq, Nat.add_one_ne_zero, not_false_eq_true, if_true, vpush, vector_str_push]
      simp only [String.toList] at this ⊢
      simp only [List.take] at this ⊢
      rw [this]
      simp [List.replicate_succ, List.intersperse]

/-- The `N` branch of the parameter loop at the end of the input. -/
theorem arg_loop_N_last (s : List Char) (fuel try_ : Nat) (d : demangle_data) (r j e : Nat)
    (c : Char) (a : List Char) (hpk : peek s d.p = .ok 'N') (hpr : peek s (d.p + 1) = .ok c)
    (hc : c.toNat = r + 48) (hr1 : 2 ≤ r) (hr2 : r ≤ 9)
    (hst : strtol s (d.p + 2) d.errno = ⟨(j : Int), e, d.errno⟩)
    (hj1 : 1 ≤ j) (hj2 : j ≤ 9223372036854775807) (ha : d.arg.get? (j - 1) = some a)
    (hend : peek s e = .ok NUL) :
    arg_loop s (fuel + 1) try_ d =
      .ok { d with p := e, vec := d.vec ++ (List.replicate r a).intersperse ", ".toList,
                   arg := d.arg ++ List.replicate r a } := by
  have h0 : ¬ (j = 0 ∧ (d.errno = EINVAL ∨ d.errno = ERANGE)) := by omega
  have h1 : ¬ ¬ (j > 0) := by omega
  have hT : ¬ ('N' = 'T') := by decide
  have h2 : ¬ ¬ (c.toNat > 48 ∧ c.toNat < 58) := by omega
  have h3 : ¬ ¬ (r > 1) := by omega
  have h4 : c.toNat - 48 = r := by omega
  have hrl := repeat_loop_spec j a r
    { d with p := e } ha
  rw [arg_loop]
  simp only [hpk, bind_ok, if_neg hT, if_true, skip, hpr, if_neg h2, Nat.add_assoc,
    Nat.reduceAdd, hst, to_size_t_of_nat j hj2, if_neg h0, if_neg h1, h4, if_neg h3, hrl, hend]

theorem get?_lt_of_some {α : Type} (l : List α) (i : Nat) (a : α) (h : l.get? i = some a) :
    i < l.length := by
  rcases Nat.lt_or_ge i l.length with h1 | h1
  · exact h1
  · have hnone : l.get? i = none := by simp [h1]
    rw [hnone] at h; cases h

/-- The state that is flattened when a head is followed by `F`, fundamental
parameter types and the back-reference `T<j>` at the end of the input. -/
theorem params_T_state (errno : Nat) (s pre : List Char) (hv : vector_str)
    (ty : encode_type) (codes : List Char) (j : Nat) (cj : Char)
    (hh : read_func_name s (init_demangle_data 0 errno) =
      .ok ⟨false, false, false, pre.length, ty, hv, [], errno⟩)
    (hty : ty = ENCODE_FUNC ∨ ty = ENCODE_OP) (hk : codes.length ≤ 128)
    (hall : ∀ c ∈ codes, c ∈ fund_codes) (hj1 : 1 ≤ j) (hj : codes.get? (j - 1) = some cj)
    (hs : s = pre ++ "F".toList ++ codes ++ "T".toList ++ Nat.toDigits 10 j) :
    demangle_state (s.length + 1) errno s =
      .ok ⟨false, false, false, s.length, ty,
        hv ++ ["(".toList] ++ funds_vec codes ++ [sp cj] ++ [")".toList],
        codes.map sp ++ [sp cj], errno⟩ := by
  obtain ⟨dne, dall, dval⟩ := toDigits_spec j
  have hjk : j - 1 < codes.length := get?_lt_of_some _ _ _ hj
  have hF : peek s pre.length = .ok 'F' := by
    rw [hs]; simpa [List.append_assoc] using peek_at pre (codes ++ 'T' :: Nat.toDigits 10 j) 'F'
  have hst : stands_at s (pre.length + 1) codes := by
    have := stands_at_append (pre ++ "F".toList) codes ("T".toList ++ Nat.toDigits 10 j)
    rw [hs]
    simpa [List.append_assoc] using this
  have hpT : peek s (pre.length + 1 + codes.length) = .ok 'T' := by
    have := peek_at (pre ++ "F".toList ++ codes) (Nat.toDigits 10 j) 'T'
    rw [hs]
    convert this using 2
    · simp [List.append_assoc]
    · simp [List.append_assoc]; omega
  have hlen : s.length = pre.length + 1 + codes.length + 1 + (Nat.toDigits 10 j).length := by
    rw [hs]; simp [List.append_assoc]; omega
  have hstr : strtol s (pre.length + 1 + codes.length + 1) errno =
      ⟨(j : Int), s.length, errno⟩ := by
    have := strtol_digits (pre ++ "F".toList ++ codes ++ "T".toList) (Nat.toDigits 10 j) [] errno
      dne dall (by simp) (by rw [dval]; omega)
    rw [dval] at this
    rw [hlen, hs]
    convert this using 2
    · simp
    · simp [List.append_assoc]; omega
    · simp [List.append_assoc]; omega
  have harg : ([] ++ codes.map sp).get? (j - 1) = some (sp cj) := by
    simp only [List.get?_eq_getElem?] at hj
    simp [hj]
  have hfuel : s.length + 1 = (s.length - codes.length) + 1 + codes.length := by omega
  have hrun := arg_loop_funds s 'T' (by decide) codes (s.length - codes.length + 1) 0
    ⟨false, false, false, pre.length + 1, ty, hv ++ ["(".toList], [], errno⟩
    hall hst hpT ⟨rfl, rfl, rfl⟩ (by omega)
  have hfin := arg_loop_T_last s (s.length - codes.length) (0 + codes.length)
    ⟨false, false, false, pre.length + 1 + codes.length, ty,
      hv ++ ["(".toList] ++ funds_vec codes, [] ++ codes.map sp, errno⟩ j s.length (sp cj)
    hpT hstr hj1 (by omega) harg (peek_end s)
  have hl := hrun.trans hfin
  rw [← hfuel] at hl
  have := demangle_state_params (s.length + 1) errno s _ _ hh hty hF hl
  rw [this]
  simp

/-- The state that is flattened when a head is followed by `F`, fundamental
parameter types and the repeat `N<r><j>` at the end of the input. -/
theorem params_N_state (errno : Nat) (s pre : List Char) (hv : vector_str)
    (ty : encode_type) (codes : List Char) (r j : Nat) (cj : Char)
    (hh : read_func_name s (init_demangle_data 0 errno) =
      .ok ⟨false, false, false, pre.length, ty, hv, [], errno⟩)
    (hty : ty = ENCODE_FUNC ∨ ty = ENCODE_OP) (hk : codes.length ≤ 128)
    (hall : ∀ c ∈ codes, c ∈ fund_codes) (hr1 : 2 ≤ r) (hr2 : r ≤ 9)
    (hj1 : 1 ≤ j) (hj : codes.get? (j - 1) = some cj)
    (hs : s = pre ++ "F".toList ++ codes ++ "N".toList ++ [Nat.digitChar r] ++
      Nat.toDigits 10 j) :
    demangle_state (s.length + 1) errno s =
      .ok ⟨false, false, false, s.length, ty,
        hv ++ ["(".toList] ++ funds_vec codes ++
          (List.replicate r (sp cj)).intersperse ", ".toList ++ [")".toList],
        codes.map sp ++ List.replicate r (sp cj), errno⟩ := by
  obtain ⟨dne, dall, dval⟩ := toDigits_spec j
  have hjk : j - 1 < codes.length := get?_lt_of_some _ _ _ hj
  have hrc : (Nat.digitChar r).toNat = r + 48 := by
    obtain ⟨h1, h2⟩ := digitChar_spec r (by omega)
    simp only [isdigit, decide_eq_true_eq] at h1
    omega
  have hF : peek s pre.length = .ok 'F' := by
    rw [hs]
    simpa [List.append_assoc] using
      peek_at pre (codes ++ 'N' :: Nat.digitChar r :: Nat.toDigits 10 j) 'F'
  have hst : stands_at s (pre.length + 1) codes := by
    have := stands_at_append (pre ++ "F".toList) codes
      ("N".toList ++ [Nat.digitChar r] ++ Nat.toDigits 10 j)
    rw [hs]
    simpa [List.append_assoc] using this
  have hpN : peek s (pre.length + 1 + codes.length) = .ok 'N' := by
    have := peek_at (pre ++ "F".toList ++ codes) ([Nat.digitChar r] ++ Nat.toDigits 10 j) 'N'
    rw [hs]
    convert this using 2
    · simp [List.append_assoc]
    · simp [List.append_assoc]; omega
  have hpr : peek s (pre.length + 1 + codes.length + 1) = .ok (Nat.digitChar r) := by
    have := peek_at (pre ++ "F".toList ++ codes ++ "N".toList) (Nat.toDigits 10 j)
      (Nat.digitChar r)
    rw [hs]
    convert this using 2
    · simp [List.append_assoc]
    · simp [List.append_assoc]; omega
  have hlen : s.length =
      pre.length + 1 + codes.length + 2 + (Nat.toDigits 10 j).length := by
    rw [hs]; simp [List.append_assoc]; omega
  have hstr : strtol s (pre.length + 1 + codes.length + 2) errno =
      ⟨(j : Int), s.length, errno⟩ := by
    have := strtol_digits (pre ++ "F".toList ++ codes ++ "N".toList ++ [Nat.digitChar r])
      (Nat.toDigits 10 j) [] errno dne dall (by simp) (by rw [dval]; omega)
    rw [dval] at this
    rw [hlen, hs]
    convert this using 2
    · simp
    · simp [List.append_assoc]; omega
    · simp [List.append_assoc]; omega
  have harg : ([] ++ codes.map sp).get? (j - 1) = some (sp cj) := by
    simp only [List.get?_eq_getElem?] at hj
    simp [hj]
  have hfuel : s.length + 1 = (s.length - codes.length) + 1 + codes.length := by omega
  have hrun := arg_loop_funds s 'N' (by decide) codes (s.length - codes.length + 1) 0
    ⟨false, false, false, pre.length + 1, ty, hv ++ ["(".toList], [], errno⟩
    hall hst hpN ⟨rfl, rfl, rfl⟩ (by omega)
  have hfin := arg_loop_N_last s (s.length - codes.length) (0 + codes.length)
    ⟨false, false, false, pre.length + 1 + codes.length, ty,
      hv ++ ["(".toList] ++ funds_vec codes, [] ++ codes.map sp, errno⟩ r j s.length
    (Nat.digitChar r) (sp cj) hpN hpr hrc hr1 hr2 hstr hj1 (by omega) harg (peek_end s)
  have hl := hrun.trans hfin
  rw [← hfuel] at hl
  have := demangle_state_params (s.length + 1) errno s _ _ hh hty hF hl
  rw [this]
  simp

/-- The text of a plain function head, then the parenthesised parameter texts
with a repeated text at the end. -/
theorem flatten_plain_repeat (scope : Option (List Char)) (name : List Char)
    (codes : List Char) (x : List Char) (r : Nat) (hr : 1 ≤ r) :
    (head_vec scope name ++ ["(".toList] ++ funds_vec codes ++
        (List.replicate r x).intersperse ", ".toList ++ [")".toList]).flatten =
      scope_text scope ++ name ++ "(".toList ++
        comma_sep (codes.map sp ++ List.replicate r x) ++ ")".toList := by
  have hne : List.replicate r x ≠ [] := by
    intro h
    have := congrArg List.length h
    simp at this
    omega
  rw [← flatten_funds_vec_append codes _ hne]
  simp only [List.flatten_append, List.flatten_cons, List.flatten_nil, List.append_nil,
    comma_sep, List.intercalate]
  cases scope <;> simp [head_vec, scope_text]

/-- C5: for every plain function head, every list of at most 128 fundamental
type codes and every index `j` from 1 to their number, `F<codes>T<j>` at the end
of the input renders the spellings of the codes and then the one of the `j`-th
code again, joined by `", "`; the argument table ends with one entry more than
there are codes, the last equal to entry `j`. -/
theorem back_reference (errno : Nat) (name : List Char) (scope : Option (List Char))
    (codes : List Char) (j : Nat) (cj : Char) (hn : function_name name)
    (hsc : ∀ cls, scope = some cls → class_name cls) (hk : codes.length ≤ 128)
    (hall : ∀ c ∈ codes, c ∈ fund_codes) (hj1 : 1 ≤ j) (hj : codes.get? (j - 1) = some cj) :
    cpp_demangle_ARM errno
        (name ++ "__".toList ++ scope_code scope ++ "F".toList ++ codes ++ "T".toList ++
          Nat.toDigits 10 j) =
      .ok (scope_text scope ++ name ++ "(".toList ++ comma_sep (codes.map sp ++ [sp cj]) ++
        ")".toList) ∧
    ∃ d, demangle_state
        ((name ++ "__".toList ++ scope_code scope ++ "F".toList ++ codes ++ "T".toList ++
          Nat.toDigits 10 j).length + 1) errno
        (name ++ "__".toList ++ scope_code scope ++ "F".toList ++ codes ++ "T".toList ++
          Nat.toDigits 10 j) = .ok d ∧
      d.arg = codes.map sp ++ [sp cj] ∧ d.arg.length = codes.length + 1 ∧
      d.arg.get? codes.length = d.arg.get? (j - 1) := by
  generalize hS : name ++ "__".toList ++ scope_code scope ++ "F".toList ++ codes ++
    "T".toList ++ Nat.toDigits 10 j = s
  have hh := read_func_name_head errno s name
    ("F".toList ++ codes ++ "T".toList ++ Nat.toDigits 10 j) scope
    (by rw [← hS]; simp [List.append_assoc]) hn hsc
    (fun _ => ⟨rfl, by show 'F' ≠ 'Q'; decide⟩)
  have hst := params_T_state errno s _ _ _ codes j cj hh (Or.inl rfl) hk hall hj1 hj hS.symm
  have hjk : j - 1 < codes.length := get?_lt_of_some _ _ _ hj
  refine ⟨?_, _, hst, rfl, by simp, ?_⟩
  · simp only [cpp_demangle_ARM, cpp_demangle_ARM_fuel, hst, bind_ok, vector_str_get_flat,
      flatten_plain]
  · simp only [List.get?_eq_getElem?] at hj ⊢
    rw [List.getElem?_append_right (by simp), List.getElem?_append_left (by simpa using hjk)]
    simp [hj]

theorem back_reference_witness :
    cpp_demangle_ARM 0 "f__FiT1".toList = .ok "f(int, int)".toList ∧
    ∃ d, demangle_state ("f__FiT1".toList.length + 1) 0 "f__FiT1".toList = .ok d ∧
      d.arg = ["int".toList, "int".toList] ∧ d.arg.length = 1 + 1 ∧
      d.arg.get? 1 = d.arg.get? (1 - 1) :=
  back_reference 0 "f".toList none "i".toList 1 'i' (by simp [function_name]; decide)
    (by simp) (by simp) (by decide) (by decide) (by decide)

/-- C6: for every plain function head, every list of at most 128 fundamental
type codes, every repeat digit `r` from 2 to 9 and every index `j` from 1 to the
number of codes, `F<codes>N<r><j>` at the end of the input renders the spellings
of the codes and then the one of the `j`-th code `r` times, all joined by `", "`,
and appends exactly `r` entries, each equal to entry `j`, to the argument table. -/
theorem repeat_expansion (errno : Nat) (name : List Char) (scope : Option (List Char))
    (codes : List Char) (r j : Nat) (cj : Char) (hn : function_name name)
    (hsc : ∀ cls, scope = some cls → class_name cls) (hk : codes.length ≤ 128)
    (hall : ∀ c ∈ codes, c ∈ fund_codes) (hr1 : 2 ≤ r) (hr2 : r ≤ 9)
    (hj1 : 1 ≤ j) (hj : codes.get? (j - 1) = some cj) :
    cpp_demangle_ARM errno
        (name ++ "__".toList ++ scope_code scope ++ "F".toList ++ codes ++ "N".toList ++
          [Nat.digitChar r] ++ Nat.toDigits 10 j) =
      .ok (scope_text scope ++ name ++ "(".toList ++
        comma_sep (codes.map sp ++ List.replicate r (sp cj)) ++ ")".toList) ∧
    ∃ d, demangle_state
        ((name ++ "__".toList ++ scope_code scope ++ "F".toList ++ codes ++ "N".toList ++
          [Nat.digitChar r] ++ Nat.toDigits 10 j).length + 1) errno
        (name ++ "__".toList ++ scope_code scope ++ "F".toList ++ codes ++ "N".toList ++
          [Nat.digitChar r] ++ Nat.toDigits 10 j) = .ok d ∧
      d.arg = codes.map sp ++ List.replicate r (sp cj) ∧
      d.arg.length = codes.length + r := by
  generalize hS : name ++ "__".toList ++ scope_code scope ++ "F".toList ++ codes ++
    "N".toList ++ [Nat.digitChar r] ++ Nat.toDigits 10 j = s
  have hh := read_func_name_head errno s name
    ("F".toList ++ codes ++ "N".toList ++ [Nat.digitChar r] ++ Nat.toDigits 10 j) scope
    (by rw [← hS]; simp [List.append_assoc]) hn hsc
    (fun _ => ⟨rfl, by show 'F' ≠ 'Q'; decide⟩)
  have hst := params_N_state errno s _ _ _ codes r j cj hh (Or.inl rfl) hk hall hr1 hr2 hj1 hj
    hS.symm
  refine ⟨?_, _, hst, rfl, by simp⟩
  simp only [cpp_demangle_ARM, cpp_demangle_ARM_fuel, hst, bind_ok, vector_str_get_flat]
  rw [flatten_plain_repeat _ _ _ _ _ (by omega)]

theorem repeat_expansion_witness :
    cpp_demangle_ARM 0 "f__FicN32".toList = .ok "f(int, char, char, char, char)".toList ∧
    ∃ d, demangle_state ("f__FicN32".toList.length + 1) 0 "f__FicN32".toList = .ok d ∧
      d.arg = ["int".toList, "char".toList] ++ List.replicate 3 "char".toList ∧
      d.arg.length = 2 + 3 :=
  repeat_expansion 0 "f".toList none "ic".toList 3 2 'c' (by simp [function_name]; decide)
    (by simp) (by simp) (by decide) (by decide) (by decide) (by decide) (by decide)

/-! ## Deferred const -/

/-- C7: for every fundamental type code `b`, the parameter type `CP<b>` renders as
the spelling of `b` followed by `"* const"`, not as `"const "`, the spelling and
`"*"`: `"f__FCP" b` decodes to `f(<spelling>* const)`. -/
theorem deferred_const (errno : Nat) (b : Char) (hb : b ∈ fund_codes) :
    cpp_demangle_ARM errno ("f__FCP".toList ++ [b]) =
      .ok ("f(".toList ++ sp b ++ "* const)".toList) ∧
    cpp_demangle_ARM errno ("f__FCP".toList ++ [b]) ≠
      .ok ("f(const ".toList ++ sp b ++ "*)".toList) := by
  simp only [fund_codes, List.mem_cons, List.mem_singleton, List.mem_nil_iff, or_false] at hb
  rcases hb with rfl | rfl | rfl | rfl | rfl | rfl | rfl | rfl | rfl <;>
  · have h : ∀ (x y z : List Char), x = y → y ≠ z →
        (Res.ok x : Res (List Char)) = .ok y ∧ (Res.ok x : Res (List Char)) ≠ .ok z := by
      intro x y z hxy hyz
      subst hxy
      exact ⟨rfl, fun hc => hyz (Res.ok.inj hc)⟩
    exact h _ _ _ rfl (by decide)

theorem deferred_const_witness :
    cpp_demangle_ARM 0 "f__FCPi".toList = .ok "f(int* const)".toList ∧
    cpp_demangle_ARM 0 "f__FCPi".toList ≠ .ok "f(const int*)".toList :=
  deferred_const 0 'i' (by decide)

/-! ## Pointers to functions -/

/-- A round of the argument loop of a function pointer on a fundamental type
code that is not followed by `'_'`. -/
theorem fptr_args_step (s : List Char) (rfuel fuel lim : Nat) (f : demangle_data) (c c2 : Char)
    (hc : c ∈ fund_codes) (hpk : peek s f.p = .ok c) (hpk2 : peek s (f.p + 1) = .ok c2)
    (hc2 : c2 ≠ '_') (hfl : no_flags f) (hlim : lim < 128) :
    fptr_args (read_type s rfuel) s (fuel + 1) lim f =
      fptr_args (read_type s rfuel) s fuel (lim + 1)
        { f with p := f.p + 1, vec := f.vec ++ [sp c, ", ".toList] } := by
  have hrt := read_type_fund s rfuel f c hc hpk
  have hfl2 : no_flags { f with p := f.p + 1, vec := f.vec ++ [sp c] } := hfl
  have hlim2 : ¬ (lim + 1 > CPP_DEMANGLE_ARM_TRY) := by
    simp only [CPP_DEMANGLE_ARM_TRY]; omega
  rw [fptr_args]
  simp only [hrt, bind_ok, push_suffix_no_flags _ hfl2, hpk2, if_neg hc2, vpush,
    vector_str_push, if_neg hlim2]
  simp

/-- The last round of the argument loop of a function pointer: a fundamental type
code followed by `'_'`. -/
theorem fptr_args_last (s : List Char) (rfuel fuel lim : Nat) (f : demangle_data) (c : Char)
    (hc : c ∈ fund_codes) (hpk : peek s f.p = .ok c) (hpk2 : peek s (f.p + 1) = .ok '_')
    (hfl : no_flags f) :
    fptr_args (read_type s rfuel) s (fuel + 1) lim f =
      .ok { f with p := f.p + 1, vec := f.vec ++ [sp c] } := by
  have hrt := read_type_fund s rfuel f c hc hpk
  have hfl2 : no_flags { f with p := f.p + 1, vec := f.vec ++ [sp c] } := hfl
  rw [fptr_args]
  simp only [hrt, bind_ok, push_suffix_no_flags _ hfl2, hpk2, if_true]

/-- The rounds of the argument loop of a function pointer on a run of fundamental
type codes that is followed by a character other than `'_'`. -/
theorem fptr_args_funds (s : List Char) (rfuel : Nat) (c2 : Char) (hc2 : c2 ≠ '_')
    (codes : List Char) :
    ∀ (fuel lim : Nat) (f : demangle_data), (∀ c ∈ codes, c ∈ fund_codes) →
      stands_at s f.p codes → peek s (f.p + codes.length) = .ok c2 → no_flags f →
      lim + codes.length ≤ 128 →
      fptr_args (read_type s rfuel) s (fuel + codes.length) lim f =
        fptr_args (read_type s rfuel) s fuel (lim + codes.length)
          { f with p := f.p + codes.length, vec := f.vec ++ funds_vec codes } := by
  induction codes with
  | nil =>
    intro fuel lim f _ _ _ _ _
    simp [funds_vec]
  | cons c cs ih =>
    intro fuel lim f hall hst hend hfl hlim
    obtain ⟨hpk, hst2⟩ := hst
    have hc := hall c (List.mem_cons_self _ _)
    have hnext : ∃ c3, peek s (f.p + 1) = .ok c3 ∧ c3 ≠ '_' := by
      cases cs with
      | nil => exact ⟨c2, by simpa using hend, hc2⟩
      | cons b bs =>
        exact ⟨b, hst2.1, (fund_codes_facts b (hall b (by simp))).2.2.2.2.2.2.1⟩
    obtain ⟨c3, hpk3, hc3⟩ := hnext
    simp only [List.length_cons] at hlim hend ⊢
    have hstep := fptr_args_step s rfuel (fuel + cs.length) lim f c c3 hc hpk hpk3 hc3 hfl
      (by omega)
    have hih := ih fuel (lim + 1)
      { f with p := f.p + 1, vec := f.vec ++ [sp c, ", ".toList] }
      (fun x hx => hall x (List.mem_cons_of_mem _ hx)) hst2
      (by simpa [Nat.add_assoc, Nat.add_comm 1] using hend) hfl (by omega)
    rw [← Nat.add_assoc, hstep, hih]
    simp [funds_vec, Nat.add_assoc, Nat.add_comm 1]

/-- The production `PF<args>_<ret>` of `read_type` for fundamental argument types
(`init` and `last`, at most 129 in all) and a fundamental return type `r`. -/
theorem read_type_fptr (s : List Char) (fuel : Nat) (d : demangle_data) (init : List Char)
    (last r : Char) (hP : peek s d.p = .ok 'P') (hF : peek s (d.p + 1) = .ok 'F')
    (hst : stands_at s (d.p + 2) (init ++ [last])) (hk : init.length ≤ 128)
    (hall : ∀ c ∈ init, c ∈ fund_codes) (hlast : last ∈ fund_codes)
    (hU : peek s (d.p + 2 + init.length + 1) = .ok '_')
    (hR : peek s (d.p + 2 + init.length + 2) = .ok r) (hr : r ∈ fund_codes) :
    read_type s (fuel + 1) d =
      .ok { d with p := d.p + 2 + init.length + 3,
                   vec := d.vec ++ [sp r, " (*)(".toList,
                     comma_sep (init.map sp ++ [sp last]), ")".toList] } := by
  have hst1 : stands_at s (d.p + 2) init ∧ peek s (d.p + 2 + init.length) = .ok last := by
    clear hU hR hk hall
    generalize d.p + 2 = q at hst ⊢
    induction init generalizing q with
    | nil => exact ⟨trivial, by simpa using hst.1⟩
    | cons a l ih =>
      obtain ⟨h1, h2⟩ := hst
      obtain ⟨h3, h4⟩ := ih (q + 1) h2
      exact ⟨⟨h1, h3⟩, by simpa [Nat.add_assoc, Nat.add_comm 1] using h4⟩
  obtain ⟨hsti, hpl⟩ := hst1
  have hlast_ := (fund_codes_facts last hlast).2.2.2.2.2.2.1
  have hfuel : CPP_DEMANGLE_ARM_TRY + 1 = (128 - init.length) + 1 + init.length := by
    simp only [CPP_DEMANGLE_ARM_TRY]; omega
  have hrun := fptr_args_funds s fuel last hlast_ init (128 - init.length + 1) 0
    ⟨false, false, false, d.p + 2, ENCODE_FUNC, [], [], d.errno⟩ hall hsti hpl
    ⟨rfl, rfl, rfl⟩ (by omega)
  have hfin := fptr_args_last s fuel (128 - init.length) (0 + init.length)
    ⟨false, false, false, d.p + 2 + init.length, ENCODE_FUNC, [] ++ funds_vec init, [], d.errno⟩
    last hlast hpl hU ⟨rfl, rfl, rfl⟩
  have hargs := hrun.trans hfin
  rw [← hfuel] at hargs
  have hret := read_type_fund s fuel
    ⟨false, false, false, d.p + 2 + init.length + 2, ENCODE_FUNC, [], [], d.errno⟩ r hr hR
  have hmod : is_modifier_code 'P' = true := by decide
  have hPU : ¬ ('P' = 'U') := by decide
  have hPC : ¬ ('P' = 'C') := by decide
  have hPV : ¬ ('P' = 'V') := by decide
  have hPS : ¬ ('P' = 'S') := by decide
  rw [read_type]
  simp only [hP, bind_ok, hmod, if_true, if_neg hPU, if_neg hPC, if_neg hPV, if_neg hPS, skip,
    hF, init_demangle_data, Nat.add_assoc, Nat.reduceAdd] at hargs hret ⊢
  simp only [hargs, bind_ok, hret, vector_str_get_flat, vpush, vector_str_push,
    List.take_length, List.nil_append, ← flatten_funds_vec, Nat.add_assoc, Nat.reduceAdd]
  simp

/-- The production `PF<args>_<ret>` standing at offset `pre.length`. -/
theorem read_type_fptr_at (s pre post : List Char) (fuel : Nat) (d : demangle_data)
    (init : List Char) (last r : Char)
    (hs : s = pre ++ "PF".toList ++ (init ++ [last]) ++ "_".toList ++ [r] ++ post)
    (hp : d.p = pre.length) (hk : init.length ≤ 128)
    (hall : ∀ c ∈ init, c ∈ fund_codes) (hlast : last ∈ fund_codes) (hr : r ∈ fund_codes) :
    read_type s (fuel + 1) d =
      .ok { d with p := (pre ++ "PF".toList ++ (init ++ [last]) ++ "_".toList ++ [r]).length,
                   vec := d.vec ++ [sp r, " (*)(".toList,
                     comma_sep (init.map sp ++ [sp last]), ")".toList] } := by
  have hP : peek s d.p = .ok 'P' := by
    rw [hs, hp]
    simpa [List.append_assoc] using
      peek_at pre ('F' :: (init ++ [last] ++ '_' :: r :: post)) 'P'
  have hF : peek s (d.p + 1) = .ok 'F' := by
    have := peek_at (pre ++ ['P']) (init ++ [last] ++ '_' :: r :: post) 'F'
    rw [hs, hp]
    convert this using 2
    · simp [List.append_assoc]
    · simp
  have hst : stands_at s (d.p + 2) (init ++ [last]) := by
    have := stands_at_append (pre ++ "PF".toList) (init ++ [last]) ("_".toList ++ [r] ++ post)
    have e1 : (pre ++ "PF".toList).length = pre.length + 2 := by simp
    rw [e1] at this
    rw [hs, hp]
    simp only [List.append_assoc] at this ⊢
    exact this
  have hU : peek s (d.p + 2 + init.length + 1) = .ok '_' := by
    have := peek_at (pre ++ "PF".toList ++ (init ++ [last])) (r :: post) '_'
    rw [hs, hp]
    convert this using 2
    · simp [List.append_assoc]
    · simp [List.append_assoc]; omega
  have hR : peek s (d.p + 2 + init.length + 2) = .ok r := by
    have := peek_at (pre ++ "PF".toList ++ (init ++ [last]) ++ "_".toList) post r
    rw [hs, hp]
    convert this using 2
    · simp [List.append_assoc]
    · simp [List.append_assoc]; omega
  rw [read_type_fptr s fuel d init last r hP hF hst hk hall hlast hU hR hr, hp]
  simp [List.append_assoc]
  omega

/-- The last round of the parameter loop when `read_type` has left no pending
flag and the cursor at the end of the input. -/
theorem arg_loop_type_last (s : List Char) (fuel try_ : Nat) (d d2 : demangle_data) (c : Char)
    (hpk : peek s d.p = .ok c) (hT : c ≠ 'T') (hN : c ≠ 'N')
    (hrt : read_type s fuel d = .ok d2) (hfl : no_flags d2) (hend : peek s d2.p = .ok NUL) :
    arg_loop s (fuel + 1) try_ d = .ok d2 := by
  rw [arg_loop]
  simp only [hpk, bind_ok, if_neg hT, if_neg hN, hrt, push_suffix_no_flags _ hfl, hend, if_true]

/-- C8: for every non-empty list of at most 128 fundamental type codes `as` and
every fundamental return code `r`, the type `PF<as>_<r>` renders as the spelling
of `r`, `" (*)("`, the spellings of `as` joined by `", "`, and `")"`; the cursor
ends right after `r` and nothing else of the state changes.  As the only
parameter of `f` it decodes to `f(<that text>)`. -/
theorem nested_function_pointer (pre post : List Char) (fuel : Nat) (d : demangle_data)
    (as : List Char) (r : Char) (hp : d.p = pre.length) (hne : as ≠ [])
    (hk : as.length ≤ 128) (hall : ∀ c ∈ as, c ∈ fund_codes) (hr : r ∈ fund_codes) :
    read_type (pre ++ "PF".toList ++ as ++ "_".toList ++ [r] ++ post) (fuel + 1) d =
      .ok { d with p := (pre ++ "PF".toList ++ as ++ "_".toList ++ [r]).length,
                   vec := d.vec ++ [sp r, " (*)(".toList, comma_sep (as.map sp), ")".toList] } ∧
    vector_str_get_flat [sp r, " (*)(".toList, comma_sep (as.map sp), ")".toList] =
      sp r ++ " (*)(".toList ++ comma_sep (as.map sp) ++ ")".toList ∧
    ∀ errno, cpp_demangle_ARM errno ("f__F".toList ++ "PF".toList ++ as ++ "_".toList ++ [r]) =
      .ok ("f(".toList ++ sp r ++ " (*)(".toList ++ comma_sep (as.map sp) ++ "))".toList) := by
  obtain ⟨init, last, rfl⟩ : ∃ init last, as = init ++ [last] :=
    ⟨as.dropLast, as.getLast hne, (List.dropLast_append_getLast hne).symm⟩
  have hk2 : init.length ≤ 128 := by simp at hk; omega
  have hall2 : ∀ c ∈ init, c ∈ fund_codes := fun c hc => hall c (by simp [hc])
  have hlast : last ∈ fund_codes := hall last (by simp)
  have hmap : List.map sp (init ++ [last]) = init.map sp ++ [sp last] := by simp
  refine ⟨?_, by simp [vector_str_get_flat], ?_⟩
  · rw [hmap]
    exact read_type_fptr_at _ pre post fuel d init last r rfl hp hk2 hall2 hlast hr
  · intro errno
    generalize hS : "f__F".toList ++ "PF".toList ++ (init ++ [last]) ++ "_".toList ++ [r] = s
    have hS2 : s = "f__F".toList ++ "PF".toList ++ (init ++ [last]) ++ "_".toList ++ [r] ++ [] := by
      rw [← hS]; simp
    have hlen : s.length = ("f__F".toList ++ "PF".toList ++ (init ++ [last]) ++ "_".toList ++
        [r]).length := by rw [hS]
    have hh := read_func_name_head errno s "f".toList
      ("F".toList ++ "PF".toList ++ (init ++ [last]) ++ "_".toList ++ [r]) none
      (by rw [← hS]; simp [scope_code]) (by simp [function_name]; decide) (by simp)
      (fun _ => ⟨rfl, by show 'F' ≠ 'Q'; decide⟩)
    have hF : peek s 3 = .ok 'F' := by rw [← hS]; simp
    have hP : peek s 4 = .ok 'P' := by rw [← hS]; simp
    have hpos : s.length = (s.length - 1) + 1 := by rw [hlen]; simp
    have hrt := read_type_fptr_at s "f__F".toList [] (s.length - 1)
      ⟨false, false, false, 4, ENCODE_FUNC, [['f'], "(".toList], [], errno⟩ init last r hS2 rfl
      hk2 hall2 hlast hr
    rw [← hpos, ← hlen] at hrt
    have hl := arg_loop_type_last s s.length 0
      ⟨false, false, false, 4, ENCODE_FUNC, [['f'], "(".toList], [], errno⟩ _ 'P' hP
      (by decide) (by decide) hrt ⟨rfl, rfl, rfl⟩ (peek_end s)
    have := demangle_state_params (s.length + 1) errno s _ _ hh (Or.inl rfl)
      (by simpa [scope_code] using hF) (by simpa [scope_code, head_vec] using hl)
    simp only [cpp_demangle_ARM, cpp_demangle_ARM_fuel, this, bind_ok, vector_str_get_flat, hmap]
    simp

theorem nested_function_pointer_witness :
    read_type "PFi_v".toList (0 + 1) (init_demangle_data 0 0) =
      .ok ⟨false, false, false, 5, ENCODE_FUNC,
        ["void".toList, " (*)(".toList, "int".toList, ")".toList], [], 0⟩ ∧
    vector_str_get_flat ["void".toList, " (*)(".toList, "int".toList, ")".toList] =
      "void (*)(int)".toList ∧
    cpp_demangle_ARM 0 "f__FPFi_v".toList = .ok "f(void (*)(int))".toList :=
  ⟨(nested_function_pointer [] [] 0 (init_demangle_data 0 0) "i".toList 'v' rfl (by simp)
      (by simp) (by decide) (by decide)).1,
    (nested_function_pointer [] [] 0 (init_demangle_data 0 0) "i".toList 'v' rfl (by simp)
      (by simp) (by decide) (by decide)).2.1,
    (nested_function_pointer [] [] 0 (init_demangle_data 0 0) "i".toList 'v' rfl (by simp)
      (by simp) (by decide) (by decide)).2.2 0⟩

/-! ## Back-references out of range -/

/-- C9 fails on the code: with `errno` clear, the index 0 in `"f__FiT0"` and in
`"f__FiN20"` runs into the failing `assert(idx > 0)`, and the index 5 in
`"f__FiT5"` and in `"f__FiN25"`, with one entry recorded, reads the argument
table out of range; none of them is a decode failure. -/
theorem backref_out_of_range :
    cpp_demangle_ARM 0 "f__FiT0".toList = .abort ∧
    (∀ errno, cpp_demangle_ARM errno "f__FiT5".toList = .oob) ∧
    cpp_demangle_ARM 0 "f__FiN20".toList = .abort ∧
    (∀ errno, cpp_demangle_ARM errno "f__FiN25".toList = .oob) :=
  ⟨by decide, fun _ => rfl, by decide, fun _ => rfl⟩

/-! ## The detection heuristic -/

/-- Without `"__"` in the input, name resolution goes to `read_func` and fails. -/
theorem read_func_name_no_delim (s : List Char) (d : demangle_data) (hp : d.p = 0)
    (hno : strnstr s = none) : read_func_name s d = .fail := by
  have hrf : read_func s d = .fail := by
    simp [read_func, hp, hno]
  unfold read_func_name
  rw [hp]
  cases s with
  | nil =>
    have h0 : ¬ (NUL = '_') := by decide
    simp only [peek, List.get?_nil, List.length_nil, if_true, bind_ok, if_neg h0, pure_eq_ok]
    simpa [read_func_name, hp] using hrf
  | cons a l =>
    by_cases ha : a = '_'
    · cases l with
      | nil =>
        have h0 : ¬ (NUL = '_') := by decide
        have h1 : peek [a] (0 + 1) = .ok NUL := peek_end [a]
        simp only [peek_zero, bind_ok, ha, if_true, h1, pure_eq_ok, h0, decide_False]
        simpa [ha] using hrf
      | cons b l =>
        have hb : b ≠ '_' := by
          intro hb
          simp [strnstr, ha, hb] at hno
        simp only [peek_zero, bind_ok, ha, if_true, Nat.zero_add, peek_succ, pure_eq_ok, hb,
          decide_False]
        simpa [ha] using hrf
    · simp only [peek_zero, bind_ok, if_neg ha, pure_eq_ok]
      simpa using hrf

/-- C11: `is_cpp_mangled_ARM` holds exactly for the inputs that contain `"__"`;
an input without `"__"` is a decode failure, so every input that decodes
satisfies `is_cpp_mangled_ARM`. -/
theorem detection_no_false_negative (errno : Nat) (s : List Char) :
    (is_cpp_mangled_ARM s = true ↔ ['_', '_'] <:+: s) ∧
    (¬ (['_', '_'] <:+: s) → cpp_demangle_ARM errno s = .fail) ∧
    (∀ t, cpp_demangle_ARM errno s = .ok t → is_cpp_mangled_ARM s = true) := by
  have hiff : is_cpp_mangled_ARM s = true ↔ ['_', '_'] <:+: s := by
    have h := strnstr_eq_none_iff s
    unfold is_cpp_mangled_ARM
    cases hs : strnstr s with
    | none => simpa [hs] using h
    | some i =>
      have : ¬ (strnstr s = none) := by simp [hs]
      simpa using (not_congr h).1 this
  have hfail : ¬ (['_', '_'] <:+: s) → cpp_demangle_ARM errno s = .fail := by
    intro hno
    have h := read_func_name_no_delim s (init_demangle_data 0 errno) rfl
      ((strnstr_eq_none_iff s).2 hno)
    simp only [cpp_demangle_ARM, cpp_demangle_ARM_fuel, demangle_state, h, bind_fail]
  refine ⟨hiff, hfail, ?_⟩
  intro t ht
  by_contra hc
  have hno : ¬ (['_', '_'] <:+: s) := fun h => hc (hiff.2 h)
  rw [hfail hno] at ht
  cases ht

theorem detection_no_false_negative_witness :
    is_cpp_mangled_ARM "f_Fi".toList = false ∧ cpp_demangle_ARM 0 "f_Fi".toList = .fail ∧
    is_cpp_mangled_ARM "f__Fi".toList = true :=
  ⟨by decide,
    (detection_no_false_negative 0 "f_Fi".toList).2.1
      (fun h => by
        have := (detection_no_false_negative 0 "f_Fi".toList).1.2 h
        revert this; decide),
    (detection_no_false_negative 0 "f__Fi".toList).2.2 "f(int)".toList (by decide)⟩

/-! ## Unknown operator codes -/

/-- A pair of characters whose hash is the hash of no case label takes the
`default` case of `read_op`. -/
theorem read_op_default (s : List Char) (d : demangle_data) (a b : Char)
    (h0 : peek s d.p = .ok a) (h1 : peek s (d.p + 1) = .ok b)
    (hk : ∀ k ∈ op_keys, SIMPLE_HASH a b ≠ SIMPLE_HASH k.1 k.2) :
    read_op s d = .fail := by
  simp only [op_keys, List.forall_mem_cons, List.not_mem_nil, false_implies, implies_true,
    and_true, ne_eq] at hk
  obtain ⟨k1, k2, k3, k4, k5, k6, k7, k8, k9, k10, k11, k12, k13, k14, k15, k16, k17, k18, k19,
    k20, k21, k22, k23, k24, k25, k26, k27, k28, k29, k30, k31, k32, k33, k34, k35, k36, k37,
    k38⟩ := hk
  unfold read_op
  simp only [h0, h1, bind_ok, if_neg k1, if_neg k2, if_neg k3, if_neg k4, if_neg k5, if_neg k6,
    if_neg k7, if_neg k8, if_neg k9, if_neg k10, if_neg k11, if_neg k12, if_neg k13, if_neg k14,
    if_neg k15, if_neg k16, if_neg k17, if_neg k18, if_neg k19, if_neg k20, if_neg k21,
    if_neg k22, if_neg k23, if_neg k24, if_neg k25, if_neg k26, if_neg k27, if_neg k28,
    if_neg k29, if_neg k30, if_neg k31, if_neg k32, if_neg k33, if_neg k34, if_neg k35,
    if_neg k36, if_neg k37, if_neg k38]

/-- An operator head whose code takes the `default` case of `read_op` is a decode
failure, whatever follows. -/
theorem demangle_op_default (errno : Nat) (a b : Char) (rest : List Char)
    (hk : ∀ k ∈ op_keys, SIMPLE_HASH a b ≠ SIMPLE_HASH k.1 k.2) :
    cpp_demangle_ARM errno ("__".toList ++ [a, b] ++ rest) = .fail := by
  have hs : "__".toList ++ [a, b] ++ rest = '_' :: '_' :: a :: b :: rest := by simp
  have hop := read_op_default ('_' :: '_' :: a :: b :: rest)
    ⟨false, false, false, 2, ENCODE_OP, [], [], errno⟩ a b rfl rfl hk
  rw [hs]
  simp only [cpp_demangle_ARM, cpp_demangle_ARM_fuel, demangle_state, read_func_name,
    init_demangle_data, peek_zero, bind_ok, if_true, Nat.zero_add, peek_succ, pure_eq_ok,
    decide_True, skip, hop, bind_fail]

/-- C12 fails on the code: `"n,"` is no key of the operator table, yet its hash is
the one of `"ml"` and `"__n,__1CFi"` decodes as `operator*`; likewise `"d4"` is
taken for `"ct"`.  The conversion-operator code `"op"` does fail, whatever
follows. -/
theorem unknown_operator_code :
    ('n', ',') ∉ op_keys ∧ SIMPLE_HASH 'n' ',' = SIMPLE_HASH 'm' 'l' ∧
    cpp_demangle_ARM 0 "__n,__1CFi".toList = .ok "C::operator*(int)".toList ∧
    ('d', '4') ∉ op_keys ∧ SIMPLE_HASH 'd' '4' = SIMPLE_HASH 'c' 't' ∧
    cpp_demangle_ARM 0 "__d4__3Foo".toList = .ok "Foo::Foo()".toList ∧
    (∀ errno rest, cpp_demangle_ARM errno ("__op".toList ++ rest) = .fail) :=
  ⟨by decide, by decide, by decide, by decide, by decide, by decide,
    fun errno rest => demangle_op_default errno 'o' 'p' rest (by decide)⟩

/-! ## Termination -/

/-- On `A`, `F` or `M` the `while` loop of `read_type` runs again on the same
state: no amount of fuel lets it return. -/
theorem read_type_stuck (s : List Char) (d : demangle_data) (c : Char)
    (hpk : peek s d.p = .ok c) (hc : c = 'A' ∨ c = 'F' ∨ c = 'M') :
    ∀ fuel, read_type s fuel d = .nofuel := by
  have hm : is_modifier_code c = true := by
    rcases hc with rfl | rfl | rfl <;> decide
  have hn : c ≠ 'U' ∧ c ≠ 'C' ∧ c ≠ 'V' ∧ c ≠ 'S' ∧ c ≠ 'P' ∧ c ≠ 'R' := by
    rcases hc with rfl | rfl | rfl <;> decide
  obtain ⟨n1, n2, n3, n4, n5, n6⟩ := hn
  intro fuel
  induction fuel with
  | zero => simp [read_type, hpk, hm]
  | succ n ih =>
    rw [read_type]
    simp only [hpk, bind_ok, hm, if_true, if_neg n1, if_neg n2, if_neg n3, if_neg n4,
      if_neg n5, if_neg n6, ih]

/-- With `A`, `F` or `M` at the start of a parameter the parameter loop never
returns. -/
theorem arg_loop_stuck (s : List Char) (d : demangle_data) (c : Char)
    (hpk : peek s d.p = .ok c) (hc : c = 'A' ∨ c = 'F' ∨ c = 'M') (fuel try_ : Nat) :
    arg_loop s fuel try_ d = .nofuel := by
  have hT : c ≠ 'T' := by rcases hc with rfl | rfl | rfl <;> decide
  have hN : c ≠ 'N' := by rcases hc with rfl | rfl | rfl <;> decide
  cases fuel with
  | zero => rfl
  | succ n =>
    rw [arg_loop]
    simp only [hpk, bind_ok, if_neg hT, if_neg hN, read_type_stuck s d c hpk hc n, bind_nofuel]

/-- The decode of `"f__F" c rest` never returns when `c` is `A`, `F` or `M`. -/
theorem demangle_stuck (fuel errno : Nat) (c : Char) (rest : List Char)
    (hc : c = 'A' ∨ c = 'F' ∨ c = 'M') :
    cpp_demangle_ARM_fuel fuel errno ("f__F".toList ++ [c] ++ rest) = .nofuel := by
  have hh : read_func_name ("f__F".toList ++ [c] ++ rest) (init_demangle_data 0 errno) =
      .ok ⟨false, false, false, 3, ENCODE_FUNC, [['f']], [], errno⟩ := rfl
  have hst := arg_loop_stuck ("f__F".toList ++ [c] ++ rest)
    ⟨false, false, false, 4, ENCODE_FUNC, [['f'], ['(']], [], errno⟩ c rfl hc fuel 0
  have hF : peek ("f__F".toList ++ [c] ++ rest) 3 = .ok 'F' := rfl
  have h3 : vpush (skip ⟨false, false, false, 3, ENCODE_FUNC, [['f']], [], errno⟩ 1) "(" 1 =
      ⟨false, false, false, 4, ENCODE_FUNC, [['f'], ['(']], [], errno⟩ := rfl
  have h1 : ¬ (ENCODE_FUNC = ENCODE_OP_CT) := by decide
  have h2 : ¬ (ENCODE_FUNC = ENCODE_OP_DT) := by decide
  simp only [cpp_demangle_ARM_fuel, demangle_state, hh, bind_ok, if_neg h1, if_neg h2, hF,
    ne_eq, not_true_eq_false, if_false, h3, hst, bind_nofuel]

/-- C13 fails on the code: on `"f__FAi"` (and with `F` or `M` in place of `A`) the
`while` loop of `read_type` leaves its `switch` without moving the cursor, so the
decode does not return, however many rounds it is given. -/
theorem decode_hangs :
    (∀ fuel errno, cpp_demangle_ARM_fuel fuel errno "f__FAi".toList = .nofuel) ∧
    (∀ fuel errno, cpp_demangle_ARM_fuel fuel errno "f__FFi".toList = .nofuel) ∧
    (∀ fuel errno, cpp_demangle_ARM_fuel fuel errno "f__FMi".toList = .nofuel) :=
  ⟨fun fuel errno => demangle_stuck fuel errno 'A' ['i'] (Or.inl rfl),
    fun fuel errno => demangle_stuck fuel errno 'F' ['i'] (Or.inr (Or.inl rfl)),
    fun fuel errno => demangle_stuck fuel errno 'M' ['i'] (Or.inr (Or.inr rfl))⟩

/-! ## Qualified names -/

/-- The `for` loop of `read_qual_name` over well-formed components. -/
theorem read_qual_name_loop_ok (s rest : List Char) (comps : List (List Char)) :
    ∀ (pre : List Char) (d : demangle_data), s = pre ++ qual_code comps ++ rest →
      d.p = pre.length → (∀ c ∈ comps, class_name c) →
      read_qual_name_loop s comps.length d =
        .ok { d with p := (pre ++ qual_code comps).length, vec := d.vec ++ qual_vec comps } := by
  induction comps with
  | nil =>
    intro pre d _ hp _
    cases d
    simp only at hp
    subst hp
    simp [read_qual_name_loop, qual_code, qual_vec]
  | cons c cs ih =>
    intro pre d hs hp hall
    have hs1 : s = pre ++ class_code c ++ (qual_code cs ++ rest) := by
      rw [hs]; simp [qual_code, List.append_assoc]
    have hrc := read_class_ok pre c (qual_code cs ++ rest) d hp (hall c (List.mem_cons_self _ _))
    rw [← hs1] at hrc
    have hs2 : s = (pre ++ class_code c) ++ qual_code cs ++ rest := by
      rw [hs1]; simp [List.append_assoc]
    have hih := ih (pre ++ class_code c)
      { d with vec := d.vec ++ [c] ++ ["::".toList], p := (pre ++ class_code c).length }
      hs2 rfl (fun x hx => hall x (List.mem_cons_of_mem _ hx))
    simp only [List.length_cons, read_qual_name_loop, hrc, bind_ok, vpush, vector_str_push]
    have ht : List.take 2 "::".toList = "::".toList := rfl
    rw [ht, hih]
    simp [qual_code, qual_vec, List.append_assoc]

/-- `read_qual_name` on the count digit and the components of a qualified name:
the components are pushed, each followed by `"::"`, and two more characters are
skipped. -/
theorem read_qual_name_ok (s pre rest : List Char) (comps : List (List Char))
    (d : demangle_data)
    (hs : s = pre ++ [Nat.digitChar comps.length] ++ qual_code comps ++ rest)
    (hp : d.p = pre.length) (hall : ∀ c ∈ comps, class_name c)
    (h1 : 1 ≤ comps.length) (h9 : comps.length ≤ 9) :
    read_qual_name s d =
      .ok { d with p := (pre ++ [Nat.digitChar comps.length] ++ qual_code comps).length + 2,
                   vec := d.vec ++ qual_vec comps } := by
  have hdc : (Nat.digitChar comps.length).toNat = comps.length + 48 := by
    obtain ⟨h1, h2⟩ := digitChar_spec comps.length (by omega)
    simp only [isdigit, decide_eq_true_eq] at h1
    omega
  have hpk : peek s d.p = .ok (Nat.digitChar comps.length) := by
    rw [hs, hp, List.append_assoc, List.append_assoc]
    exact peek_at _ _ _
  have hloop := read_qual_name_loop_ok s rest comps (pre ++ [Nat.digitChar comps.length])
    (skip d 1) hs (by simp [skip, hp]) hall
  have hrange : ¬ ¬ ((Nat.digitChar comps.length).toNat > 48 ∧
      (Nat.digitChar comps.length).toNat < 58) := by omega
  have hnum : (Nat.digitChar comps.length).toNat - 48 = comps.length := by omega
  simp only [skip] at hloop
  unfold read_qual_name
  simp only [hpk, bind_ok, if_neg hrange, hnum, skip, hloop]

/-- Name resolution of a plain function with a qualified scope. -/
theorem read_func_name_qual (errno : Nat) (s name rest : List Char) (comps : List (List Char))
    (x y : Char)
    (hs : s = name ++ "__Q".toList ++ [Nat.digitChar comps.length] ++ qual_code comps ++
      [x, y] ++ rest)
    (hn : function_name name) (hall : ∀ c ∈ comps, class_name c)
    (h1 : 1 ≤ comps.length) (h9 : comps.length ≤ 9) :
    read_func_name s (init_demangle_data 0 errno) =
      .ok ⟨false, false, false,
        (name ++ "__Q".toList ++ [Nat.digitChar comps.length] ++ qual_code comps ++ [x, y]).length,
        ENCODE_FUNC, qual_vec comps ++ [name], [], errno⟩ := by
  have hs0 : s = name ++ ("__Q".toList ++ [Nat.digitChar comps.length] ++ qual_code comps ++
      [x, y] ++ rest) := by
    rw [hs]; simp [List.append_assoc]
  have hplain := read_func_name_plain name ("__Q".toList ++ [Nat.digitChar comps.length] ++
    qual_code comps ++ [x, y] ++ rest) (init_demangle_data 0 errno) rfl hn
  rw [← hs0] at hplain
  rw [hplain]
  obtain ⟨hne, hno, hlast⟩ := hn
  have hfind : strnstr s = some name.length := by
    have := strnstr_append name ("Q".toList ++ [Nat.digitChar comps.length] ++ qual_code comps ++
      [x, y] ++ rest) hne ((strnstr_eq_none_iff name).2 hno) hlast
    rw [hs]
    simpa [List.append_assoc] using this
  have hlen0 : name.length ≠ 0 := by
    intro h; exact hne (List.length_eq_zero.1 h)
  have htake : s.take name.length = name := by
    rw [hs]; simp [List.append_assoc]
  have hQ : peek s (name.length + 2) = .ok 'Q' := by
    have := peek_at (name ++ "__".toList)
      ([Nat.digitChar comps.length] ++ qual_code comps ++ [x, y] ++ rest) 'Q'
    rw [hs]
    convert this using 2
    · simp [List.append_assoc]
    · simp
  have hD : peek s (name.length + 2 + 1) = .ok (Nat.digitChar comps.length) := by
    have := peek_at (name ++ "__Q".toList) (qual_code comps ++ [x, y] ++ rest)
      (Nat.digitChar comps.length)
    rw [hs]
    convert this using 2
    · simp [List.append_assoc]
    · simp
  have hdig : isdigit (Nat.digitChar comps.length) = true :=
    (digitChar_spec comps.length (by omega)).1
  have hq := read_qual_name_ok s (name ++ "__Q".toList) ([x, y] ++ rest) comps
    ⟨false, false, false, name.length + 2 + 1, ENCODE_FUNC, [], [], errno⟩
    (by rw [hs]; simp [List.append_assoc]) (by simp) hall h1 h9
  unfold read_func
  simp only [init_demangle_data, List.drop_zero, hfind, if_neg hlen0, skip, Nat.zero_add,
    vector_str_push, htake, hQ, bind_ok, if_true, hD, hdig, hq]
  simp [List.append_assoc]
  omega

/-- C14: for every function name, every list of 1 to 9 class names, every two
characters `x y` and every fundamental type code `c`,
`name "__Q" N <n1><cls1> ... <nN><clsN> x y "F" c` decodes to the class names,
each followed by `"::"`, the name, and the spelling of `c` between parentheses. -/
theorem qualified_function (errno : Nat) (name : List Char) (comps : List (List Char))
    (x y c : Char) (hn : function_name name) (hall : ∀ cls ∈ comps, class_name cls)
    (h1 : 1 ≤ comps.length) (h9 : comps.length ≤ 9) (hc : c ∈ fund_codes) :
    cpp_demangle_ARM errno
        (name ++ "__Q".toList ++ [Nat.digitChar comps.length] ++ qual_code comps ++ [x, y] ++
          "F".toList ++ [c]) =
      .ok (qual_text comps ++ name ++ "(".toList ++ sp c ++ ")".toList) := by
  generalize hS : name ++ "__Q".toList ++ [Nat.digitChar comps.length] ++ qual_code comps ++
    [x, y] ++ "F".toList ++ [c] = s
  have hh := read_func_name_qual errno s name ("F".toList ++ [c]) comps x y
    (by rw [← hS]; simp [List.append_assoc]) hn hall h1 h9
  have hst := params_funds_state errno s _ _ _ [] c hh (Or.inl rfl) (by simp) (by simp) hc
    (by rw [← hS]; simp [List.append_assoc])
  have hfl : ∀ l : List (List Char), (qual_vec l).flatten = qual_text l := by
    intro l
    induction l with
    | nil => rfl
    | cons a l ih =>
      have e1 : qual_vec (a :: l) = [a, "::".toList] ++ qual_vec l := by simp [qual_vec]
      have e2 : qual_text (a :: l) = a ++ "::".toList ++ qual_text l := by simp [qual_text]
      rw [e1, e2, List.flatten_append, ih]
      simp
  simp only [cpp_demangle_ARM, cpp_demangle_ARM_fuel, hst, bind_ok, vector_str_get_flat,
    List.flatten_append, hfl]
  simp [funds_vec]

theorem qualified_function_witness :
    cpp_demangle_ARM 0 "f__Q21A1BxxFi".toList = .ok "A::B::f(int)".toList :=
  qualified_function 0 "f".toList ["A".toList, "B".toList] 'x' 'x' 'i'
    (by simp [function_name]; decide)
    (by intro cls h; simp at h; rcases h with rfl | rfl <;> (simp [class_name]; decide))
    (by simp) (by simp) (by decide)

/-! ## Operators without a scope -/

theorem peek_next_ok (s : List Char) (i : Nat) (c : Char) (h : peek s i = .ok c)
    (hc : c ≠ NUL) : ∃ c1, peek s (i + 1) = .ok c1 := by
  have hlt : i < s.length := by
    rcases Nat.lt_or_ge i s.length with h1 | h1
    · exact h1
    · have hnone : s.get? i = none := by simp [h1]
      simp only [peek, hnone] at h
      by_cases he : i = s.length
      · simp only [he, if_true] at h
        exact absurd (Res.ok.inj h).symm hc
      · simp only [if_neg he] at h
        cases h
  rcases Nat.lt_or_ge (i + 1) s.length with h1 | h1
  · refine ⟨s.get ⟨i + 1, h1⟩, ?_⟩
    have : s.get? (i + 1) = some (s.get ⟨i + 1, h1⟩) := List.get?_eq_get h1
    simp only [peek, this]
  · have he : i + 1 = s.length := by omega
    exact ⟨NUL, by rw [he]; exact peek_end s⟩

/-- C15: when `read_op` accepts an operator code that is not `ct` or `dt`, and the
character after the two skipped ones is neither a decimal digit nor a `Q` that is
followed by a decimal digit, name resolution fails and so does the decode. -/
theorem operator_without_scope (errno : Nat) (s : List Char) (d1 : demangle_data) (c : Char)
    (h0 : peek s 0 = .ok '_') (h1 : peek s 1 = .ok '_')
    (hop : read_op s ⟨false, false, false, 2, ENCODE_OP, [], [], errno⟩ = .ok d1)
    (hct : d1.type ≠ ENCODE_OP_CT) (hdt : d1.type ≠ ENCODE_OP_DT)
    (hpk : peek s (d1.p + 2) = .ok c) (hc : isdigit c = false)
    (hQ : c = 'Q' → ∀ c1, peek s (d1.p + 2 + 1) = .ok c1 → isdigit c1 = false) :
    read_func_name s (init_demangle_data 0 errno) = .fail ∧
    cpp_demangle_ARM errno s = .fail := by
  have hty : ¬ (d1.type = ENCODE_OP_CT ∨ d1.type = ENCODE_OP_DT) := by
    intro h; rcases h with h | h
    · exact hct h
    · exact hdt h
  have hfn : read_func_name s (init_demangle_data 0 errno) = .fail := by
    unfold read_func_name
    simp only [init_demangle_data, h0, bind_ok, if_true, Nat.zero_add, h1, pure_eq_ok,
      decide_True, skip, hop, if_neg hty, hpk]
    by_cases hq : c = 'Q'
    · have hnul : c ≠ NUL := by rw [hq]; decide
      obtain ⟨c1, hc1⟩ := peek_next_ok s (d1.p + 2) c hpk hnul
      have hd1 := hQ hq c1 hc1
      simp only [hq, if_true, hc1, bind_ok, hd1, Bool.false_eq_true, if_false]
    · simp only [if_neg hq, hc, Bool.false_eq_true, if_false]
  refine ⟨hfn, ?_⟩
  simp only [cpp_demangle_ARM, cpp_demangle_ARM_fuel, demangle_state, hfn, bind_fail]

theorem operator_without_scope_witness :
    read_op "__pl__Fi".toList ⟨false, false, false, 2, ENCODE_OP, [], [], 0⟩ =
      .ok ⟨false, false, false, 4, ENCODE_OP, ["operator+".toList], [], 0⟩ ∧
    peek "__pl__Fi".toList 6 = .ok 'F' ∧
    read_func_name "__pl__Fi".toList (init_demangle_data 0 0) = .fail ∧
    cpp_demangle_ARM 0 "__pl__Fi".toList = .fail :=
  ⟨by decide, by decide,
    operator_without_scope 0 "__pl__Fi".toList
      ⟨false, false, false, 4, ENCODE_OP, ["operator+".toList], [], 0⟩ 'F'
      (by decide) (by decide) (by decide) (by decide) (by decide) (by decide) (by decide)
      (fun h => absurd h (by decide))⟩

/-! ## The iteration bound -/

/-- The round of the parameter loop that takes the counter beyond the bound: a
fundamental type code followed by more input when 128 rounds have been counted. -/
theorem arg_loop_step_fail (s : List Char) (fuel : Nat) (d : demangle_data) (c c2 : Char)
    (hc : c ∈ fund_codes) (hpk : peek s d.p = .ok c) (hpk2 : peek s (d.p + 1) = .ok c2)
    (hc2 : c2 ≠ NUL) (hfl : no_flags d) :
    arg_loop s (fuel + 1) 128 d = .fail := by
  obtain ⟨_, _, _, hT, hN, _, _, _⟩ := fund_codes_facts c hc
  have hrt := read_type_fund s fuel d c hc hpk
  have hfl2 : no_flags { d with p := d.p + 1, vec := d.vec ++ [sp c] } := hfl
  have htry : 128 + 1 > CPP_DEMANGLE_ARM_TRY := by
    simp only [CPP_DEMANGLE_ARM_TRY]; omega
  rw [arg_loop]
  simp only [hpk, bind_ok, if_neg hT, if_neg hN, hrt, push_suffix_no_flags _ hfl2, hpk2,
    if_neg hc2, substr_last, vpush, vector_str_push, if_pos htry]

/-- A head followed by `F` and 130 or more fundamental parameter types is a
decode failure: the 129th type that is followed by more input exceeds the bound. -/
theorem params_funds_overflow (errno : Nat) (s pre : List Char) (hv : vector_str)
    (ty : encode_type) (codes : List Char)
    (hh : read_func_name s (init_demangle_data 0 errno) =
      .ok ⟨false, false, false, pre.length, ty, hv, [], errno⟩)
    (hty : ty = ENCODE_FUNC ∨ ty = ENCODE_OP) (hk : 130 ≤ codes.length)
    (hall : ∀ c ∈ codes, c ∈ fund_codes) (hs : s = pre ++ "F".toList ++ codes) :
    demangle_state (s.length + 1) errno s = .fail := by
  obtain ⟨first, c, c2, rest, hcodes, hfirst⟩ :
      ∃ first c c2 rest, codes = first ++ c :: c2 :: rest ∧ first.length = 128 := by
    have h1 : codes = codes.take 128 ++ codes.drop 128 := (List.take_append_drop 128 codes).symm
    have hl : (codes.drop 128).length = codes.length - 128 := List.length_drop 128 codes
    cases hd : codes.drop 128 with
    | nil => rw [hd] at hl; simp at hl; omega
    | cons a t =>
      cases t with
      | nil => rw [hd] at hl; simp at hl; omega
      | cons b t =>
        refine ⟨codes.take 128, a, b, t, ?_, ?_⟩
        · rw [← hd]; exact h1
        · rw [List.length_take]; omega
  have hallf : ∀ x ∈ first, x ∈ fund_codes := fun x hx => hall x (by rw [hcodes]; simp [hx])
  have hc : c ∈ fund_codes := hall c (by rw [hcodes]; simp)
  have hc2 : c2 ∈ fund_codes := hall c2 (by rw [hcodes]; simp)
  have hcN := (fund_codes_facts c hc).2.2.2.2.2.1
  have hc2N := (fund_codes_facts c2 hc2).2.2.2.2.2.1
  have hs2 : s = pre ++ "F".toList ++ first ++ c :: c2 :: rest := by
    rw [hs, hcodes]; simp [List.append_assoc]
  have hF : peek s pre.length = .ok 'F' := by
    rw [hs]; simpa [List.append_assoc] using peek_at pre codes 'F'
  have hst : stands_at s (pre.length + 1) first := by
    have := stands_at_append (pre ++ "F".toList) first (c :: c2 :: rest)
    rw [hs2]
    simpa [List.append_assoc] using this
  have hpc : peek s (pre.length + 1 + first.length) = .ok c := by
    have := peek_at (pre ++ "F".toList ++ first) (c2 :: rest) c
    rw [hs2]
    convert this using 2
    simp [List.append_assoc]; omega
  have hpc2 : peek s (pre.length + 1 + first.length + 1) = .ok c2 := by
    have := peek_at (pre ++ "F".toList ++ first ++ [c]) rest c2
    rw [hs2]
    convert this using 2
    · simp [List.append_assoc]
    · simp [List.append_assoc]; omega
  have hlen : 130 ≤ s.length := by
    rw [hs]; simp; omega
  have hfuel : s.length + 1 = (s.length - 128) + 1 + first.length := by omega
  have hrun := arg_loop_funds s c hcN first (s.length - 128 + 1) 0
    ⟨false, false, false, pre.length + 1, ty, hv ++ ["(".toList], [], errno⟩
    hallf hst hpc ⟨rfl, rfl, rfl⟩ (by omega)
  have hfin := arg_loop_step_fail s (s.length - 128)
    ⟨false, false, false, pre.length + 1 + first.length, ty,
      hv ++ ["(".toList] ++ funds_vec first, [] ++ first.map sp, errno⟩
    c c2 hc hpc hpc2 hc2N ⟨rfl, rfl, rfl⟩
  have e128 : 0 + first.length = 128 := by omega
  rw [e128] at hrun
  have hl := hrun.trans hfin
  rw [← hfuel] at hl
  have h1 : ¬ (ty = ENCODE_OP_CT) := by rcases hty with h | h <;> simp [h]
  have h2 : ¬ (ty = ENCODE_OP_DT) := by rcases hty with h | h <;> simp [h]
  have h3 : vpush (skip ⟨false, false, false, pre.length, ty, hv, [], errno⟩ 1) "(" 1 =
      ⟨false, false, false, pre.length + 1, ty, hv ++ ["(".toList], [], errno⟩ := by
    simp [vpush, skip, vector_str_push]
  simp only [demangle_state, hh, bind_ok, if_neg h1, if_neg h2, hF, ne_eq, not_true_eq_false,
    if_false, h3, hl, bind_fail]

/-- C16: with the bound 128, for every plain function head and every non-empty
list of fundamental type codes, the decode succeeds when there are at most 129
codes and fails when there are 130 or more. -/
theorem iteration_bound (errno : Nat) (name : List Char) (scope : Option (List Char))
    (codes : List Char) (hn : function_name name)
    (hsc : ∀ cls, scope = some cls → class_name cls) (hne : codes ≠ [])
    (hall : ∀ c ∈ codes, c ∈ fund_codes) :
    CPP_DEMANGLE_ARM_TRY = 128 ∧
    (codes.length ≤ 129 →
      cpp_demangle_ARM errno (name ++ "__".toList ++ scope_code scope ++ "F".toList ++ codes) =
        .ok (scope_text scope ++ name ++ "(".toList ++ comma_sep (codes.map sp) ++ ")".toList)) ∧
    (130 ≤ codes.length →
      cpp_demangle_ARM errno (name ++ "__".toList ++ scope_code scope ++ "F".toList ++ codes) =
        .fail) := by
  refine ⟨rfl, ?_, ?_⟩
  · intro hk
    obtain ⟨init, last, rfl⟩ : ∃ init last, codes = init ++ [last] :=
      ⟨codes.dropLast, codes.getLast hne, (List.dropLast_append_getLast hne).symm⟩
    have hst := plain_function_state errno name scope init last hn hsc
      (by simp at hk; omega) (fun c hc => hall c (by simp [hc])) (hall last (by simp)) _ rfl
    simp only [cpp_demangle_ARM, cpp_demangle_ARM_fuel, hst, bind_ok, vector_str_get_flat,
      flatten_plain]
    simp
  · intro hk
    generalize hS : name ++ "__".toList ++ scope_code scope ++ "F".toList ++ codes = s
    have hh := read_func_name_head errno s name ("F".toList ++ codes) scope
      (by rw [← hS]; simp [List.append_assoc]) hn hsc
      (fun _ => ⟨rfl, by show 'F' ≠ 'Q'; decide⟩)
    have hov := params_funds_overflow errno s _ _ _ codes hh (Or.inl rfl) hk hall hS.symm
    simp only [cpp_demangle_ARM, cpp_demangle_ARM_fuel, hov, bind_fail]

theorem iteration_bound_witness :
    cpp_demangle_ARM 0 ("f__F".toList ++ List.replicate 129 'i') =
      .ok ("f(".toList ++ comma_sep ((List.replicate 129 'i').map sp) ++ ")".toList) ∧
    cpp_demangle_ARM 0 ("f__F".toList ++ List.replicate 130 'i') = .fail :=
  ⟨(iteration_bound 0 "f".toList none (List.replicate 129 'i')
      (by simp [function_name]; decide) (by simp) (by simp)
      (by intro c hc; rw [(List.mem_replicate.1 hc).2]; decide)).2.1 (by simp),
    (iteration_bound 0 "f".toList none (List.replicate 130 'i')
      (by simp [function_name]; decide) (by simp) (by simp)
      (by intro c hc; rw [(List.mem_replicate.1 hc).2]; decide)).2.2 (by simp)⟩

/-! ## Constructors and destructors with a qualified scope -/

/-- C17 fails on the code: for the qualified scope `Q21A1B`, `push_CTDT` repeats
the fragment before the pushed `"::"`, which is the `"::"` that closes the last
component, so `"__ct__Q21A1B"` renders `A::B::::::()` and `"__dt__Q21A1B"`
renders `A::B::::~::()`; the scope text does not appear twice. -/
theorem ctor_dtor_qualified :
    cpp_demangle_ARM 0 "__ct__Q21A1B".toList = .ok "A::B::::::()".toList ∧
    cpp_demangle_ARM 0 "__dt__Q21A1B".toList = .ok "A::B::::~::()".toList ∧
    "A::B::::::()".toList ≠ "A::B::A::B()".toList ∧
    "A::B::::::()".toList ≠ "A::B::::A::B::()".toList ∧
    read_func_name "__ct__Q21A1B".toList (init_demangle_data 0 0) =
      .ok ⟨false, false, false, 14, ENCODE_OP_CT,
        ["A".toList, "::".toList, "B".toList, "::".toList], [], 0⟩ := by
  decide

/-! ## The spellings of the operator table -/

/-- C18 fails on the code: for the codes `cl` and `vc`, `read_op` succeeds, leaves
the kind at operator, and pushes `"()"` and `"[]"`, which do not begin with
`"operator"`; `"__cl__1CFi"` decodes to `C::()(int)`. -/
theorem operator_spelling_missing :
    (∀ errno, read_op "cl".toList ⟨false, false, false, 0, ENCODE_OP, [], [], errno⟩ =
      .ok ⟨false, false, false, 2, ENCODE_OP, ["()".toList], [], errno⟩) ∧
    (∀ errno, read_op "vc".toList ⟨false, false, false, 0, ENCODE_OP, [], [], errno⟩ =
      .ok ⟨false, false, false, 2, ENCODE_OP, ["[]".toList], [], errno⟩) ∧
    ¬ ("operator".toList <+: "()".toList) ∧ ¬ ("operator".toList <+: "[]".toList) ∧
    cpp_demangle_ARM 0 "__cl__1CFi".toList = .ok "C::()(int)".toList ∧
    cpp_demangle_ARM 0 "__vc__1CFi".toList = .ok "C::[](int)".toList :=
  ⟨fun _ => rfl, fun _ => rfl, by decide, by decide, by decide, by decide⟩

/-! ## Disambiguated operator codes -/

/-- C19: in `read_op`, `ad` followed by `v` consumes three characters and pushes
`operator/=`, `ad` followed by anything else consumes two and pushes `operator&`;
`am` followed by `i`, `u`, `d` consumes three and pushes `operator-=`,
`operator*=`, `operator%=`, and `am` followed by anything else fails. -/
theorem disambiguated_codes (s : List Char) (d : demangle_data) (c : Char)
    (h0 : peek s d.p = .ok 'a') (h2 : peek s (d.p + 2) = .ok c) :
    (peek s (d.p + 1) = .ok 'd' →
      (c = 'v' → read_op s d =
        .ok { d with p := d.p + 3, vec := d.vec ++ ["operator/=".toList] }) ∧
      (c ≠ 'v' → read_op s d =
        .ok { d with p := d.p + 2, vec := d.vec ++ ["operator&".toList] })) ∧
    (peek s (d.p + 1) = .ok 'm' →
      (c = 'i' → read_op s d =
        .ok { d with p := d.p + 3, vec := d.vec ++ ["operator-=".toList] }) ∧
      (c = 'u' → read_op s d =
        .ok { d with p := d.p + 3, vec := d.vec ++ ["operator*=".toList] }) ∧
      (c = 'd' → read_op s d =
        .ok { d with p := d.p + 3, vec := d.vec ++ ["operator%=".toList] }) ∧
      (c ≠ 'i' → c ≠ 'u' → c ≠ 'd' → read_op s d = .fail)) := by
  have had : ∀ (x : Res demangle_data), peek s (d.p + 1) = .ok 'd' →
      (do let c ← peek s (skip d 2).p
          if c = 'v' then op_push (skip d 2) 1 "operator/=" 10
          else op_push (skip d 2) 0 "operator&" 9) = x → read_op s d = x := by
    intro x h1 hx
    unfold read_op
    rw [h0, h1]
    exact hx
  have ham : ∀ (x : Res demangle_data), peek s (d.p + 1) = .ok 'm' →
      (do let c ← peek s (skip d 2).p
          if c = 'i' then op_push (skip d 2) 1 "operator-=" 10
          else if c = 'u' then op_push (skip d 2) 1 "operator*=" 10
          else if c = 'd' then op_push (skip d 2) 1 "operator%=" 10
          else .fail) = x → read_op s d = x := by
    intro x h1 hx
    unfold read_op
    rw [h0, h1]
    exact hx
  refine ⟨fun h1 => ⟨fun hc => ?_, fun hc => ?_⟩,
    fun h1 => ⟨fun hc => ?_, fun hc => ?_, fun hc => ?_, fun hi hu hd => ?_⟩⟩
  · apply had _ h1
    subst hc
    simp [skip, h2, op_push, vpush, vector_str_push]
  · apply had _ h1
    simp [skip, h2, hc, op_push, vpush, vector_str_push]
  · apply ham _ h1
    subst hc
    simp [skip, h2, op_push, vpush, vector_str_push]
  · apply ham _ h1
    subst hc
    simp [skip, h2, op_push, vpush, vector_str_push]
  · apply ham _ h1
    subst hc
    simp [skip, h2, op_push, vpush, vector_str_push]
  · apply ham _ h1
    simp [skip, h2, hi, hu, hd]

theorem disambiguated_codes_witness :
    cpp_demangle_ARM 0 "__adv__1CFi".toList = .ok "C::operator/=(int)".toList ∧
    cpp_demangle_ARM 0 "__ad__1CFi".toList = .ok "C::operator&(int)".toList ∧
    read_op "adv".toList (init_demangle_data 0 0) =
      .ok { init_demangle_data 0 0 with p := 0 + 3, vec := [] ++ ["operator/=".toList] } ∧
    read_op "ad_".toList (init_demangle_data 0 0) =
      .ok { init_demangle_data 0 0 with p := 0 + 2, vec := [] ++ ["operator&".toList] } ∧
    read_op "amx".toList (init_demangle_data 0 0) = .fail :=
  ⟨by decide, by decide,
    ((disambiguated_codes "adv".toList (init_demangle_data 0 0) 'v' rfl rfl).1 rfl).1 rfl,
    ((disambiguated_codes "ad_".toList (init_demangle_data 0 0) '_' rfl rfl).1 rfl).2
      (by decide),
    ((disambiguated_codes "amx".toList (init_demangle_data 0 0) 'x' rfl rfl).2 rfl).2.2.2
      (by decide) (by decide) (by decide)⟩

/-! ## Prefix codes and suffixes of one parameter type -/

theorem prefix_pair_iff (a b c : Char) (t : List Char) :
    [a, b] <+: (c :: t) ↔ c = a ∧ t.head? = some b := by
  cases t with
  | nil => simp [List.cons_prefix_cons]
  | cons x t => simp [List.cons_prefix_cons, eq_comm]

theorem infix_CP_cons (c : Char) (t : List Char) :
    ['C', 'P'] <:+: (c :: t) ↔ (c = 'C' ∧ t.head? = some 'P') ∨ ['C', 'P'] <:+: t := by
  rw [List.infix_cons_iff, prefix_pair_iff]

theorem fund_codes_ne_P : ∀ c ∈ fund_codes, c ≠ 'P' := by decide

theorem modifier_codes_facts : ∀ c ∈ modifier_codes, c ≠ 'F' ∧ c ≠ 'T' ∧ c ≠ 'N' := by decide

/-- What `push_suffix` does, spelled out. -/
theorem push_suffix_eq (d : demangle_data) :
    push_suffix d =
      { d with ptr := false, ref := false, cnst := false,
               vec := d.vec ++ (if d.ptr = true then ["*".toList] else []) ++
                 (if d.ref = true then ["&".toList] else []) ++
                 (if d.cnst = true then [" const".toList] else []) } := by
  obtain ⟨a, b, c, p, t, v, g, e⟩ := d
  cases a <;> cases b <;> cases c <;> simp [push_suffix, vpush, vector_str_push]

/-- The `while` loop of `read_type` over a sequence of prefix codes that is
followed by a fundamental type code. -/
theorem read_type_modifiers (s : List Char) (b : Char) (hb : b ∈ fund_codes) (w : List Char) :
    ∀ (fuel : Nat) (d : demangle_data), (∀ c ∈ w, c ∈ modifier_codes) →
      stands_at s d.p (w ++ [b]) → w.length ≤ fuel →
      read_type s fuel d =
        .ok { d with p := d.p + w.length + 1,
                     vec := d.vec ++ modifier_frags w ++ [sp b],
                     ptr := d.ptr || decide ('P' ∈ w),
                     ref := d.ref || decide ('R' ∈ w),
                     cnst := d.cnst || decide (['C', 'P'] <:+: w) } := by
  induction w with
  | nil =>
    intro fuel d _ hst _
    rw [read_type_fund s fuel d b hb hst.1]
    simp [modifier_frags]
  | cons c t ih =>
    intro fuel d hall hst hfuel
    obtain ⟨hpk, hst2⟩ := hst
    obtain ⟨n, rfl⟩ : ∃ n, fuel = n + 1 := ⟨fuel - 1, by simp at hfuel; omega⟩
    have hn : t.length ≤ n := by simp at hfuel; omega
    have hallt : ∀ x ∈ t, x ∈ modifier_codes := fun x hx => hall x (List.mem_cons_of_mem _ hx)
    have hc := hall c (List.mem_cons_self _ _)
    have hnext : ∃ c1, peek s (d.p + 1) = .ok c1 ∧ (t ++ [b]).head? = some c1 ∧ c1 ≠ 'F' ∧
        (t = [] → c1 ≠ 'P') := by
      cases t with
      | nil =>
        exact ⟨b, hst2.1, rfl, (fund_codes_facts b hb).2.2.2.2.2.2.2,
          fun _ => fund_codes_ne_P b hb⟩
      | cons x t =>
        exact ⟨x, hst2.1, rfl, (modifier_codes_facts x (hall x (by simp))).1,
          fun h => by cases h⟩
    obtain ⟨c1, hpk1, hhd, hF, hlastP⟩ := hnext
    have hhd2 : t.head? = some 'P' ↔ c1 = 'P' := by
      cases t with
      | nil => simpa using hlastP rfl
      | cons x t => simp at hhd; simp [hhd]
    simp only [modifier_codes, List.mem_cons, List.mem_singleton, List.mem_nil_iff,
      or_false] at hc
    rw [read_type]
    rcases hc with rfl | rfl | rfl | rfl | rfl | rfl
    · -- U
      have := ih n (vpush (skip d 1) "unsigned " 9) hallt hst2 hn
      simp [vpush, skip, vector_str_push] at this
      simp [hpk, is_modifier_code, vpush, skip, vector_str_push, this, modifier_frags,
        infix_CP_cons, Nat.add_assoc, Nat.add_comm 1]
    · -- C
      by_cases hP : c1 = 'P'
      · have := ih n { skip d 1 with cnst := true } hallt hst2 hn
        simp [skip] at this
        simp [hpk, is_modifier_code, skip, hpk1, hP, this, modifier_frags, infix_CP_cons,
          hhd2, Nat.add_assoc, Nat.add_comm 1]
      · have := ih n (vpush (skip d 1) "const " 6) hallt hst2 hn
        simp [vpush, skip, vector_str_push] at this
        simp [hpk, is_modifier_code, vpush, skip, vector_str_push, hpk1, hP, this,
          modifier_frags, infix_CP_cons, hhd2, Nat.add_assoc, Nat.add_comm 1]
    · -- V
      have := ih n (vpush (skip d 1) "volatile " 9) hallt hst2 hn
      simp [vpush, skip, vector_str_push] at this
      simp [hpk, is_modifier_code, vpush, skip, vector_str_push, this, modifier_frags,
        infix_CP_cons, Nat.add_assoc, Nat.add_comm 1]
    · -- S
      have := ih n (vpush (skip d 1) "signed " 7) hallt hst2 hn
      simp [vpush, skip, vector_str_push] at this
      simp [hpk, is_modifier_code, vpush, skip, vector_str_push, this, modifier_frags,
        infix_CP_cons, Nat.add_assoc, Nat.add_comm 1]
    · -- P
      have := ih n { skip d 1 with ptr := true } hallt hst2 hn
      simp [skip] at this
      simp [hpk, is_modifier_code, skip, hpk1, hF, this, modifier_frags, infix_CP_cons,
        Nat.add_assoc, Nat.add_comm 1]
    · -- R
      have := ih n { skip d 1 with ref := true } hallt hst2 hn
      simp [skip] at this
      simp [hpk, is_modifier_code, skip, this, modifier_frags, infix_CP_cons,
        Nat.add_assoc, Nat.add_comm 1]

/-- The last round of the parameter loop: `read_type`, the suffixes of the
pending flags, and the end of the input. -/
theorem arg_loop_type_last_flags (s : List Char) (fuel try_ : Nat) (d d2 : demangle_data)
    (c : Char) (hpk : peek s d.p = .ok c) (hT : c ≠ 'T') (hN : c ≠ 'N')
    (hrt : read_type s fuel d = .ok d2) (hend : peek s d2.p = .ok NUL) :
    arg_loop s (fuel + 1) try_ d = .ok (push_suffix d2) := by
  have hp : (push_suffix d2).p = d2.p := by rw [push_suffix_eq]
  rw [arg_loop]
  simp only [hpk, bind_ok, if_neg hT, if_neg hN, hrt, hp, hend, if_true]

/-- C20: for every sequence `w` of the prefix codes `U C V S P R` followed by a
fundamental type code `b`, the parameter is rendered as the words of `w` in
order (`"unsigned "`, `"volatile "`, `"signed "`, and `"const "` for a `C` not
followed by `P`), the spelling of `b`, then `"*"` if `w` has a `P`, `"&"` if it
has an `R`, `" const"` if it has a `C` followed by `P`; the three flags are clear
afterwards. -/
theorem modifier_semantics (errno : Nat) (w : List Char) (b : Char)
    (hw : ∀ c ∈ w, c ∈ modifier_codes) (hb : b ∈ fund_codes) :
    cpp_demangle_ARM errno ("f__F".toList ++ w ++ [b]) =
      .ok ("f(".toList ++ (modifier_frags w).flatten ++ sp b ++ (suffix_frags w).flatten ++
        ")".toList) ∧
    ∃ d, demangle_state (("f__F".toList ++ w ++ [b]).length + 1) errno
        ("f__F".toList ++ w ++ [b]) = .ok d ∧ no_flags d := by
  generalize hS : "f__F".toList ++ w ++ [b] = s
  have hh := read_func_name_head errno s "f".toList ("F".toList ++ w ++ [b]) none
    (by rw [← hS]; simp [scope_code]) (by simp [function_name]; decide) (by simp)
    (fun _ => ⟨rfl, by show 'F' ≠ 'Q'; decide⟩)
  have hF : peek s 3 = .ok 'F' := by rw [← hS]; simp
  have hst : stands_at s 4 (w ++ [b]) := by
    have := stands_at_append "f__F".toList (w ++ [b]) []
    rw [← hS]
    simpa [List.append_assoc] using this
  have hlen : s.length = 4 + w.length + 1 := by rw [← hS]; simp; omega
  obtain ⟨c0, hc0, hT, hN⟩ : ∃ c0, peek s 4 = .ok c0 ∧ c0 ≠ 'T' ∧ c0 ≠ 'N' := by
    cases w with
    | nil =>
      obtain ⟨_, _, _, hT, hN, _⟩ := fund_codes_facts b hb
      exact ⟨b, hst.1, hT, hN⟩
    | cons x t =>
      obtain ⟨_, hT, hN⟩ := modifier_codes_facts x (hw x (by simp))
      exact ⟨x, hst.1, hT, hN⟩
  have hrt := read_type_modifiers s b hb w s.length
    ⟨false, false, false, 4, ENCODE_FUNC, [['f'], "(".toList], [], errno⟩ hw hst (by omega)
  have hend : peek s (4 + w.length + 1) = .ok NUL := by rw [← hlen]; exact peek_end s
  have hl := arg_loop_type_last_flags s s.length 0
    ⟨false, false, false, 4, ENCODE_FUNC, [['f'], "(".toList], [], errno⟩ _ c0 hc0 hT hN hrt hend
  have hds := demangle_state_params (s.length + 1) errno s _ _ hh (Or.inl rfl)
    (by simpa [scope_code] using hF) (by simpa [scope_code, head_vec] using hl)
  refine ⟨?_, _, hds, ?_⟩
  · simp only [cpp_demangle_ARM, cpp_demangle_ARM_fuel, hds, bind_ok, vector_str_get_flat,
      push_suffix_eq, suffix_frags]
    simp
  · simp [no_flags, push_suffix_eq]

theorem modifier_semantics_witness :
    cpp_demangle_ARM 0 "f__FCUPRCPCi".toList = .ok "f(const unsigned const int*& const)".toList ∧
    ∃ d, demangle_state ("f__FCUPRCPCi".toList.length + 1) 0 "f__FCUPRCPCi".toList = .ok d ∧
      no_flags d :=
  modifier_semantics 0 "CUPRCPC".toList 'i' (by decide) (by decide)

/-! ## The return type of a function pointer -/

/-- C21 fails on the code: the flags that the return-type call of `read_type`
leaves pending are dropped.  `"f__FPFi_Pv"`, `"f__FPFi_Rv"` and `"f__FPFi_CPv"`
all render `f(void (*)(int))`, without `"*"`, `"&"` or `" const"` after `void`,
while the same prefix on an argument is rendered (`"f__FPFPi_v"`). -/
theorem return_type_flags_dropped :
    cpp_demangle_ARM 0 "f__FPFi_Pv".toList = .ok "f(void (*)(int))".toList ∧
    cpp_demangle_ARM 0 "f__FPFi_Pv".toList ≠ .ok "f(void* (*)(int))".toList ∧
    cpp_demangle_ARM 0 "f__FPFi_Rv".toList = .ok "f(void (*)(int))".toList ∧
    cpp_demangle_ARM 0 "f__FPFi_CPv".toList = .ok "f(void (*)(int))".toList ∧
    cpp_demangle_ARM 0 "f__FPFPi_v".toList = .ok "f(void (*)(int*))".toList := by
  decide

/-! ## The codes `A`, `F`, `M` -/

/-- C23 fails on the code: on `A`, `F` or `M` in type position `read_type` does
not consume the character; `"f__FA" b` and `"f__FM" b` do not return, for every
`b` and however many rounds the loops are given. -/
theorem inert_codes_hang :
    (∀ b fuel errno, cpp_demangle_ARM_fuel fuel errno ("f__FA".toList ++ [b]) = .nofuel) ∧
    (∀ b fuel errno, cpp_demangle_ARM_fuel fuel errno ("f__FM".toList ++ [b]) = .nofuel) ∧
    (∀ b fuel errno, cpp_demangle_ARM_fuel fuel errno ("f__FF".toList ++ [b]) = .nofuel) ∧
    (∀ fuel errno, read_type "Ai".toList fuel (init_demangle_data 0 errno) = .nofuel) :=
  ⟨fun b fuel errno => demangle_stuck fuel errno 'A' [b] (Or.inl rfl),
    fun b fuel errno => demangle_stuck fuel errno 'M' [b] (Or.inr (Or.inr rfl)),
    fun b fuel errno => demangle_stuck fuel errno 'F' [b] (Or.inr (Or.inl rfl)),
    fun fuel errno =>
      read_type_stuck "Ai".toList (init_demangle_data 0 errno) 'A' rfl (Or.inl rfl) fuel⟩

/-! ## Qualified names in type position -/

/-- With the cursor on `Q`, the first assertion of `read_qual_name` fails. -/
theorem read_qual_name_on_Q (s : List Char) (d : demangle_data)
    (hpk : peek s d.p = .ok 'Q') : read_qual_name s d = .abort := by
  have h : ¬ ('Q'.toNat > 48 ∧ 'Q'.toNat < 58) := by decide
  simp only [read_qual_name, hpk, bind_ok, h, not_false_eq_true, if_true]

/-- In type position `read_type` calls `read_qual_name` with the cursor still on
the `Q`. -/
theorem read_type_on_Q (s : List Char) (fuel : Nat) (d : demangle_data)
    (hpk : peek s d.p = .ok 'Q') : read_type s fuel d = .abort := by
  have hm : is_modifier_code 'Q' = false := by decide
  have hd : isdigit 'Q' = false := by decide
  cases fuel <;>
    simp [read_type, hpk, hm, read_base_type, hd, read_qual_name_on_Q s d hpk]

theorem arg_loop_on_Q (s : List Char) (fuel try_ : Nat) (d : demangle_data)
    (hpk : peek s d.p = .ok 'Q') : arg_loop s (fuel + 1) try_ d = .abort := by
  have hT : ¬ ('Q' = 'T') := by decide
  have hN : ¬ ('Q' = 'N') := by decide
  rw [arg_loop]
  simp only [hpk, bind_ok, if_neg hT, if_neg hN, read_type_on_Q s fuel d hpk, bind_abort]

/-- C24 fails on the code: a `Q` in type position runs into the failing assertion
of `read_qual_name`, whatever follows it; `"f__FQ21A1Bxx"` does not render
`f(A::B::)`. -/
theorem qualified_type_aborts :
    (∀ errno rest, cpp_demangle_ARM errno ("f__FQ".toList ++ rest) = .abort) ∧
    cpp_demangle_ARM 0 "f__FQ21A1Bxx".toList = .abort ∧
    (∀ errno fuel, read_type "Q21A1Bxx".toList fuel (init_demangle_data 0 errno) = .abort) := by
  have h : ∀ errno rest, cpp_demangle_ARM errno ("f__FQ".toList ++ rest) = .abort := by
    intro errno rest
    have hh : read_func_name ("f__FQ".toList ++ rest) (init_demangle_data 0 errno) =
        .ok ⟨false, false, false, 3, ENCODE_FUNC, [['f']], [], errno⟩ := rfl
    have hF : peek ("f__FQ".toList ++ rest) 3 = .ok 'F' := rfl
    have hrt := arg_loop_on_Q ("f__FQ".toList ++ rest) ("f__FQ".toList ++ rest).length 0
      ⟨false, false, false, 4, ENCODE_FUNC, [['f'], ['(']], [], errno⟩ rfl
    have h3 : vpush (skip ⟨false, false, false, 3, ENCODE_FUNC, [['f']], [], errno⟩ 1) "(" 1 =
        ⟨false, false, false, 4, ENCODE_FUNC, [['f'], ['(']], [], errno⟩ := rfl
    have h1 : ¬ (ENCODE_FUNC = ENCODE_OP_CT) := by decide
    have h2 : ¬ (ENCODE_FUNC = ENCODE_OP_DT) := by decide
    simp only [cpp_demangle_ARM, cpp_demangle_ARM_fuel, demangle_state, hh, bind_ok, if_neg h1,
      if_neg h2, hF, ne_eq, not_true_eq_false, if_false, h3, hrt, bind_abort]
  exact ⟨h, h 0 "21A1Bxx".toList,
    fun errno fuel => read_type_on_Q _ fuel (init_demangle_data 0 errno) rfl⟩

/-! ## Flags inside and around a pointer to function -/

theorem stands_at_split (s : List Char) (l1 l2 : List Char) :
    ∀ p, stands_at s p (l1 ++ l2) ↔ stands_at s p l1 ∧ stands_at s (p + l1.length) l2 := by
  induction l1 with
  | nil => intro p; simp [stands_at]
  | cons a l ih =>
    intro p
    have e : p + (a :: l).length = p + 1 + l.length := by simp; omega
    have h := ih (p + 1)
    rw [List.cons_append, e]
    show peek s p = .ok a ∧ stands_at s (p + 1) (l ++ l2) ↔ _
    rw [h]
    simp only [stands_at, and_assoc]

theorem modifier_codes_ne_us : ∀ c ∈ modifier_codes, c ≠ '_' ∧ c ≠ NUL := by decide

theorem arg_code_head (a : List Char × Char) (ha : valid_arg a) :
    ∃ c t, arg_code a = c :: t ∧ c ≠ '_' ∧ c ≠ 'T' ∧ c ≠ 'N' ∧ c ≠ NUL := by
  obtain ⟨w, b⟩ := a
  obtain ⟨hw, hb⟩ := ha
  cases w with
  | nil =>
    obtain ⟨_, _, _, hT, hN, hNUL, hus, _⟩ := fund_codes_facts b hb
    exact ⟨b, [], rfl, hus, hT, hN, hNUL⟩
  | cons x t =>
    have hx := hw x (by simp)
    exact ⟨x, t ++ [b], rfl, (modifier_codes_ne_us x hx).1, (modifier_codes_facts x hx).2.1,
      (modifier_codes_facts x hx).2.2, (modifier_codes_ne_us x hx).2⟩

/-- `read_type` and the suffix pushes on one type with prefix codes, from a state
without pending flags. -/
theorem read_type_arg (s : List Char) (rfuel : Nat) (f : demangle_data)
    (a : List Char × Char) (ha : valid_arg a) (hst : stands_at s f.p (arg_code a))
    (hfl : no_flags f) (hfuel : a.1.length ≤ rfuel) :
    ∃ d2, read_type s rfuel f = .ok d2 ∧
      push_suffix d2 = { f with p := f.p + a.1.length + 1, vec := f.vec ++ arg_frags a } := by
  obtain ⟨h1, h2, h3⟩ := hfl
  refine ⟨_, read_type_modifiers s a.2 ha.2 a.1 rfuel f ha.1 hst hfuel, ?_⟩
  rw [push_suffix_eq]
  simp [h1, h2, h3, arg_frags, suffix_frags, List.append_assoc]

/-- A round of the argument loop of a function pointer on a type that is not
followed by `'_'`. -/
theorem fptr_arg_step (s : List Char) (rfuel fuel lim : Nat) (f : demangle_data)
    (a : List Char × Char) (c2 : Char) (ha : valid_arg a)
    (hst : stands_at s f.p (arg_code a)) (hpk2 : peek s (f.p + a.1.length + 1) = .ok c2)
    (hc2 : c2 ≠ '_') (hfl : no_flags f) (hfuel : a.1.length ≤ rfuel) (hlim : lim < 128) :
    fptr_args (read_type s rfuel) s (fuel + 1) lim f =
      fptr_args (read_type s rfuel) s fuel (lim + 1)
        { f with p := f.p + a.1.length + 1, vec := f.vec ++ arg_frags a ++ [", ".toList] } := by
  obtain ⟨d2, hrt, hps⟩ := read_type_arg s rfuel f a ha hst hfl hfuel
  have hlim2 : ¬ (lim + 1 > CPP_DEMANGLE_ARM_TRY) := by
    simp only [CPP_DEMANGLE_ARM_TRY]; omega
  rw [fptr_args]
  simp only [hrt, bind_ok, hps, hpk2, if_neg hc2, vpush, vector_str_push, if_neg hlim2]
  simp

/-- The last round of the argument loop of a function pointer: a type followed
by `'_'`. -/
theorem fptr_arg_last (s : List Char) (rfuel fuel lim : Nat) (f : demangle_data)
    (a : List Char × Char) (ha : valid_arg a)
    (hst : stands_at s f.p (arg_code a)) (hpk2 : peek s (f.p + a.1.length + 1) = .ok '_')
    (hfl : no_flags f) (hfuel : a.1.length ≤ rfuel) :
    fptr_args (read_type s rfuel) s (fuel + 1) lim f =
      .ok { f with p := f.p + a.1.length + 1, vec := f.vec ++ arg_frags a } := by
  obtain ⟨d2, hrt, hps⟩ := read_type_arg s rfuel f a ha hst hfl hfuel
  rw [fptr_args]
  simp only [hrt, bind_ok, hps, hpk2, if_true]

/-- The rounds of the argument loop of a function pointer on a run of types that
is followed by a character other than `'_'`. -/
theorem fptr_args_list (s : List Char) (rfuel : Nat) (c2 : Char) (hc2 : c2 ≠ '_')
    (args : List (List Char × Char)) :
    ∀ (fuel lim : Nat) (f : demangle_data), (∀ a ∈ args, valid_arg a) →
      (∀ a ∈ args, a.1.length ≤ rfuel) →
      stands_at s f.p (args.flatMap arg_code) →
      peek s (f.p + (args.flatMap arg_code).length) = .ok c2 → no_flags f →
      lim + args.length ≤ 128 →
      fptr_args (read_type s rfuel) s (fuel + args.length) lim f =
        fptr_args (read_type s rfuel) s fuel (lim + args.length)
          { f with p := f.p + (args.flatMap arg_code).length, vec := f.vec ++ args_vec args } := by
  induction args with
  | nil =>
    intro fuel lim f _ _ _ _ _ _
    simp [args_vec]
  | cons a as ih =>
    intro fuel lim f hall hfu hst hend hfl hlim
    have ha := hall a (List.mem_cons_self _ _)
    have hcons : (a :: as).flatMap arg_code = arg_code a ++ as.flatMap arg_code := by
      simp [List.flatMap]
    have hlen : (arg_code a).length = a.1.length + 1 := by simp [arg_code]
    rw [hcons] at hst hend
    obtain ⟨hst1, hst2⟩ := (stands_at_split s _ _ f.p).1 hst
    rw [hlen] at hst2
    have hnext : ∃ c3, peek s (f.p + a.1.length + 1) = .ok c3 ∧ c3 ≠ '_' := by
      cases as with
      | nil =>
        refine ⟨c2, ?_, hc2⟩
        simpa [hlen, Nat.add_assoc] using hend
      | cons b bs =>
        obtain ⟨c, t, hct, hus, _⟩ := arg_code_head b (hall b (by simp))
        have hb : (b :: bs).flatMap arg_code = c :: (t ++ bs.flatMap arg_code) := by
          simp [List.flatMap, hct]
        rw [hb] at hst2
        exact ⟨c, by simpa [Nat.add_assoc] using hst2.1, hus⟩
    obtain ⟨c3, hpk3, hc3⟩ := hnext
    simp only [List.length_cons] at hlim ⊢
    have hstep := fptr_arg_step s rfuel (fuel + as.length) lim f a c3 ha hst1 hpk3 hc3 hfl
      (hfu a (List.mem_cons_self _ _)) (by omega)
    have hih := ih fuel (lim + 1)
      { f with p := f.p + a.1.length + 1, vec := f.vec ++ arg_frags a ++ [", ".toList] }
      (fun x hx => hall x (List.mem_cons_of_mem _ hx))
      (fun x hx => hfu x (List.mem_cons_of_mem _ hx)) (by simpa [Nat.add_assoc] using hst2)
      (by
        simp only [List.length_append, hlen] at hend
        rw [← hend]
        show peek s (f.p + a.1.length + 1 + (as.flatMap arg_code).length) = _
        congr 1; omega)
      hfl (by omega)
    rw [← Nat.add_assoc, hstep, hih, hcons]
    simp [args_vec, hlen, Nat.add_assoc, Nat.add_comm 1, List.flatMap]

/-- Flattening the fragments of a run of types and of one more type gives their
texts joined by `", "`. -/
theorem flatten_args_vec (init : List (List Char × Char)) (last : List Char × Char) :
    (args_vec init ++ arg_frags last).flatten = comma_sep ((init ++ [last]).map arg_text) := by
  induction init with
  | nil => simp [args_vec, comma_sep, List.intercalate, arg_text]
  | cons a as ih =>
    have h : args_vec (a :: as) = arg_frags a ++ [", ".toList] ++ args_vec as := by
      simp [args_vec, List.flatMap]
    rw [h]
    simp only [List.cons_append, List.map_cons, comma_sep]
    rw [intercalate_cons_of_ne_nil _ _ _ (by simp)]
    simp only [comma_sep] at ih
    rw [← ih]
    simp [arg_text]

/-- The production `PF<args>_<ret>` of `read_type` when the argument types and the
return type have prefix codes: the flags of the enclosing call are not touched. -/
theorem read_type_fptr_args (s : List Char) (fuel : Nat) (d : demangle_data)
    (init : List (List Char × Char)) (last ret : List Char × Char)
    (hP : peek s d.p = .ok 'P') (hF : peek s (d.p + 1) = .ok 'F')
    (hst : stands_at s (d.p + 2) ((init ++ [last]).flatMap arg_code))
    (hk : init.length ≤ 128) (hall : ∀ a ∈ init ++ [last], valid_arg a)
    (hfu : ∀ a ∈ init ++ [last], a.1.length ≤ fuel)
    (hU : peek s (d.p + 2 + ((init ++ [last]).flatMap arg_code).length) = .ok '_')
    (hret : stands_at s (d.p + 2 + ((init ++ [last]).flatMap arg_code).length + 1)
      (arg_code ret))
    (hvr : valid_arg ret) (hfr : ret.1.length ≤ fuel) :
    read_type s (fuel + 1) d =
      .ok { d with
        p := d.p + 2 + ((init ++ [last]).flatMap arg_code).length + 1 + ret.1.length + 1,
        vec := d.vec ++ [(modifier_frags ret.1 ++ [sp ret.2]).flatten, " (*)(".toList,
          comma_sep ((init ++ [last]).map arg_text), ")".toList] } := by
  have hsplit : (init ++ [last]).flatMap arg_code = init.flatMap arg_code ++ arg_code last := by
    simp [List.flatMap]
  have hlenl : (arg_code last).length = last.1.length + 1 := by simp [arg_code]
  rw [hsplit] at hst hU hret ⊢
  obtain ⟨hsti, hstl⟩ := (stands_at_split s _ _ (d.p + 2)).1 hst
  obtain ⟨cl, tl, hcl, hclus, _⟩ := arg_code_head last (hall last (by simp))
  have hpl : peek s (d.p + 2 + (init.flatMap arg_code).length) = .ok cl := by
    rw [hcl] at hstl; exact hstl.1
  have halli : ∀ a ∈ init, valid_arg a := fun a ha => hall a (by simp [ha])
  have hfui : ∀ a ∈ init, a.1.length ≤ fuel := fun a ha => hfu a (by simp [ha])
  have hfuel : CPP_DEMANGLE_ARM_TRY + 1 = (128 - init.length) + 1 + init.length := by
    simp only [CPP_DEMANGLE_ARM_TRY]; omega
  have hrun := fptr_args_list s fuel cl hclus init (128 - init.length + 1) 0
    ⟨false, false, false, d.p + 2, ENCODE_FUNC, [], [], d.errno⟩ halli hfui hsti hpl
    ⟨rfl, rfl, rfl⟩ (by omega)
  have hU2 : peek s (d.p + 2 + (init.flatMap arg_code).length + last.1.length + 1) = .ok '_' := by
    simp only [List.length_append, hlenl] at hU
    rw [← hU]; congr 1; omega
  have hfin := fptr_arg_last s fuel (128 - init.length) (0 + init.length)
    ⟨false, false, false, d.p + 2 + (init.flatMap arg_code).length, ENCODE_FUNC,
      [] ++ args_vec init, [], d.errno⟩ last (hall last (by simp)) hstl hU2
    ⟨rfl, rfl, rfl⟩ (hfu last (by simp))
  have hargs : fptr_args (read_type s fuel) s (CPP_DEMANGLE_ARM_TRY + 1) 0
      ⟨false, false, false, d.p + 2, ENCODE_FUNC, [], [], d.errno⟩ =
      .ok ⟨false, false, false, d.p + 2 + (init.flatMap arg_code).length + last.1.length + 1,
        ENCODE_FUNC, args_vec init ++ arg_frags last, [], d.errno⟩ := by
    rw [hfuel]
    exact hrun.trans hfin
  have hret2 : stands_at s (d.p + 2 + (init.flatMap arg_code).length + last.1.length + 1 + 1)
      (arg_code ret) := by
    simp only [List.length_append, hlenl] at hret
    have e : d.p + 2 + (init.flatMap arg_code).length + last.1.length + 1 + 1 =
        d.p + 2 + ((init.flatMap arg_code).length + (last.1.length + 1)) + 1 := by omega
    rw [e]; exact hret
  have hrt := read_type_modifiers s ret.2 hvr.2 ret.1 fuel
    ⟨false, false, false,
      d.p + 2 + (init.flatMap arg_code).length + last.1.length + 1 + 1, ENCODE_FUNC, [], [],
      d.errno⟩ hvr.1 hret2 hfr
  have hmod : is_modifier_code 'P' = true := by decide
  have hPU : ¬ ('P' = 'U') := by decide
  have hPC : ¬ ('P' = 'C') := by decide
  have hPV : ¬ ('P' = 'V') := by decide
  have hPS : ¬ ('P' = 'S') := by decide
  rw [read_type]
  simp only [hP, bind_ok, hmod, if_true, if_neg hPU, if_neg hPC, if_neg hPV, if_neg hPS, skip,
    hF, init_demangle_data, Nat.add_assoc, Nat.reduceAdd] at hargs hrt ⊢
  simp only [hargs, bind_ok, hrt, vector_str_get_flat, vpush, vector_str_push,
    List.take_length, List.nil_append, flatten_args_vec, Nat.add_assoc, Nat.reduceAdd,
    List.length_append, hlenl]
  simp [Nat.add_assoc]
  omega

/-- C22: the production `PF<args>_<ret>` of `read_type`, on argument types and a
return type made of prefix codes and a fundamental type code, succeeds and leaves the
three pending flags of the enclosing call as they were before the `P`; every argument
is rendered with the suffixes of its own prefix codes only. Through the driver
`"f__FPFPci_v"` renders `f(void (*)(char*, int))` and `"f__FCPFi_v"` renders
`f(void (*)(int) const)`. -/
theorem nested_flags_independent :
    (∀ (s : List Char) (fuel : Nat) (d : demangle_data)
      (init : List (List Char × Char)) (last ret : List Char × Char),
      peek s d.p = .ok 'P' → peek s (d.p + 1) = .ok 'F' →
      stands_at s (d.p + 2) ((init ++ [last]).flatMap arg_code) →
      init.length ≤ 128 → (∀ a ∈ init ++ [last], valid_arg a) →
      (∀ a ∈ init ++ [last], a.1.length ≤ fuel) →
      peek s (d.p + 2 + ((init ++ [last]).flatMap arg_code).length) = .ok '_' →
      stands_at s (d.p + 2 + ((init ++ [last]).flatMap arg_code).length + 1) (arg_code ret) →
      valid_arg ret → ret.1.length ≤ fuel →
      ∃ d2, read_type s (fuel + 1) d = .ok d2 ∧
        d2.ptr = d.ptr ∧ d2.ref = d.ref ∧ d2.cnst = d.cnst ∧
        d2.vec = d.vec ++ [(modifier_frags ret.1 ++ [sp ret.2]).flatten, " (*)(".toList,
          comma_sep ((init ++ [last]).map arg_text), ")".toList]) ∧
    cpp_demangle_ARM 0 "f__FPFPci_v".toList = .ok "f(void (*)(char*, int))".toList ∧
    cpp_demangle_ARM 0 "f__FCPFi_v".toList = .ok "f(void (*)(int) const)".toList := by
  refine ⟨?_, by decide, by decide⟩
  intro s fuel d init last ret hP hF hst hk hall hfu hU hret hvr hfr
  exact ⟨_, read_type_fptr_args s fuel d init last ret hP hF hst hk hall hfu hU hret hvr hfr,
    rfl, rfl, rfl, rfl⟩

/-- C22 at `"PFPci_v"` read with the flags `ptr` and `ref` pending: both are still
pending afterwards, `cnst` is still clear, and the `*` of the first argument is on
that argument only. -/
theorem nested_flags_independent_witness :
    ∃ d2, read_type "PFPci_v".toList 7 ⟨true, true, false, 0, ENCODE_FUNC, [], [], 0⟩ = .ok d2 ∧
      d2.ptr = true ∧ d2.ref = true ∧ d2.cnst = false ∧
      d2.vec = ["void".toList, " (*)(".toList, "char*, int".toList, ")".toList] := by
  have h := nested_flags_independent.1 "PFPci_v".toList 6
    ⟨true, true, false, 0, ENCODE_FUNC, [], [], 0⟩ [(['P'], 'c')] ([], 'i') ([], 'v')
    (by decide) (by decide) (by simp [stands_at, arg_code, peek]) (by decide)
    (by simp [valid_arg, modifier_codes, fund_codes]) (by simp) (by decide)
    (by simp [stands_at, arg_code, peek]) (by simp [valid_arg, modifier_codes, fund_codes])
    (by simp)
  obtain ⟨d2, h1, h2, h3, h4, h5⟩ := h
  refine ⟨d2, h1, h2, h3, h4, ?_⟩
  rw [h5]
  decide

/-! ## Characters that start no base type -/

/-- `read_type` on a run of prefix codes followed by a character that starts no
base type. -/
theorem read_type_unsupported (s : List Char) (c : Char) (hm : is_modifier_code c = false)
    (hd : isdigit c = false) (hQ : c ≠ 'Q') (hf : c ∉ fund_codes) (w : List Char) :
    ∀ (fuel : Nat) (d : demangle_data), (∀ x ∈ w, x ∈ modifier_codes) →
      stands_at s d.p (w ++ [c]) → w.length ≤ fuel → read_type s fuel d = .fail := by
  have hcF : c ≠ 'F' := by
    intro h; rw [h] at hm; revert hm; decide
  simp only [fund_codes, List.mem_cons, List.mem_singleton, List.mem_nil_iff, or_false,
    not_or] at hf
  obtain ⟨f1, f2, f3, f4, f5, f6, f7, f8, f9⟩ := hf
  induction w with
  | nil =>
    intro fuel d _ hst _
    have hpk : peek s d.p = .ok c := hst.1
    cases fuel <;>
      simp [read_type, hpk, hm, read_base_type, hd, hQ, f1, f2, f3, f4, f5, f6, f7, f8, f9]
  | cons x t ih =>
    intro fuel d hall hst hfuel
    obtain ⟨hpk, hst2⟩ := hst
    obtain ⟨n, rfl⟩ : ∃ n, fuel = n + 1 := ⟨fuel - 1, by simp at hfuel; omega⟩
    have hn : t.length ≤ n := by simp at hfuel; omega
    have hallt : ∀ y ∈ t, y ∈ modifier_codes := fun y hy => hall y (List.mem_cons_of_mem _ hy)
    have hx := hall x (List.mem_cons_self _ _)
    have hnext : ∃ c1, peek s (d.p + 1) = .ok c1 ∧ c1 ≠ 'F' := by
      cases t with
      | nil => exact ⟨c, hst2.1, hcF⟩
      | cons y t => exact ⟨y, hst2.1, (modifier_codes_facts y (hall y (by simp))).1⟩
    obtain ⟨c1, hpk1, hF⟩ := hnext
    simp only [modifier_codes, List.mem_cons, List.mem_singleton, List.mem_nil_iff,
      or_false] at hx
    rw [read_type]
    rcases hx with rfl | rfl | rfl | rfl | rfl | rfl
    · have := ih n (vpush (skip d 1) "unsigned " 9) hallt hst2 hn
      simp [hpk, is_modifier_code, this]
    · by_cases hP : c1 = 'P'
      · have := ih n { skip d 1 with cnst := true } hallt hst2 hn
        simp [hpk, is_modifier_code, skip, hpk1, hP] at this ⊢
        exact this
      · have := ih n (vpush (skip d 1) "const " 6) hallt hst2 hn
        simp [hpk, is_modifier_code, skip, hpk1, hP] at this ⊢
        exact this
    · have := ih n (vpush (skip d 1) "volatile " 9) hallt hst2 hn
      simp [hpk, is_modifier_code, this]
    · have := ih n (vpush (skip d 1) "signed " 7) hallt hst2 hn
      simp [hpk, is_modifier_code, this]
    · have := ih n { skip d 1 with ptr := true } hallt hst2 hn
      simp [hpk, is_modifier_code, skip, hpk1, hF] at this ⊢
      exact this
    · have := ih n { skip d 1 with ref := true } hallt hst2 hn
      simp [hpk, is_modifier_code, skip] at this ⊢
      exact this

/-- A round of the parameter loop whose `read_type` fails. -/
theorem arg_loop_type_fail (s : List Char) (fuel try_ : Nat) (d : demangle_data) (c : Char)
    (hpk : peek s d.p = .ok c) (hT : c ≠ 'T') (hN : c ≠ 'N')
    (hrt : read_type s fuel d = .fail) : arg_loop s (fuel + 1) try_ d = .fail := by
  rw [arg_loop]
  simp only [hpk, bind_ok, if_neg hT, if_neg hN, hrt, bind_fail]

/-- The driver fails when the parameter loop does. -/
theorem demangle_state_params_fail (fuel errno : Nat) (s : List Char) (d0 : demangle_data)
    (hh : read_func_name s (init_demangle_data 0 errno) = .ok d0)
    (ht : d0.type = ENCODE_FUNC ∨ d0.type = ENCODE_OP) (hF : peek s d0.p = .ok 'F')
    (hl : arg_loop s fuel 0 { d0 with p := d0.p + 1, vec := d0.vec ++ ["(".toList] } = .fail) :
    demangle_state fuel errno s = .fail := by
  have h1 : ¬ (d0.type = ENCODE_OP_CT) := by rcases ht with h | h <;> simp [h]
  have h2 : ¬ (d0.type = ENCODE_OP_DT) := by rcases ht with h | h <;> simp [h]
  have h3 : vpush (skip d0 1) "(" 1 = { d0 with p := d0.p + 1, vec := d0.vec ++ ["(".toList] } := by
    simp [vpush, skip, vector_str_push]
  simp only [demangle_state, hh, bind_ok, if_neg h1, if_neg h2, hF, ne_eq, not_true_eq_false,
    if_false, h3, hl, bind_fail]

/-- C25, amended: behind a plain function head and at most 128 parameters of
fundamental type, a parameter made of prefix codes among `U C V S P R` followed by a
character (the terminator at the end of the input) that is no prefix code, no decimal
digit, not `Q` and no fundamental type code makes `read_type` fail and
`cpp_demangle_ARM` return failure; a parameter without prefix codes must not start
with `T` or `N`, which select the back-reference branches of the driver, and the end
of the input directly after a complete parameter ends the list. -/
theorem unsupported_type_code (errno : Nat) (name : List Char) (scope : Option (List Char))
    (init w t : List Char) (hn : function_name name)
    (hsc : ∀ cls, scope = some cls → class_name cls) (hk : init.length ≤ 128)
    (hall : ∀ c ∈ init, c ∈ fund_codes) (hw : ∀ x ∈ w, x ∈ modifier_codes)
    (hm : is_modifier_code (t.headD NUL) = false) (hd : isdigit (t.headD NUL) = false)
    (hQ : t.headD NUL ≠ 'Q') (hf : t.headD NUL ∉ fund_codes)
    (hTN : w = [] → t.headD NUL ≠ 'T' ∧ t.headD NUL ≠ 'N')
    (hend : w = [] → init ≠ [] → t.headD NUL ≠ NUL) :
    (∀ (fuel : Nat) (d : demangle_data),
      d.p = (name ++ "__".toList ++ scope_code scope ++ "F".toList ++ init).length →
      w.length ≤ fuel →
      read_type (name ++ "__".toList ++ scope_code scope ++ "F".toList ++ init ++ w ++ t)
        fuel d = .fail) ∧
    cpp_demangle_ARM errno
      (name ++ "__".toList ++ scope_code scope ++ "F".toList ++ init ++ w ++ t) = .fail := by
  generalize hS : name ++ "__".toList ++ scope_code scope ++ "F".toList ++ init ++ w ++ t = s
  have hS2 : s = (name ++ "__".toList ++ scope_code scope ++ "F".toList ++ init) ++ w ++ t :=
    hS.symm
  have hstw : stands_at s (name ++ "__".toList ++ scope_code scope ++ "F".toList ++ init).length
      (w ++ [t.headD NUL]) := by
    apply (stands_at_split s w [t.headD NUL] _).2
    refine ⟨by rw [hS2]; exact stands_at_append _ w t, ?_, trivial⟩
    rw [hS2, ← List.length_append]
    exact peek_head _ t
  have hrt : ∀ (fuel : Nat) (d : demangle_data),
      d.p = (name ++ "__".toList ++ scope_code scope ++ "F".toList ++ init).length →
      w.length ≤ fuel → read_type s fuel d = .fail := by
    intro fuel d hp hfu
    exact read_type_unsupported s _ hm hd hQ hf w fuel d hw (by rw [hp]; exact hstw) hfu
  refine ⟨hrt, ?_⟩
  -- the head
  have hh := read_func_name_head errno s name ("F".toList ++ init ++ w ++ t) scope
    (by rw [← hS]; simp [List.append_assoc]) hn hsc
    (fun _ => ⟨rfl, by show 'F' ≠ 'Q'; decide⟩)
  have hF : peek s (name ++ "__".toList ++ scope_code scope).length = .ok 'F' := by
    rw [← hS]
    simpa [List.append_assoc] using
      peek_at (name ++ "__".toList ++ scope_code scope) (init ++ w ++ t) 'F'
  -- the first character of the failing parameter
  obtain ⟨c0, hc0, hc0T, hc0N, hc0NUL⟩ : ∃ c0,
      peek s (name ++ "__".toList ++ scope_code scope ++ "F".toList ++ init).length = .ok c0 ∧
      c0 ≠ 'T' ∧ c0 ≠ 'N' ∧ (init ≠ [] → c0 ≠ NUL) := by
    cases w with
    | nil =>
      obtain ⟨h1, h2⟩ := hTN rfl
      exact ⟨t.headD NUL, hstw.1, h1, h2, hend rfl⟩
    | cons x w2 =>
      have hx := hw x (List.mem_cons_self _ _)
      exact ⟨x, hstw.1, (modifier_codes_facts x hx).2.1, (modifier_codes_facts x hx).2.2,
        fun _ => (modifier_codes_ne_us x hx).2⟩
  have hlenS : s.length = (name ++ "__".toList ++ scope_code scope).length + 1 + init.length +
      w.length + t.length := by
    rw [← hS]; simp only [List.length_append]; rfl
  have hl : arg_loop s (s.length + 1) 0
      { (⟨false, false, false, (name ++ "__".toList ++ scope_code scope).length, ENCODE_FUNC,
          head_vec scope name, [], errno⟩ : demangle_data) with
        p := (name ++ "__".toList ++ scope_code scope).length + 1,
        vec := head_vec scope name ++ ["(".toList] } = .fail := by
    have hpos : (name ++ "__".toList ++ scope_code scope ++ "F".toList ++ init).length =
        (name ++ "__".toList ++ scope_code scope).length + 1 + init.length := by
      simp only [List.length_append]; rfl
    rw [hpos] at hc0
    have hfuel : s.length + 1 = (s.length - init.length) + 1 + init.length := by omega
    by_cases hi : init = []
    · subst hi
      apply arg_loop_type_fail s s.length 0 _ c0 (by simpa using hc0) hc0T hc0N
      exact hrt _ _ (by simp; omega) (by omega)
    · have hst : stands_at s ((name ++ "__".toList ++ scope_code scope).length + 1) init := by
        have := stands_at_append (name ++ "__".toList ++ scope_code scope ++ "F".toList) init
          (w ++ t)
        rw [← hS]
        simpa [List.append_assoc] using this
      have hrun := arg_loop_funds s c0 (hc0NUL hi) init (s.length - init.length + 1) 0
        ⟨false, false, false, (name ++ "__".toList ++ scope_code scope).length + 1, ENCODE_FUNC,
          head_vec scope name ++ ["(".toList], [], errno⟩ hall hst hc0 ⟨rfl, rfl, rfl⟩ (by omega)
      rw [hfuel]
      refine hrun.trans ?_
      apply arg_loop_type_fail s (s.length - init.length) _ _ c0 hc0 hc0T hc0N
      exact hrt _ _ (by simp only [List.length_append]; rfl) (by omega)
  have hst := demangle_state_params_fail (s.length + 1) errno s _ hh (Or.inl rfl) hF hl
  simp only [cpp_demangle_ARM, cpp_demangle_ARM_fuel, hst, bind_fail]

/-- C25 at `"f__Fx"`, `"f__F"` and `"f__FP"`. -/
theorem unsupported_type_code_witness :
    cpp_demangle_ARM 0 "f__Fx".toList = .fail ∧ cpp_demangle_ARM 0 "f__F".toList = .fail ∧
    cpp_demangle_ARM 0 "f__FP".toList = .fail :=
  ⟨(unsupported_type_code 0 "f".toList none [] [] "x".toList (by simp [function_name]; decide)
      (by simp) (by simp) (by simp) (by simp) (by decide) (by decide) (by decide) (by decide)
      (fun _ => by decide) (fun _ h => absurd rfl h)).2,
    (unsupported_type_code 0 "f".toList none [] [] [] (by simp [function_name]; decide)
      (by simp) (by simp) (by simp) (by simp) (by decide) (by decide) (by decide) (by decide)
      (fun _ => by decide) (fun _ h => absurd rfl h)).2,
    (unsupported_type_code 0 "f".toList none [] ['P'] [] (by simp [function_name]; decide)
      (by simp) (by simp) (by simp) (by decide) (by decide) (by decide) (by decide) (by decide)
      (fun h => by cases h) (fun h => by cases h)).2⟩

/-- C25 as stated fails on a parameter that starts with `T`: the character is no
decimal digit, not `Q` and no fundamental type code, and the decoding succeeds with
the text of the first parameter. -/
theorem unsupported_type_code_backref :
    cpp_demangle_ARM 0 "f__FcT1".toList = .ok "f(char, char)".toList := by decide

/-! ## Back-references inside a pointer to function -/

/-- A round of the argument loop of a function pointer whose `read_type` fails. -/
theorem fptr_arg_fail (rt : demangle_data → Res demangle_data) (s : List Char)
    (fuel lim : Nat) (f : demangle_data) (h : rt f = .fail) :
    fptr_args rt s (fuel + 1) lim f = .fail := by
  rw [fptr_args]
  simp only [h, bind_fail]

/-- The production `PF` of `read_type` on a list of types that is followed by `T`:
the argument loop hands the `T` to `read_type`, which knows no such type. -/
theorem read_type_fptr_backref (s : List Char) (fuel : Nat) (d : demangle_data)
    (args : List (List Char × Char))
    (hP : peek s d.p = .ok 'P') (hF : peek s (d.p + 1) = .ok 'F')
    (hst : stands_at s (d.p + 2) (args.flatMap arg_code ++ ['T']))
    (hk : args.length ≤ 128) (hall : ∀ a ∈ args, valid_arg a)
    (hfu : ∀ a ∈ args, a.1.length ≤ fuel) :
    read_type s (fuel + 1) d = .fail := by
  obtain ⟨hsta, hstT, _⟩ := (stands_at_split s _ _ (d.p + 2)).1 hst
  have hfuel : CPP_DEMANGLE_ARM_TRY + 1 = (128 - args.length) + 1 + args.length := by
    simp only [CPP_DEMANGLE_ARM_TRY]; omega
  have hrun := fptr_args_list s fuel 'T' (by decide) args (128 - args.length + 1) 0
    ⟨false, false, false, d.p + 2, ENCODE_FUNC, [], [], d.errno⟩ hall hfu hsta hstT
    ⟨rfl, rfl, rfl⟩ (by omega)
  have hT := read_type_unsupported s 'T' (by decide) (by decide) (by decide) (by decide) []
    fuel ⟨false, false, false, d.p + 2 + (args.flatMap arg_code).length, ENCODE_FUNC,
      [] ++ args_vec args, [], d.errno⟩ (by simp) ⟨hstT, trivial⟩ (by simp)
  have hfin := fptr_arg_fail (read_type s fuel) s (128 - args.length) (0 + args.length) _ hT
  have hargs : fptr_args (read_type s fuel) s (CPP_DEMANGLE_ARM_TRY + 1) 0
      ⟨false, false, false, d.p + 2, ENCODE_FUNC, [], [], d.errno⟩ = .fail := by
    rw [hfuel]
    exact hrun.trans hfin
  have hmod : is_modifier_code 'P' = true := by decide
  have hPU : ¬ ('P' = 'U') := by decide
  have hPC : ¬ ('P' = 'C') := by decide
  have hPV : ¬ ('P' = 'V') := by decide
  have hPS : ¬ ('P' = 'S') := by decide
  rw [read_type]
  simp only [hP, bind_ok, hmod, if_true, if_neg hPU, if_neg hPC, if_neg hPV, if_neg hPS, skip,
    hF, init_demangle_data, Nat.add_assoc, Nat.reduceAdd] at hargs ⊢
  simp only [hargs, bind_fail]

/-- The driver behind a plain function head and at most 128 parameters of
fundamental type, on a parameter that starts with neither `T` nor `N` and on which
`read_type` fails. -/
theorem params_read_type_fail (errno : Nat) (name : List Char) (scope : Option (List Char))
    (init t : List Char) (hn : function_name name)
    (hsc : ∀ cls, scope = some cls → class_name cls) (hk : init.length ≤ 128)
    (hall : ∀ c ∈ init, c ∈ fund_codes)
    (hT : t.headD NUL ≠ 'T') (hN : t.headD NUL ≠ 'N') (hNUL : init ≠ [] → t.headD NUL ≠ NUL)
    (hrt : ∀ (fuel : Nat) (d : demangle_data),
      d.p = (name ++ "__".toList ++ scope_code scope ++ "F".toList ++ init).length →
      t.length ≤ fuel →
      read_type (name ++ "__".toList ++ scope_code scope ++ "F".toList ++ init ++ t) fuel d =
        .fail) :
    cpp_demangle_ARM errno
      (name ++ "__".toList ++ scope_code scope ++ "F".toList ++ init ++ t) = .fail := by
  generalize hS : name ++ "__".toList ++ scope_code scope ++ "F".toList ++ init ++ t = s at hrt ⊢
  have hh := read_func_name_head errno s name ("F".toList ++ init ++ t) scope
    (by rw [← hS]; simp [List.append_assoc]) hn hsc
    (fun _ => ⟨rfl, by show 'F' ≠ 'Q'; decide⟩)
  have hF : peek s (name ++ "__".toList ++ scope_code scope).length = .ok 'F' := by
    rw [← hS]
    simpa [List.append_assoc] using
      peek_at (name ++ "__".toList ++ scope_code scope) (init ++ t) 'F'
  have hpos : (name ++ "__".toList ++ scope_code scope ++ "F".toList ++ init).length =
      (name ++ "__".toList ++ scope_code scope).length + 1 + init.length := by
    simp only [List.length_append]; rfl
  have hc0 : peek s ((name ++ "__".toList ++ scope_code scope).length + 1 + init.length) =
      .ok (t.headD NUL) := by
    rw [← hpos, ← hS]; exact peek_head _ t
  have hlenS : s.length = (name ++ "__".toList ++ scope_code scope).length + 1 + init.length +
      t.length := by
    rw [← hS]; simp only [List.length_append]; rfl
  have hl : arg_loop s (s.length + 1) 0
      { (⟨false, false, false, (name ++ "__".toList ++ scope_code scope).length, ENCODE_FUNC,
          head_vec scope name, [], errno⟩ : demangle_data) with
        p := (name ++ "__".toList ++ scope_code scope).length + 1,
        vec := head_vec scope name ++ ["(".toList] } = .fail := by
    have hfuel : s.length + 1 = (s.length - init.length) + 1 + init.length := by omega
    by_cases hi : init = []
    · subst hi
      apply arg_loop_type_fail s s.length 0 _ _ (by simpa using hc0) hT hN
      exact hrt _ _ (by simp; omega) (by omega)
    · have hst : stands_at s ((name ++ "__".toList ++ scope_code scope).length + 1) init := by
        have := stands_at_append (name ++ "__".toList ++ scope_code scope ++ "F".toList) init t
        rw [← hS]
        simpa [List.append_assoc] using this
      have hrun := arg_loop_funds s _ (hNUL hi) init (s.length - init.length + 1) 0
        ⟨false, false, false, (name ++ "__".toList ++ scope_code scope).length + 1, ENCODE_FUNC,
          head_vec scope name ++ ["(".toList], [], errno⟩ hall hst hc0 ⟨rfl, rfl, rfl⟩ (by omega)
      rw [hfuel]
      refine hrun.trans ?_
      apply arg_loop_type_fail s (s.length - init.length) _ _ _ hc0 hT hN
      exact hrt _ _ (by simp only [List.length_append]; rfl) (by omega)
  have hst := demangle_state_params_fail (s.length + 1) errno s _ hh (Or.inl rfl) hF hl
  simp only [cpp_demangle_ARM, cpp_demangle_ARM_fuel, hst, bind_fail]

theorem arg_code_length_le (args : List (List Char × Char)) :
    ∀ a ∈ args, a.1.length < (args.flatMap arg_code).length := by
  induction args with
  | nil => intro a ha; cases ha
  | cons b bs ih =>
    intro a ha
    have hcons : (b :: bs).flatMap arg_code = arg_code b ++ bs.flatMap arg_code := by
      simp [List.flatMap]
    rw [hcons, List.length_append]
    have hb : (arg_code b).length = b.1.length + 1 := by simp [arg_code]
    rcases List.mem_cons.1 ha with rfl | h
    · omega
    · have := ih a h; omega

/-- C26, amended: the argument list of a nested `PF` takes types only. Behind a
plain function head, at most 128 parameters of fundamental type and `PF` with at
most 128 argument types made of prefix codes and a fundamental type code, an
element that starts with `T` makes `read_type` fail and `cpp_demangle_ARM` return
failure, whatever the index and whatever the argument table holds. -/
theorem nested_backref_rejected (errno : Nat) (name : List Char) (scope : Option (List Char))
    (init rest : List Char) (args : List (List Char × Char)) (hn : function_name name)
    (hsc : ∀ cls, scope = some cls → class_name cls) (hk : init.length ≤ 128)
    (hall : ∀ c ∈ init, c ∈ fund_codes) (hka : args.length ≤ 128)
    (hva : ∀ a ∈ args, valid_arg a) :
    cpp_demangle_ARM errno
      (name ++ "__".toList ++ scope_code scope ++ "F".toList ++ init ++
        ("PF".toList ++ args.flatMap arg_code ++ "T".toList ++ rest)) = .fail := by
  apply params_read_type_fail errno name scope init _ hn hsc hk hall
    (by show 'P' ≠ 'T'; decide) (by show 'P' ≠ 'N'; decide)
    (fun _ => by show 'P' ≠ NUL; decide)
  intro fuel d hp hfu
  generalize hpre : name ++ "__".toList ++ scope_code scope ++ "F".toList ++ init = pre at hp ⊢
  have hst : stands_at (pre ++ ("PF".toList ++ args.flatMap arg_code ++ "T".toList ++ rest))
      pre.length ("PF".toList ++ (args.flatMap arg_code ++ "T".toList)) := by
    have := stands_at_append pre ("PF".toList ++ (args.flatMap arg_code ++ "T".toList)) rest
    simpa [List.append_assoc] using this
  rw [← hp] at hst
  obtain ⟨hP, hF, hst2⟩ := hst
  obtain ⟨n, rfl⟩ : ∃ n, fuel = n + 1 := ⟨fuel - 1, by simp at hfu; omega⟩
  refine read_type_fptr_backref _ n d args hP hF (by simpa [Nat.add_assoc] using hst2) hka hva ?_
  intro a ha
  have := arg_code_length_le args a ha
  simp only [List.length_append] at hfu
  omega

/-- C26, amended, at `"f__FiPFT1_v"`. -/
theorem nested_backref_rejected_witness :
    cpp_demangle_ARM 0 ("f__FiPFT".toList ++ "1_v".toList) = .fail :=
  nested_backref_rejected 0 "f".toList none "i".toList "1_v".toList []
    (by simp [function_name]; decide) (by simp) (by simp) (by decide) (by simp) (by simp)

/-- C26 as stated fails: in `"f__FiPFT1_v"` the element `T1` of the nested list is
not resolved to `int`; the whole decoding fails instead of rendering
`f(int, void (*)(int))`. -/
theorem nested_backref_not_resolved :
    cpp_demangle_ARM 0 "f__FiPFT1_v".toList = .fail ∧
    cpp_demangle_ARM 0 "f__FiPFT1_v".toList ≠ .ok "f(int, void (*)(int))".toList := by decide

/-! ## Separators after back-references -/

/-- A round of the parameter loop on a back-reference `T<j>` that is followed by
more input: nothing is pushed after the copied text. -/
theorem arg_loop_T_step (s : List Char) (fuel try_ : Nat) (d : demangle_data) (j e : Nat)
    (a : List Char) (c : Char) (hpk : peek s d.p = .ok 'T')
    (hst : strtol s (d.p + 1) d.errno = ⟨(j : Int), e, d.errno⟩)
    (hj1 : 1 ≤ j) (hj2 : j ≤ 9223372036854775807) (ha : d.arg.get? (j - 1) = some a)
    (hnext : peek s e = .ok c) (hc : c ≠ NUL) :
    arg_loop s (fuel + 1) try_ d =
      arg_loop s fuel try_ { d with p := e, vec := d.vec ++ [a], arg := d.arg ++ [a] } := by
  have h0 : ¬ (j = 0 ∧ (d.errno = EINVAL ∨ d.errno = ERANGE)) := by omega
  have h1 : ¬ ¬ (j > 0) := by omega
  rw [arg_loop]
  simp only [hpk, bind_ok, if_true, hst, to_size_t_of_nat j hj2, if_neg h0, if_neg h1, ha, hnext,
    if_neg hc, vector_str_push, List.take_length]

/-- A round of the parameter loop on a repeat `N<r><j>` that is followed by more
input: nothing is pushed after the last copy. -/
theorem arg_loop_N_step (s : List Char) (fuel try_ : Nat) (d : demangle_data) (r j e : Nat)
    (c c2 : Char) (a : List Char) (hpk : peek s d.p = .ok 'N') (hpr : peek s (d.p + 1) = .ok c)
    (hc : c.toNat = r + 48) (hr1 : 2 ≤ r) (hr2 : r ≤ 9)
    (hst : strtol s (d.p + 2) d.errno = ⟨(j : Int), e, d.errno⟩)
    (hj1 : 1 ≤ j) (hj2 : j ≤ 9223372036854775807) (ha : d.arg.get? (j - 1) = some a)
    (hnext : peek s e = .ok c2) (hc2 : c2 ≠ NUL) :
    arg_loop s (fuel + 1) try_ d =
      arg_loop s fuel try_
        { d with p := e, vec := d.vec ++ (List.replicate r a).intersperse ", ".toList,
                 arg := d.arg ++ List.replicate r a } := by
  have h0 : ¬ (j = 0 ∧ (d.errno = EINVAL ∨ d.errno = ERANGE)) := by omega
  have h1 : ¬ ¬ (j > 0) := by omega
  have hT : ¬ ('N' = 'T') := by decide
  have h2 : ¬ ¬ (c.toNat > 48 ∧ c.toNat < 58) := by omega
  have h3 : ¬ ¬ (r > 1) := by omega
  have h4 : c.toNat - 48 = r := by omega
  have hrl := repeat_loop_spec j a r
    { d with p := e } ha
  rw [arg_loop]
  simp only [hpk, bind_ok, if_neg hT, if_true, skip, hpr, if_neg h2, Nat.add_assoc,
    Nat.reduceAdd, hst, to_size_t_of_nat j hj2, if_neg h0, if_neg h1, h4, if_neg h3, hrl, hnext,
    if_neg hc2]

/-- The state that is flattened for `F<a>T1<b>` behind the head `f`. -/
theorem params_T1_state (errno : Nat) (a b : Char) (ha : a ∈ fund_codes) (hb : b ∈ fund_codes) :
    demangle_state 9 errno ("f__F".toList ++ [a] ++ "T1".toList ++ [b]) =
      .ok ⟨false, false, false, 8, ENCODE_FUNC,
        [['f'], ['('], sp a, ", ".toList, sp a, sp b, [')']], [sp a, sp a], errno⟩ := by
  generalize hS : "f__F".toList ++ [a] ++ "T1".toList ++ [b] = s
  have hbd := (fund_codes_facts b hb).2.1
  have hbN := (fund_codes_facts b hb).2.2.2.2.2.1
  have hh : read_func_name s (init_demangle_data 0 errno) =
      .ok ⟨false, false, false, 3, ENCODE_FUNC, [['f']], [], errno⟩ := by rw [← hS]; rfl
  have hF : peek s 3 = .ok 'F' := by rw [← hS]; rfl
  have hstr : strtol s 6 errno = ⟨((1 : Nat) : Int), 7, errno⟩ := by
    have := strtol_digits ("f__F".toList ++ [a] ++ "T".toList) ['1'] [b] errno (by simp)
      (by decide) (by simpa using hbd) (by decide)
    rw [← hS]
    simpa [List.append_assoc] using this
  have h1 := arg_loop_step s 8 0
    ⟨false, false, false, 4, ENCODE_FUNC, [['f'], ['(']], [], errno⟩ a 'T' ha
    (by rw [← hS]; rfl) (by rw [← hS]; rfl) (by decide) ⟨rfl, rfl, rfl⟩ (by decide)
  have h2 := arg_loop_T_step s 7 1
    ⟨false, false, false, 5, ENCODE_FUNC, [['f'], ['('], sp a, ", ".toList], [sp a], errno⟩
    1 7 (sp a) b (by rw [← hS]; rfl) hstr (by decide) (by decide) rfl (by rw [← hS]; rfl) hbN
  have h3 := arg_loop_last s 6 1
    ⟨false, false, false, 7, ENCODE_FUNC, [['f'], ['('], sp a, ", ".toList, sp a],
      [sp a, sp a], errno⟩ b hb (by rw [← hS]; rfl) (by rw [← hS]; rfl) ⟨rfl, rfl, rfl⟩
  have hl := (h1.trans h2).trans h3
  have := demangle_state_params 9 errno s _ _ hh (Or.inl rfl) hF hl
  rw [this]
  rfl

/-- The state that is flattened for `F<a>N21<b>` behind the head `f`. -/
theorem params_N21_state (errno : Nat) (a b : Char) (ha : a ∈ fund_codes)
    (hb : b ∈ fund_codes) :
    demangle_state 10 errno ("f__F".toList ++ [a] ++ "N21".toList ++ [b]) =
      .ok ⟨false, false, false, 9, ENCODE_FUNC,
        [['f'], ['('], sp a, ", ".toList, sp a, ", ".toList, sp a, sp b, [')']],
        [sp a, sp a, sp a], errno⟩ := by
  generalize hS : "f__F".toList ++ [a] ++ "N21".toList ++ [b] = s
  have hbd := (fund_codes_facts b hb).2.1
  have hbN := (fund_codes_facts b hb).2.2.2.2.2.1
  have hh : read_func_name s (init_demangle_data 0 errno) =
      .ok ⟨false, false, false, 3, ENCODE_FUNC, [['f']], [], errno⟩ := by rw [← hS]; rfl
  have hF : peek s 3 = .ok 'F' := by rw [← hS]; rfl
  have hstr : strtol s 7 errno = ⟨((1 : Nat) : Int), 8, errno⟩ := by
    have := strtol_digits ("f__F".toList ++ [a] ++ "N2".toList) ['1'] [b] errno (by simp)
      (by decide) (by simpa using hbd) (by decide)
    rw [← hS]
    simpa [List.append_assoc] using this
  have h1 := arg_loop_step s 9 0
    ⟨false, false, false, 4, ENCODE_FUNC, [['f'], ['(']], [], errno⟩ a 'N' ha
    (by rw [← hS]; rfl) (by rw [← hS]; rfl) (by decide) ⟨rfl, rfl, rfl⟩ (by decide)
  have h2 := arg_loop_N_step s 8 1
    ⟨false, false, false, 5, ENCODE_FUNC, [['f'], ['('], sp a, ", ".toList], [sp a], errno⟩
    2 1 8 '2' b (sp a) (by rw [← hS]; rfl) (by rw [← hS]; rfl) (by decide) (by decide)
    (by decide) hstr (by decide) (by decide) rfl (by rw [← hS]; rfl) hbN
  have h3 := arg_loop_last s 7 1
    ⟨false, false, false, 8, ENCODE_FUNC,
      [['f'], ['('], sp a, ", ".toList, sp a, ", ".toList, sp a], [sp a, sp a, sp a], errno⟩
    b hb (by rw [← hS]; rfl) (by rw [← hS]; rfl) ⟨rfl, rfl, rfl⟩
  have hl := (h1.trans h2).trans h3
  have := demangle_state_params 10 errno s _ _ hh (Or.inl rfl) hF hl
  rw [this]
  rfl

/-- C27: for all fundamental type codes `a` and `b`, `F<a>T1<b>` behind the plain
head `f` renders the text of `a`, `", "`, the text of `a` again for `T1` and then
the text of `b` with nothing between the two: no separator is pushed after a
back-reference. The same holds after the repeat `N21`. -/
theorem no_separator_after_backref (errno : Nat) (a b : Char) (ha : a ∈ fund_codes)
    (hb : b ∈ fund_codes) :
    cpp_demangle_ARM errno ("f__F".toList ++ [a] ++ "T1".toList ++ [b]) =
      .ok ("f(".toList ++ sp a ++ ", ".toList ++ sp a ++ sp b ++ ")".toList) ∧
    cpp_demangle_ARM errno ("f__F".toList ++ [a] ++ "N21".toList ++ [b]) =
      .ok ("f(".toList ++ sp a ++ ", ".toList ++ sp a ++ ", ".toList ++ sp a ++ sp b ++
        ")".toList) := by
  have h1 := params_T1_state errno a b ha hb
  have h2 := params_N21_state errno a b ha hb
  constructor
  · have hlen : ("f__F".toList ++ [a] ++ "T1".toList ++ [b]).length + 1 = 9 := rfl
    simp only [cpp_demangle_ARM, cpp_demangle_ARM_fuel, hlen, h1, bind_ok, vector_str_get_flat]
    simp
  · have hlen : ("f__F".toList ++ [a] ++ "N21".toList ++ [b]).length + 1 = 10 := rfl
    simp only [cpp_demangle_ARM, cpp_demangle_ARM_fuel, hlen, h2, bind_ok, vector_str_get_flat]
    simp

/-- C27 at `"f__FiT1c"`. -/
theorem no_separator_after_backref_witness :
    cpp_demangle_ARM 0 "f__FiT1c".toList = .ok "f(int, intchar)".toList :=
  (no_separator_after_backref 0 'i' 'c' (by decide) (by decide)).1

/-! ## The assertions on the builder and on the name span -/

/-- A sequence that returns normally: so did its first step. -/
theorem bind_eq_ok {α β : Type} (x : Res α) (f : α → Res β) (r : β)
    (h : (x >>= f) = .ok r) : ∃ a, x = .ok a ∧ f a = .ok r := by
  cases x with
  | ok a => exact ⟨a, rfl, h⟩
  | fail => cases h
  | abort => cases h
  | oob => cases h
  | nofuel => cases h

/-- The delimiter is found at offset 0 only in a string that starts with it. -/
theorem strnstr_zero (s : List Char) (h : strnstr s = some 0) :
    peek s 0 = .ok '_' ∧ peek s 1 = .ok '_' := by
  cases s with
  | nil => simp [strnstr] at h
  | cons c t =>
    rw [strnstr] at h
    by_cases hc : c = '_' ∧ t.head? = some '_'
    · obtain ⟨h1, h2⟩ := hc
      subst h1
      cases t with
      | nil => simp at h2
      | cons b t =>
        simp only [List.head?_cons, Option.some.injEq] at h2
        subst h2
        exact ⟨rfl, rfl⟩
    · rw [if_neg hc] at h
      cases hs : strnstr t with
      | none => rw [hs] at h; cases h
      | some n => rw [hs] at h; simp at h

/-- The branch of `read_func_name` that is taken: the operator branch exactly when
the string at the cursor starts with `"__"`. -/
theorem read_func_name_branch (s : List Char) (d : demangle_data)
    (h : ¬ (peek s d.p = .ok '_' ∧ peek s (d.p + 1) = .ok '_')) (hp : d.p ≤ s.length) :
    read_func_name s d = read_func s d := by
  obtain ⟨c0, hc0⟩ : ∃ c0, peek s d.p = .ok c0 := by
    rcases Nat.lt_or_ge d.p s.length with hlt | hge
    · have hg : s.get? d.p = some (s.get ⟨d.p, hlt⟩) := List.get?_eq_get hlt
      exact ⟨s.get ⟨d.p, hlt⟩, by simp only [peek, hg]⟩
    · have : d.p = s.length := by omega
      exact ⟨NUL, by rw [this]; exact peek_end s⟩
  unfold read_func_name
  by_cases h0 : c0 = '_'
  · subst h0
    obtain ⟨c1, hc1⟩ := peek_next_ok s d.p '_' hc0 (by decide)
    have h1 : c1 ≠ '_' := fun e => h ⟨hc0, by rw [hc1, e]⟩
    simp [hc0, hc1, h1]
  · simp [hc0, h0]

/-- `read_class` appends one fragment. -/
theorem read_class_vec (s : List Char) (d d2 : demangle_data) (h : read_class s d = .ok d2) :
    d2.vec.length = d.vec.length + 1 := by
  unfold read_class at h
  split at h
  · cases h
  · dsimp only at h
    split at h
    · cases h
    · split at h
      · cases h
      · injection h with h
        subst h
        simp [vector_str_push]

theorem read_qual_name_loop_vec (s : List Char) : ∀ (n : Nat) (d d2 : demangle_data),
    read_qual_name_loop s n d = .ok d2 → d2.vec.length = d.vec.length + 2 * n := by
  intro n
  induction n with
  | zero =>
    intro d d2 h
    simp only [read_qual_name_loop] at h
    injection h with h
    subst h
    rfl
  | succ k ih =>
    intro d d2 h
    rw [read_qual_name_loop] at h
    obtain ⟨d1, h1, h2⟩ := bind_eq_ok _ _ _ h
    have e1 := read_class_vec s d d1 h1
    have e2 := ih _ _ h2
    simp only [vpush, vector_str_push, List.length_append, List.length_cons,
      List.length_nil] at e2
    omega

/-- `read_qual_name` appends at least two fragments. -/
theorem read_qual_name_vec (s : List Char) (d d2 : demangle_data)
    (h : read_qual_name s d = .ok d2) : d.vec.length + 2 ≤ d2.vec.length := by
  unfold read_qual_name at h
  obtain ⟨c, _, h1⟩ := bind_eq_ok _ _ _ h
  split at h1
  · cases h1
  · rename_i hc
    obtain ⟨d1, h2, h3⟩ := bind_eq_ok _ _ _ h1
    have e := read_qual_name_loop_vec s _ _ _ h2
    injection h3 with h3
    subst h3
    simp only [skip] at e ⊢
    have : c.toNat > 48 := by
      by_contra hn
      exact hc (fun hh => hn hh.1)
    omega
theorem op_push_vec (d d2 : demangle_data) (n : Nat) (lit : String) (len : Nat)
    (h : op_push d n lit len = .ok d2) : d2.vec.length = d.vec.length + 1 := by
  unfold op_push at h
  injection h with h
  subst h
  simp [vpush, skip, vector_str_push]

theorem op_push3_vec (s : List Char) (d d2 : demangle_data) (c : Char) (lit : String)
    (len : Nat) (h : op_push3 s d c lit len = .ok d2) : d2.vec.length = d.vec.length + 1 := by
  unfold op_push3 at h
  obtain ⟨c2, _, h1⟩ := bind_eq_ok _ _ _ h
  split at h1
  · cases h1
  · injection h1 with h1
    subst h1
    simp [vpush, skip, vector_str_push]

theorem op_ctdt_vec (s : List Char) (d d2 : demangle_data) (t : encode_type)
    (h : op_ctdt s d t = .ok d2) : d.vec.length + 1 ≤ d2.vec.length := by
  unfold op_ctdt at h
  obtain ⟨c, _, h1⟩ := bind_eq_ok _ _ _ h
  dsimp only at h1
  split at h1
  · obtain ⟨c1, _, h2⟩ := bind_eq_ok _ _ _ h1
    split at h2
    · have := read_qual_name_vec s _ _ h2
      simp only [skip] at this
      omega
    · cases h2
  · split at h1
    · have := read_class_vec s _ _ h1
      simp only [skip] at this
      omega
    · cases h1

theorem op_push_skip_vec (d d2 : demangle_data) (m n : Nat) (lit : String) (len : Nat)
    (h : op_push (skip d m) n lit len = .ok d2) : d.vec.length + 1 ≤ d2.vec.length := by
  have h1 := op_push_vec _ _ _ _ _ h
  simp only [skip] at h1
  omega

theorem op_am_vec (d d2 : demangle_data) (c : Char)
    (h : (if c = 'i' then op_push (skip d 2) 1 "operator-=" 10
      else if c = 'u' then op_push (skip d 2) 1 "operator*=" 10
      else if c = 'd' then op_push (skip d 2) 1 "operator%=" 10
      else .fail) = .ok d2) : d.vec.length + 1 ≤ d2.vec.length := by
  have key : ∀ lit n, op_push (skip d 2) 1 lit n = .ok d2 → d.vec.length + 1 ≤ d2.vec.length := by
    intro lit n h3
    have := op_push_vec _ _ _ _ _ h3
    simp only [skip] at this
    omega
  split at h
  · exact key _ _ h
  · split at h
    · exact key _ _ h
    · split at h
      · exact key _ _ h
      · cases h

/-- `read_op` appends at least one fragment when it returns `true`. -/
theorem read_op_vec (s : List Char) (d d2 : demangle_data) (h : read_op s d = .ok d2) :
    d.vec.length + 1 ≤ d2.vec.length := by
  unfold read_op at h
  obtain ⟨c0, _, h1⟩ := bind_eq_ok _ _ _ h
  obtain ⟨c1, _, h2⟩ := bind_eq_ok _ _ _ h1
  dsimp only at h2
  generalize SIMPLE_HASH c0 c1 = hh at h2
  by_cases k1 : hh = SIMPLE_HASH 'm' 'l'
  · rw [if_pos k1] at h2
    exact le_of_eq (op_push_vec _ _ _ _ _ h2).symm
  rw [if_neg k1] at h2
  by_cases k2 : hh = SIMPLE_HASH 'd' 'v'
  · rw [if_pos k2] at h2
    exact le_of_eq (op_push_vec _ _ _ _ _ h2).symm
  rw [if_neg k2] at h2
  by_cases k3 : hh = SIMPLE_HASH 'm' 'd'
  · rw [if_pos k3] at h2
    exact le_of_eq (op_push_vec _ _ _ _ _ h2).symm
  rw [if_neg k3] at h2
  by_cases k4 : hh = SIMPLE_HASH 'p' 'l'
  · rw [if_pos k4] at h2
    exact le_of_eq (op_push_vec _ _ _ _ _ h2).symm
  rw [if_neg k4] at h2
  by_cases k5 : hh = SIMPLE_HASH 'm' 'i'
  · rw [if_pos k5] at h2
    exact le_of_eq (op_push_vec _ _ _ _ _ h2).symm
  rw [if_neg k5] at h2
  by_cases k6 : hh = SIMPLE_HASH 'l' 's'
  · rw [if_pos k6] at h2
    exact le_of_eq (op_push_vec _ _ _ _ _ h2).symm
  rw [if_neg k6] at h2
  by_cases k7 : hh = SIMPLE_HASH 'r' 's'
  · rw [if_pos k7] at h2
    exact le_of_eq (op_push_vec _ _ _ _ _ h2).symm
  rw [if_neg k7] at h2
  by_cases k8 : hh = SIMPLE_HASH 'e' 'q'
  · rw [if_pos k8] at h2
    exact le_of_eq (op_push_vec _ _ _ _ _ h2).symm
  rw [if_neg k8] at h2
  by_cases k9 : hh = SIMPLE_HASH 'n' 'e'
  · rw [if_pos k9] at h2
    exact le_of_eq (op_push_vec _ _ _ _ _ h2).symm
  rw [if_neg k9] at h2
  by_cases k10 : hh = SIMPLE_HASH 'l' 't'
  · rw [if_pos k10] at h2
    exact le_of_eq (op_push_vec _ _ _ _ _ h2).symm
  rw [if_neg k10] at h2
  by_cases k11 : hh = SIMPLE_HASH 'g' 't'
  · rw [if_pos k11] at h2
    exact le_of_eq (op_push_vec _ _ _ _ _ h2).symm
  rw [if_neg k11] at h2
  by_cases k12 : hh = SIMPLE_HASH 'l' 'e'
  · rw [if_pos k12] at h2
    exact le_of_eq (op_push_vec _ _ _ _ _ h2).symm
  rw [if_neg k12] at h2
  by_cases k13 : hh = SIMPLE_HASH 'g' 'e'
  · rw [if_pos k13] at h2
    exact le_of_eq (op_push_vec _ _ _ _ _ h2).symm
  rw [if_neg k13] at h2
  by_cases k14 : hh = SIMPLE_HASH 'a' 'd'
  · rw [if_pos k14] at h2
    obtain ⟨c, _, h3⟩ := bind_eq_ok _ _ _ h2
    split at h3 <;> exact op_push_skip_vec _ _ _ _ _ _ h3
  rw [if_neg k14] at h2
  by_cases k15 : hh = SIMPLE_HASH 'o' 'r'
  · rw [if_pos k15] at h2
    exact le_of_eq (op_push_vec _ _ _ _ _ h2).symm
  rw [if_neg k15] at h2
  by_cases k16 : hh = SIMPLE_HASH 'e' 'r'
  · rw [if_pos k16] at h2
    exact le_of_eq (op_push_vec _ _ _ _ _ h2).symm
  rw [if_neg k16] at h2
  by_cases k17 : hh = SIMPLE_HASH 'a' 'a'
  · rw [if_pos k17] at h2
    obtain ⟨c, _, h3⟩ := bind_eq_ok _ _ _ h2
    split at h3 <;> exact op_push_skip_vec _ _ _ _ _ _ h3
  rw [if_neg k17] at h2
  by_cases k18 : hh = SIMPLE_HASH 'o' 'o'
  · rw [if_pos k18] at h2
    exact le_of_eq (op_push_vec _ _ _ _ _ h2).symm
  rw [if_neg k18] at h2
  by_cases k19 : hh = SIMPLE_HASH 'n' 't'
  · rw [if_pos k19] at h2
    exact le_of_eq (op_push_vec _ _ _ _ _ h2).symm
  rw [if_neg k19] at h2
  by_cases k20 : hh = SIMPLE_HASH 'c' 'o'
  · rw [if_pos k20] at h2
    exact le_of_eq (op_push_vec _ _ _ _ _ h2).symm
  rw [if_neg k20] at h2
  by_cases k21 : hh = SIMPLE_HASH 'p' 'p'
  · rw [if_pos k21] at h2
    exact le_of_eq (op_push_vec _ _ _ _ _ h2).symm
  rw [if_neg k21] at h2
  by_cases k22 : hh = SIMPLE_HASH 'm' 'm'
  · rw [if_pos k22] at h2
    exact le_of_eq (op_push_vec _ _ _ _ _ h2).symm
  rw [if_neg k22] at h2
  by_cases k23 : hh = SIMPLE_HASH 'a' 's'
  · rw [if_pos k23] at h2
    exact le_of_eq (op_push_vec _ _ _ _ _ h2).symm
  rw [if_neg k23] at h2
  by_cases k24 : hh = SIMPLE_HASH 'r' 'f'
  · rw [if_pos k24] at h2
    exact le_of_eq (op_push_vec _ _ _ _ _ h2).symm
  rw [if_neg k24] at h2
  by_cases k25 : hh = SIMPLE_HASH 'a' 'p'
  · rw [if_pos k25] at h2
    exact le_of_eq (op_push3_vec _ _ _ _ _ _ h2).symm
  rw [if_neg k25] at h2
  by_cases k26 : hh = SIMPLE_HASH 'a' 'm'
  · rw [if_pos k26] at h2
    obtain ⟨c, _, h3⟩ := bind_eq_ok _ _ _ h2
    exact op_am_vec d d2 c h3
  rw [if_neg k26] at h2
  by_cases k27 : hh = SIMPLE_HASH 'a' 'l'
  · rw [if_pos k27] at h2
    exact le_of_eq (op_push3_vec _ _ _ _ _ _ h2).symm
  rw [if_neg k27] at h2
  by_cases k28 : hh = SIMPLE_HASH 'a' 'r'
  · rw [if_pos k28] at h2
    exact le_of_eq (op_push3_vec _ _ _ _ _ _ h2).symm
  rw [if_neg k28] at h2
  by_cases k29 : hh = SIMPLE_HASH 'a' 'o'
  · rw [if_pos k29] at h2
    exact le_of_eq (op_push3_vec _ _ _ _ _ _ h2).symm
  rw [if_neg k29] at h2
  by_cases k30 : hh = SIMPLE_HASH 'a' 'e'
  · rw [if_pos k30] at h2
    exact le_of_eq (op_push3_vec _ _ _ _ _ _ h2).symm
  rw [if_neg k30] at h2
  by_cases k31 : hh = SIMPLE_HASH 'c' 'm'
  · rw [if_pos k31] at h2
    exact le_of_eq (op_push_vec _ _ _ _ _ h2).symm
  rw [if_neg k31] at h2
  by_cases k32 : hh = SIMPLE_HASH 'r' 'm'
  · rw [if_pos k32] at h2
    exact le_of_eq (op_push_vec _ _ _ _ _ h2).symm
  rw [if_neg k32] at h2
  by_cases k33 : hh = SIMPLE_HASH 'c' 'l'
  · rw [if_pos k33] at h2
    exact le_of_eq (op_push_vec _ _ _ _ _ h2).symm
  rw [if_neg k33] at h2
  by_cases k34 : hh = SIMPLE_HASH 'v' 'c'
  · rw [if_pos k34] at h2
    exact le_of_eq (op_push_vec _ _ _ _ _ h2).symm
  rw [if_neg k34] at h2
  by_cases k35 : hh = SIMPLE_HASH 'c' 't'
  · rw [if_pos k35] at h2
    exact op_ctdt_vec _ _ _ _ h2
  rw [if_neg k35] at h2
  by_cases k36 : hh = SIMPLE_HASH 'd' 't'
  · rw [if_pos k36] at h2
    exact op_ctdt_vec _ _ _ _ h2
  rw [if_neg k36] at h2
  by_cases k37 : hh = SIMPLE_HASH 'n' 'w'
  · rw [if_pos k37] at h2
    exact le_of_eq (op_push_vec _ _ _ _ _ h2).symm
  rw [if_neg k37] at h2
  by_cases k38 : hh = SIMPLE_HASH 'd' 'l'
  · rw [if_pos k38] at h2
    exact le_of_eq (op_push_vec _ _ _ _ _ h2).symm
  rw [if_neg k38] at h2
  cases h2
/-- A sequence that ends with a push leaves a builder that is not empty. -/
theorem push_last_vec (x : Res demangle_data) (str : List Char) (len : Nat)
    (d2 : demangle_data)
    (h : (x >>= fun y => Res.ok { y with vec := vector_str_push y.vec str len }) = .ok d2) :
    d2.vec ≠ [] := by
  obtain ⟨d1, _, h1⟩ := bind_eq_ok _ _ _ h
  injection h1 with h1
  subst h1
  simp [vector_str_push]

/-- `read_func` ends with the push of the function name. -/
theorem read_func_vec (s : List Char) (d d2 : demangle_data) (h : read_func s d = .ok d2) :
    d2.vec ≠ [] := by
  unfold read_func at h
  split at h
  · cases h
  · split at h
    · cases h
    · obtain ⟨c, _, h1⟩ := bind_eq_ok _ _ _ h
      dsimp only at h1
      split at h1
      · obtain ⟨c1, _, h2⟩ := bind_eq_ok _ _ _ h1
        split at h2
        · exact push_last_vec _ _ _ _ h2
        · exact push_last_vec _ _ _ _ h2
      · split at h1
        · obtain ⟨d1, _, h2⟩ := bind_eq_ok _ _ _ h1
          exact push_last_vec _ _ _ _ h2
        · exact push_last_vec _ _ _ _ h1

/-- The scoped-operator branches of `read_func_name` end with the push of the
operator fragment. -/
theorem scoped_op_vec (scope : demangle_data → Res demangle_data) (extra : Nat)
    (d d2 : demangle_data) (h : scoped_op scope extra d = .ok d2) : d2.vec ≠ [] := by
  unfold scoped_op at h
  split at h
  · cases h
  · obtain ⟨d1, _, h1⟩ := bind_eq_ok _ _ _ h
    injection h1 with h1
    subst h1
    simp [vector_str_push]

/-- The builder is not empty when `read_func_name` returns `true`. -/
theorem read_func_name_vec (s : List Char) (d d2 : demangle_data)
    (h : read_func_name s d = .ok d2) : d2.vec ≠ [] := by
  unfold read_func_name at h
  obtain ⟨c0, _, h1⟩ := bind_eq_ok _ _ _ h
  dsimp only at h1
  have hop : (do
      let d1 ← read_op s { skip d 2 with type := ENCODE_OP }
      if d1.type = ENCODE_OP_CT ∨ d1.type = ENCODE_OP_DT then Res.ok d1
      else do
        let c ← peek s (skip d1 2).p
        if c = 'Q' then do
          let c1 ← peek s ((skip d1 2).p + 1)
          if isdigit c1 = true then scoped_op (read_qual_name s) 0 (skip (skip d1 2) 1)
          else Res.fail
        else if isdigit c = true then scoped_op (read_class s) 1 (skip d1 2)
        else Res.fail) = .ok d2 → d2.vec ≠ [] := by
    intro h2
    obtain ⟨d1, hop, h3⟩ := bind_eq_ok _ _ _ h2
    have hv := read_op_vec s _ d1 hop
    split at h3
    · injection h3 with h3
      subst h3
      intro h0
      rw [h0] at hv
      simp at hv
    · obtain ⟨c, _, h4⟩ := bind_eq_ok _ _ _ h3
      split at h4
      · obtain ⟨c1, _, h5⟩ := bind_eq_ok _ _ _ h4
        split at h5
        · exact scoped_op_vec _ _ _ _ h5
        · cases h5
      · split at h4
        · exact scoped_op_vec _ _ _ _ h4
        · cases h4
  split at h1
  · obtain ⟨c1, _, h2⟩ := bind_eq_ok _ _ _ h1
    simp only [pure_eq_ok, bind_ok] at h2
    split at h2
    · exact hop h2
    · exact read_func_vec s d d2 h2
  · simp only [pure_eq_ok, bind_ok, Bool.false_eq_true, if_false] at h1
    exact read_func_vec s d d2 h1

/-- `push_CTDT` on a builder that is not empty: the assertion holds and the
fragment before the pushed one exists. -/
theorem push_CTDT_ok (str : String) (l : Nat) (v : vector_str) (hv : v ≠ []) :
    1 < (vector_str_push v str.toList l).length ∧ ∃ r, push_CTDT str l v = .ok r := by
  have hlen : 1 < (vector_str_push v str.toList l).length := by
    have : v.length ≠ 0 := fun h => hv (List.length_eq_zero.1 h)
    simp only [vector_str_push, List.length_append, List.length_cons, List.length_nil]
    omega
  refine ⟨hlen, ?_⟩
  unfold push_CTDT
  have h1 : ¬ ¬ ((vector_str_push v str.toList l).length > 1) := not_not.2 hlen
  obtain ⟨e, he⟩ : ∃ e, (vector_str_push v str.toList l).get?
      ((vector_str_push v str.toList l).length - 2) = some e :=
    ⟨_, List.get?_eq_get (by omega)⟩
  simp only [if_neg h1, he]
  exact ⟨_, rfl⟩
/-- C32: for every input and every entry value of `errno`, the three assertions on
the name span and on the builder hold whenever the driver reaches them.
`read_func_name` hands an input to `read_func` when it does not start with `"__"`,
and then the delimiter is not found at offset 0, so the name span is not empty.
When `read_op` returns `true` the builder is not empty, in both branches that pop
the operator fragment. When `read_func_name` returns `true` the builder holds more
than one fragment after the push of `"::"` or `"::~"` in `push_CTDT`, which then
returns `true`. -/
theorem builder_assertions_hold (s : List Char) (errno : Nat) :
    (¬ (peek s 0 = .ok '_' ∧ peek s 1 = .ok '_') →
      read_func_name s (init_demangle_data 0 errno) = read_func s (init_demangle_data 0 errno) ∧
      ∀ len, strnstr (s.drop (init_demangle_data 0 errno).p) = some len → len ≠ 0) ∧
    (∀ d, read_op s { skip (init_demangle_data 0 errno) 2 with type := ENCODE_OP } = .ok d →
      (skip (skip d 2) 1).vec.getLast? ≠ none ∧ (skip d 2).vec.getLast? ≠ none) ∧
    (∀ d, read_func_name s (init_demangle_data 0 errno) = .ok d →
      (1 < (vector_str_push d.vec "::".toList 2).length ∧
        ∃ r, push_CTDT "::" 2 d.vec = .ok r) ∧
      (1 < (vector_str_push d.vec "::~".toList 3).length ∧
        ∃ r, push_CTDT "::~" 3 d.vec = .ok r)) := by
  refine ⟨fun h => ⟨?_, ?_⟩, ?_, ?_⟩
  · exact read_func_name_branch s (init_demangle_data 0 errno) h (Nat.zero_le _)
  · intro len hl h0
    subst h0
    exact h (strnstr_zero s hl)
  · intro d hd
    have hv := read_op_vec s _ d hd
    have hne : d.vec ≠ [] := by
      intro h0
      rw [h0] at hv
      simp at hv
    exact ⟨by simpa [skip] using hne, by simpa [skip] using hne⟩
  · intro d hd
    have hne := read_func_name_vec s _ d hd
    exact ⟨push_CTDT_ok "::" 2 d.vec hne, push_CTDT_ok "::~" 3 d.vec hne⟩

/-- C32 on `"f__Fi"`, where `read_func` finds the delimiter behind the name, on
`"__pl__1CFi"`, where `read_op` leaves the fragment `operator+`, and on
`"__ct__3Foo"`, where `push_CTDT` finds the class name. -/
theorem builder_assertions_hold_witness :
    (∀ len, strnstr ("f__Fi".toList.drop 0) = some len → len ≠ 0) ∧
    ["operator+".toList].getLast? ≠ none ∧
    (∃ r, push_CTDT "::" 2 ["Foo".toList] = .ok r) :=
  ⟨((builder_assertions_hold "f__Fi".toList 0).1 (by decide)).2,
    ((builder_assertions_hold "__pl__1CFi".toList 0).2.1
      ⟨false, false, false, 4, ENCODE_OP, ["operator+".toList], [], 0⟩ (by decide)).2,
    ((builder_assertions_hold "__ct__3Foo".toList 0).2.2
      ⟨false, false, false, 10, ENCODE_OP_CT, ["Foo".toList], [], 0⟩ (by decide)).1.2⟩

end ARM

/-! # Properties of the S-Record and Intel HEX lines -/

namespace Ascii

/-! ## Hexadecimal digits -/

theorem hex_digit_ok : ∀ n < 16,
    ishexdigit (hex_digit n) = true ∧ (hex_value (hex_digit n)).toNat = n := by decide

theorem byte_of_nibbles : ∀ b < 256, ((((b >>> 4) % 16) <<< 4) ||| (b % 16)) % 256 = b := by
  intro b hb
  have h := Nat.mul_add_lt_is_or (show b % 16 < 2 ^ 4 from Nat.mod_lt _ (by norm_num))
    ((b >>> 4) % 16)
  rw [Nat.shiftLeft_eq, Nat.mul_comm, ← h, Nat.shiftRight_eq_div_pow]
  omega

/-- The update `(*num << 8) | b` of `read_num` for a byte `b`. -/
theorem shift_or_byte (n x : Nat) :
    ((n <<< 8) % 2 ^ 64) ||| (x % 256) = (n * 256) % 2 ^ 64 + x % 256 := by
  have h1 : (n <<< 8) % 2 ^ 64 = 2 ^ 8 * (n % 2 ^ 56) := by
    rw [Nat.shiftLeft_eq, Nat.mul_comm n, show (2 : Nat) ^ 64 = 2 ^ 8 * 2 ^ 56 by norm_num,
      Nat.mul_mod_mul_left]
  have h2 : (n * 256) % 2 ^ 64 = 2 ^ 8 * (n % 2 ^ 56) := by
    rw [Nat.mul_comm n, show (256 : Nat) = 2 ^ 8 by norm_num,
      show (2 : Nat) ^ 64 = 2 ^ 8 * 2 ^ 56 by norm_num, Nat.mul_mod_mul_left]
  rw [h1, h2]
  exact (Nat.mul_add_lt_is_or (Nat.mod_lt x (by norm_num)) _).symm

/-- A list that stands at an offset of a line: its first character is read at the
offset, and the others stand behind it. -/
theorem drop_cons_spec (s : List Char) (p : Nat) (c : Char) (t : List Char)
    (h : (c :: t) <+: s.drop p) : s.getD p NUL = c ∧ t <+: s.drop (p + 1) := by
  obtain ⟨r, hr⟩ := h
  constructor
  · have h0 : (s.drop p)[0]? = some c := by rw [← hr]; simp
    rw [List.getElem?_drop] at h0
    simp only [Nat.add_zero] at h0
    simp [List.getD_eq_getElem?_getD, h0]
  · refine ⟨r, ?_⟩
    have : s.drop (p + 1) = (s.drop p).drop 1 := by rw [List.drop_drop, Nat.add_comm]
    rw [this, ← hr]
    rfl

theorem drop_append_spec (s : List Char) (p : Nat) (l1 l2 : List Char)
    (h : (l1 ++ l2) <+: s.drop p) : l1 <+: s.drop p ∧ l2 <+: s.drop (p + l1.length) := by
  obtain ⟨r, hr⟩ := h
  constructor
  · exact ⟨l2 ++ r, by rw [← hr]; simp⟩
  · refine ⟨r, ?_⟩
    have : s.drop (p + l1.length) = (s.drop p).drop l1.length := by
      rw [List.drop_drop, Nat.add_comm]
    rw [this, ← hr]
    simp

/-! ## `read_num` over written digits -/

/-- A round of `read_num` over the two digits of a byte. -/
theorem read_num_loop_step (s : List Char) (sz len num cs : Nat) (upd : Bool) (b : Nat)
    (hb : b < 256) (h : hex_pair b <+: s.drop len) :
    read_num_loop s (sz + 1) len num cs upd =
      read_num_loop s sz (len + 2) (((num <<< 8) % 2 ^ 64) ||| b)
        (if upd then (cs + b) % 256 else cs) upd := by
  obtain ⟨h1, h2⟩ := drop_cons_spec s len _ _ h
  obtain ⟨h3, _⟩ := drop_cons_spec s (len + 1) _ _ h2
  have hn1 : (b >>> 4) % 16 < 16 := Nat.mod_lt _ (by norm_num)
  have hn2 : b % 16 < 16 := Nat.mod_lt _ (by norm_num)
  obtain ⟨d1, v1⟩ := hex_digit_ok _ hn1
  obtain ⟨d2, v2⟩ := hex_digit_ok _ hn2
  rw [read_num_loop]
  simp only [h1, h3, d1, d2, v1, v2, not_true_eq_false, if_false, byte_of_nibbles b hb]

/-- The update of `*num` over a sequence of bytes. -/
theorem read_num_loop_bytes (s : List Char) (upd : Bool) (bs : List Nat) :
    ∀ (len num cs : Nat), cs < 256 → (∀ b ∈ bs, b < 256) → hex_of_bytes bs <+: s.drop len →
      read_num_loop s bs.length len num cs upd =
        some (len + 2 * bs.length, bs.foldl (fun n b => ((n <<< 8) % 2 ^ 64) ||| b) num,
          if upd then (cs + bs.sum) % 256 else cs) := by
  induction bs with
  | nil =>
    intro len num cs hcs _ _
    cases upd <;> simp [read_num_loop]
    omega
  | cons b t ih =>
    intro len num cs hcs hall h
    have hb := hall b (List.mem_cons_self _ _)
    have hsplit : hex_of_bytes (b :: t) = hex_pair b ++ hex_of_bytes t := by
      simp [hex_of_bytes, List.flatMap]
    rw [hsplit] at h
    obtain ⟨h1, h2⟩ := drop_append_spec s len _ _ h
    have hl : (hex_pair b).length = 2 := rfl
    rw [hl] at h2
    rw [List.length_cons, read_num_loop_step s t.length len num cs upd b hb h1,
      ih (len + 2) _ _ (by split <;> omega) (fun x hx => hall x (List.mem_cons_of_mem _ hx)) h2]
    cases upd
    · simp; omega
    · simp [Nat.add_assoc]; omega

/-- The bytes of a number are bytes. -/
theorem bytes_be_lt (num : Nat) : ∀ sz, ∀ b ∈ bytes_be num sz, b < 256 := by
  intro sz
  induction sz with
  | zero => intro b hb; cases hb
  | succ n ih =>
    intro b hb
    rcases List.mem_cons.1 hb with rfl | h
    · exact Nat.mod_lt _ (by norm_num)
    · exact ih b h

theorem bytes_be_length (num : Nat) : ∀ sz, (bytes_be num sz).length = sz := by
  intro sz
  induction sz with
  | zero => rfl
  | succ n ih => simp [bytes_be, ih]

theorem hex_of_bytes_length (bs : List Nat) : (hex_of_bytes bs).length = 2 * bs.length := by
  induction bs with
  | nil => rfl
  | cons b t ih =>
    have : hex_of_bytes (b :: t) = hex_pair b ++ hex_of_bytes t := by
      simp [hex_of_bytes, List.flatMap]
    rw [this, List.length_append, ih]
    simp [hex_pair]; omega

theorem hex_of_bytes_append (l1 l2 : List Nat) :
    hex_of_bytes (l1 ++ l2) = hex_of_bytes l1 ++ hex_of_bytes l2 := by
  simp [hex_of_bytes, List.flatMap]

/-- A byte that is read alone is the value of `*num`. -/
theorem be_value_byte (b : Nat) :
    [b].foldl (fun n x => ((n <<< 8) % 2 ^ 64) ||| x) 0 = b := by
  simp

/-- The digits that `write_num` appends are those of the `sz` low bytes of `num`. -/
theorem write_num_spec (num : Nat) (upd : Bool) : ∀ (sz : Nat) (line : List Char) (cs : Nat),
    sz ≤ 8 → line.length + 2 * sz ≤ _LINE_BUFSZ → cs < 256 →
    write_num line num sz cs upd =
      some (line ++ hex_of_bytes (bytes_be num sz),
        if upd then (cs + (bytes_be num sz).sum) % 256 else cs) := by
  intro sz
  induction sz with
  | zero =>
    intro line cs _ _ hcs
    cases upd <;> simp [write_num, bytes_be, hex_of_bytes]
    omega
  | succ n ih =>
    intro line cs hsz hlen hcs
    have h1 : ¬ (n * 8 ≥ 64) := by omega
    have h2 : ¬ (line.length + 2 > _LINE_BUFSZ) := by omega
    rw [write_num]
    simp only [if_neg h1, if_neg h2]
    have hlen2 : (line ++ [hex_digit ((((((num % 2 ^ 64) >>> (n * 8)) % 256)) >>> 4) % 16),
        hex_digit ((((num % 2 ^ 64) >>> (n * 8)) % 256) % 16)]).length + 2 * n ≤
        _LINE_BUFSZ := by
      simp only [List.length_append, List.length_cons, List.length_nil]; omega
    have hcs2 : (if upd = true then (cs + ((num % 2 ^ 64) >>> (n * 8)) % 256) % 256 else cs) <
        256 := by
      split <;> omega
    rw [ih _ _ (by omega) hlen2 hcs2]
    have hsplit : hex_of_bytes (bytes_be num (n + 1)) =
        [hex_digit ((((((num % 2 ^ 64) >>> (n * 8)) % 256)) >>> 4) % 16),
          hex_digit ((((num % 2 ^ 64) >>> (n * 8)) % 256) % 16)] ++
          hex_of_bytes (bytes_be num n) := by
      simp [hex_of_bytes, bytes_be, List.flatMap, hex_pair]
    rw [hsplit]
    cases upd
    · simp
    · simp [bytes_be, Nat.add_assoc]
      omega

/-- A byte written by `write_num` with the size 1. -/
theorem bytes_be_byte (b : Nat) (hb : b < 256) : bytes_be b 1 = [b] := by
  have h1 : b % 2 ^ 64 = b := Nat.mod_eq_of_lt (by omega)
  simp only [bytes_be]
  rw [h1]
  simp [Nat.mod_eq_of_lt hb]

/-- The digits that the loop over a buffer appends. -/
theorem write_buf_spec : ∀ (bs : List Nat) (line : List Char) (cs : Nat),
    (∀ b ∈ bs, b < 256) → line.length + 2 * bs.length ≤ _LINE_BUFSZ → cs < 256 →
    write_buf bs line cs = some (line ++ hex_of_bytes bs, (cs + bs.sum) % 256) := by
  intro bs
  induction bs with
  | nil =>
    intro line cs _ _ hcs
    simp [write_buf, hex_of_bytes]
    omega
  | cons b t ih =>
    intro line cs hall hlen hcs
    have hb := hall b (List.mem_cons_self _ _)
    simp only [List.length_cons] at hlen
    rw [write_buf, write_num_spec b true 1 line cs (by omega) (by omega) hcs,
      bytes_be_byte b hb]
    simp only [if_true]
    rw [ih _ _ (fun x hx => hall x (List.mem_cons_of_mem _ hx))
      (by rw [List.length_append, hex_of_bytes_length]; simp; omega)
      (Nat.mod_lt _ (by norm_num))]
    have : hex_of_bytes (b :: t) = hex_of_bytes [b] ++ hex_of_bytes t := by
      simp [hex_of_bytes, List.flatMap]
    rw [this]
    simp [Nat.add_assoc]

/-- The number that `read_num` builds from the bytes of `num`, started from `acc`. -/
theorem read_value_fold (num : Nat) : ∀ (sz acc : Nat), acc < 2 ^ 64 →
    (bytes_be num sz).foldl (fun n b => ((n <<< 8) % 2 ^ 64) ||| b) acc =
      (acc * 256 ^ sz + (num % 2 ^ 64) % 256 ^ sz) % 2 ^ 64 := by
  intro sz
  induction sz with
  | zero =>
    intro acc hacc
    simp [bytes_be, Nat.mod_one]
    omega
  | succ n ih =>
    intro acc _
    have hacc2 : (acc * 256) % 2 ^ 64 + ((num % 2 ^ 64) >>> (n * 8)) % 256 < 2 ^ 64 := by
      omega
    have hpow : (2 : Nat) ^ (n * 8) = 256 ^ n := by
      rw [Nat.mul_comm, Nat.pow_mul]
    have hmod : (num % 2 ^ 64) % 256 ^ (n + 1) =
        (num % 2 ^ 64) % 256 ^ n + 256 ^ n * ((num % 2 ^ 64) / 256 ^ n % 256) := by
      rw [pow_succ]; exact Nat.mod_mul
    simp only [bytes_be, List.foldl_cons]
    rw [shift_or_byte, ih _ hacc2, hmod, Nat.shiftRight_eq_div_pow, hpow]
    have h1 : (acc * 256) % 2 ^ 64 + (num % 2 ^ 64) / 256 ^ n % 256 ≡
        acc * 256 + (num % 2 ^ 64) / 256 ^ n % 256 [MOD 2 ^ 64] :=
      (Nat.mod_modEq (acc * 256) (2 ^ 64)).add_right _
    have h2 := (h1.mul_right (256 ^ n)).add_right ((num % 2 ^ 64) % 256 ^ n)
    have h3 : (acc * 256 + (num % 2 ^ 64) / 256 ^ n % 256) * 256 ^ n + (num % 2 ^ 64) % 256 ^ n =
        acc * 256 ^ (n + 1) +
          ((num % 2 ^ 64) % 256 ^ n + 256 ^ n * ((num % 2 ^ 64) / 256 ^ n % 256)) := by
      ring
    rw [h3] at h2
    exact h2

/-- The number that `read_num` builds from the bytes of `num`, most significant
first, is `num` modulo `2 ^ (8 * sz)`. -/
theorem be_value (num sz : Nat) (hsz : sz ≤ 8) :
    (bytes_be num sz).foldl (fun n b => ((n <<< 8) % 2 ^ 64) ||| b) 0 =
      num % 2 ^ (8 * sz) := by
  have hpow : (2 : Nat) ^ (8 * sz) = 256 ^ sz := by rw [Nat.pow_mul]
  have hdvd : 256 ^ sz ∣ 2 ^ 64 := by
    rw [← hpow]; exact Nat.pow_dvd_pow 2 (by omega)
  have hlt : (num % 2 ^ 64) % 256 ^ sz < 2 ^ 64 :=
    lt_of_le_of_lt (Nat.mod_le _ _) (Nat.mod_lt _ (by norm_num))
  rw [read_value_fold _ _ _ (by norm_num), Nat.zero_mul, Nat.zero_add, Nat.mod_eq_of_lt hlt,
    Nat.mod_mod_of_dvd _ hdvd, hpow]

/-! ## S-Records -/

/-- A segment of a line stands at the offset of its start. -/
theorem seg_at (pre seg rest : List Char) (p : Nat) (hp : p = pre.length) :
    seg <+: (pre ++ seg ++ rest).drop p := by
  subst hp
  rw [List.append_assoc, List.drop_left]
  exact ⟨rest, rfl⟩

theorem srec_addr_sz_bounds (t : Char) : 2 ≤ srec_addr_sz t ∧ srec_addr_sz t ≤ 4 := by
  unfold srec_addr_sz
  split
  · omega
  · split <;> omega

/-- The loop of `srec_read` over the digits of a sequence of bytes. -/
theorem read_data_spec (s : List Char) (bs : List Nat) :
    ∀ (len cs : Nat) (data : List Nat), cs < 256 → (∀ b ∈ bs, b < 256) →
      hex_of_bytes bs <+: s.drop len →
      read_data s bs.length len cs data =
        some (len + 2 * bs.length, (cs + bs.sum) % 256, data ++ bs) := by
  induction bs with
  | nil =>
    intro len cs data hcs _ _
    simp [read_data]
    omega
  | cons b t ih =>
    intro len cs data hcs hall h
    have hb := hall b (List.mem_cons_self _ _)
    have hsplit : hex_of_bytes (b :: t) = hex_of_bytes [b] ++ hex_of_bytes t := by
      simp [hex_of_bytes, List.flatMap]
    rw [hsplit] at h
    obtain ⟨h1, h2⟩ := drop_append_spec s len _ _ h
    have hl : (hex_of_bytes [b]).length = 2 := rfl
    rw [hl] at h2
    have hr : read_num s len 1 cs true = some (len + 2, b, (cs + b) % 256) := by
      have := read_num_loop_bytes s true [b] len 0 cs hcs (by simpa using hb) h1
      simpa [read_num] using this
    rw [List.length_cons, read_data]
    simp only [hr]
    rw [ih (len + 2) _ _ (Nat.mod_lt _ (by norm_num))
      (fun x hx => hall x (List.mem_cons_of_mem _ hx)) h2, Nat.mod_eq_of_lt hb]
    simp [Nat.add_assoc]
    omega

/-- The line that `srec_write` produces: `S`, the type, the digits of the count,
of the address, of the data and of the checksum, and `"\r\n"`. -/
theorem srec_write_line (t : Char) (addr : Nat) (buf : List Nat) (sz : Nat)
    (hbuf : ∀ b ∈ buf, b < 256) (hlen : buf.length = sz)
    (hcount : srec_addr_sz t + sz + 1 ≤ 255) :
    srec_write t addr buf sz =
      some (['S', t] ++ hex_of_bytes [srec_addr_sz t + sz + 1] ++
        hex_of_bytes (bytes_be addr (srec_addr_sz t)) ++ hex_of_bytes buf ++
        hex_of_bytes [255 - (srec_addr_sz t + sz + 1 + (bytes_be addr (srec_addr_sz t)).sum +
          buf.sum) % 256] ++ ['\r', '\n']) := by
  obtain ⟨hA2, hA4⟩ := srec_addr_sz_bounds t
  have hA : (if t = '0' ∨ t = '1' ∨ t = '5' ∨ t = '9' then 2
      else if t = '2' ∨ t = '8' then 3 else 4) = srec_addr_sz t := rfl
  have hc : (srec_addr_sz t + sz + 1) % 2 ^ 64 = srec_addr_sz t + sz + 1 :=
    Nat.mod_eq_of_lt (by omega)
  have hL : _LINE_BUFSZ = 1024 := rfl
  have w1 := write_num_spec (srec_addr_sz t + sz + 1) true 1 ['S', t] 0 (by omega)
    (by simp [hL]) (by omega)
  rw [bytes_be_byte _ (by omega)] at w1
  have w2 := write_num_spec addr true (srec_addr_sz t)
    (['S', t] ++ hex_of_bytes [srec_addr_sz t + sz + 1])
    ((0 + [srec_addr_sz t + sz + 1].sum) % 256) (by omega)
    (by simp [hL, hex_of_bytes_length]; omega) (Nat.mod_lt _ (by norm_num))
  have w3 := write_buf_spec buf
    (['S', t] ++ hex_of_bytes [srec_addr_sz t + sz + 1] ++
      hex_of_bytes (bytes_be addr (srec_addr_sz t)))
    (((0 + [srec_addr_sz t + sz + 1].sum) % 256 + (bytes_be addr (srec_addr_sz t)).sum) % 256)
    hbuf (by simp [hL, hex_of_bytes_length, bytes_be_length]; omega)
    (Nat.mod_lt _ (by norm_num))
  have w4 := write_num_spec
    (255 - (((0 + [srec_addr_sz t + sz + 1].sum) % 256 +
      (bytes_be addr (srec_addr_sz t)).sum) % 256 + buf.sum) % 256 % 256) false 1
    (['S', t] ++ hex_of_bytes [srec_addr_sz t + sz + 1] ++
      hex_of_bytes (bytes_be addr (srec_addr_sz t)) ++ hex_of_bytes buf) 0 (by omega)
    (by simp [hL, hex_of_bytes_length, bytes_be_length]; omega) (by omega)
  rw [bytes_be_byte _ (by omega)] at w4
  have hlt : ¬ (buf.length < sz) := by omega
  have htake : buf.take sz = buf := by rw [← hlen]; exact List.take_length buf
  have hfin : ¬ ((['S', t] ++ hex_of_bytes [srec_addr_sz t + sz + 1] ++
      hex_of_bytes (bytes_be addr (srec_addr_sz t)) ++ hex_of_bytes buf ++
      hex_of_bytes [255 - (((0 + [srec_addr_sz t + sz + 1].sum) % 256 +
        (bytes_be addr (srec_addr_sz t)).sum) % 256 + buf.sum) % 256 % 256]).length + 2 >
      _LINE_BUFSZ) := by
    simp [hL, hex_of_bytes_length, bytes_be_length]; omega
  have hsum : 255 - (((0 + [srec_addr_sz t + sz + 1].sum) % 256 +
      (bytes_be addr (srec_addr_sz t)).sum) % 256 + buf.sum) % 256 % 256 =
      255 - (srec_addr_sz t + sz + 1 + (bytes_be addr (srec_addr_sz t)).sum + buf.sum) % 256 := by
    simp only [List.sum_cons, List.sum_nil]
    omega
  rw [hsum] at w4 hfin
  unfold srec_write
  simp only [hA, hc, w1, if_true, w2, if_neg hlt, htake, w3, hsum, w4, if_neg hfin]

/-- What `srec_read` returns on a line made of `S`, a type, the digits of a count,
of an address, of data bytes and of the checksum. -/
theorem srec_read_line (t : Char) (addr A : Nat) (buf : List Nat) (sz : Nat) (rest : List Char)
    (hA : (if t = '0' ∨ t = '1' ∨ t = '5' ∨ t = '9' then some 2
      else if t = '2' ∨ t = '8' then some 3
      else if t = '3' ∨ t = '7' then some 4 else none) = some A)
    (hA8 : A ≤ 8) (hdata : (48 ≤ t.toNat ∧ t.toNat ≤ 51) ∨ sz = 0)
    (hbuf : ∀ b ∈ buf, b < 256) (hlen : buf.length = sz) (hcount : A + sz + 1 ≤ 255) :
    srec_read (['S', t] ++ hex_of_bytes [A + sz + 1] ++ hex_of_bytes (bytes_be addr A) ++
      hex_of_bytes buf ++
      hex_of_bytes [255 - (A + sz + 1 + (bytes_be addr A).sum + buf.sum) % 256] ++ rest) =
      some ⟨t, addr % 2 ^ (8 * A), buf, sz⟩ := by
  generalize hs : ['S', t] ++ hex_of_bytes [A + sz + 1] ++ hex_of_bytes (bytes_be addr A) ++
      hex_of_bytes buf ++
      hex_of_bytes [255 - (A + sz + 1 + (bytes_be addr A).sum + buf.sum) % 256] ++ rest = s
  have p1 : hex_of_bytes [A + sz + 1] <+: s.drop 2 := by
    have := seg_at ['S', t] (hex_of_bytes [A + sz + 1]) (hex_of_bytes (bytes_be addr A) ++
      hex_of_bytes buf ++
      hex_of_bytes [255 - (A + sz + 1 + (bytes_be addr A).sum + buf.sum) % 256] ++ rest) 2 rfl
    rw [← hs]
    simpa only [List.append_assoc] using this
  have p2 : hex_of_bytes (bytes_be addr A) <+: s.drop 4 := by
    have := seg_at (['S', t] ++ hex_of_bytes [A + sz + 1]) (hex_of_bytes (bytes_be addr A))
      (hex_of_bytes buf ++
      hex_of_bytes [255 - (A + sz + 1 + (bytes_be addr A).sum + buf.sum) % 256] ++ rest) 4 rfl
    rw [← hs]
    simpa only [List.append_assoc] using this
  have p3 : hex_of_bytes buf <+: s.drop (4 + 2 * A) := by
    have := seg_at (['S', t] ++ hex_of_bytes [A + sz + 1] ++ hex_of_bytes (bytes_be addr A))
      (hex_of_bytes buf)
      (hex_of_bytes [255 - (A + sz + 1 + (bytes_be addr A).sum + buf.sum) % 256] ++ rest)
      (4 + 2 * A) (by
        rw [List.length_append, hex_of_bytes_length, bytes_be_length]; rfl)
    rw [← hs]
    simpa only [List.append_assoc] using this
  have p4 : hex_of_bytes [255 - (A + sz + 1 + (bytes_be addr A).sum + buf.sum) % 256] <+:
      s.drop (4 + 2 * A + 2 * sz) := by
    have := seg_at (['S', t] ++ hex_of_bytes [A + sz + 1] ++ hex_of_bytes (bytes_be addr A) ++
      hex_of_bytes buf)
      (hex_of_bytes [255 - (A + sz + 1 + (bytes_be addr A).sum + buf.sum) % 256]) rest
      (4 + 2 * A + 2 * sz) (by
        rw [List.length_append, List.length_append, hex_of_bytes_length, hex_of_bytes_length,
          bytes_be_length, hlen]; rfl)
    rw [← hs]
    exact this
  have ht : s.getD 1 NUL = t := by rw [← hs]; rfl
  have r1 : read_num s 2 1 0 true = some (4, A + sz + 1, (A + sz + 1) % 256) := by
    have := read_num_loop_bytes s true [A + sz + 1] 2 0 0 (by norm_num)
      (by intro b hb; rw [List.mem_singleton.1 hb]; omega) p1
    simpa [read_num] using this
  have r2 : read_num s 4 A ((A + sz + 1) % 256) true =
      some (4 + 2 * A, addr % 2 ^ (8 * A), ((A + sz + 1) % 256 + (bytes_be addr A).sum) % 256) := by
    have := read_num_loop_bytes s true (bytes_be addr A) 4 0 ((A + sz + 1) % 256)
      (Nat.mod_lt _ (by norm_num)) (bytes_be_lt addr A) p2
    rw [bytes_be_length, be_value addr A hA8] at this
    simpa only [read_num, if_true] using this
  have hcnt : (A + sz + 1 + 2 ^ 64 - (A + 1)) % 2 ^ 64 = sz := by omega
  have r3 : read_data s sz (4 + 2 * A)
      (((A + sz + 1) % 256 + (bytes_be addr A).sum) % 256) [] =
      some (4 + 2 * A + 2 * sz,
        (((A + sz + 1) % 256 + (bytes_be addr A).sum) % 256 + buf.sum) % 256, buf) := by
    have := read_data_spec s buf (4 + 2 * A)
      (((A + sz + 1) % 256 + (bytes_be addr A).sum) % 256) [] (Nat.mod_lt _ (by norm_num))
      hbuf p3
    rw [hlen] at this
    simpa using this
  have r4 : read_num s (4 + 2 * A + 2 * sz) 1 0 false =
      some (4 + 2 * A + 2 * sz + 2,
        255 - (A + sz + 1 + (bytes_be addr A).sum + buf.sum) % 256, 0) := by
    have := read_num_loop_bytes s false
      [255 - (A + sz + 1 + (bytes_be addr A).sum + buf.sum) % 256] (4 + 2 * A + 2 * sz) 0 0
      (by norm_num) (by intro b hb; rw [List.mem_singleton.1 hb]; omega) p4
    simpa [read_num] using this
  have hck : ¬ (255 - (A + sz + 1 + (bytes_be addr A).sum + buf.sum) % 256 ≠
      255 - (((A + sz + 1) % 256 + (bytes_be addr A).sum) % 256 + buf.sum) % 256 % 256) := by
    omega
  unfold srec_read
  simp only [r1, ht, hA, r2, hcnt]
  rcases hdata with hd | hz
  · simp only [hd, and_self, if_true, r3, r4, if_neg hck]
  · subst hz
    have hnil : buf = [] := List.length_eq_zero.1 hlen
    subst hnil
    by_cases hd : 48 ≤ t.toNat ∧ t.toNat ≤ 51
    · simp only [hd, and_self, if_true, r3, r4, if_neg hck]
    · have r4b : read_num s (4 + 2 * A) 1 0 false =
          some (4 + 2 * A + 2 * 0 + 2,
            255 - (A + 0 + 1 + (bytes_be addr A).sum + ([] : List Nat).sum) % 256, 0) := r4
      have hck2 : ¬ (255 - (A + 0 + 1 + (bytes_be addr A).sum + ([] : List Nat).sum) % 256 ≠
          255 - ((A + 0 + 1) % 256 + (bytes_be addr A).sum) % 256 % 256) := by
        simp only [List.sum_nil]; omega
      simp only [if_neg hd, r4b, if_neg hck2]

/-- C28: for every record type `t` among `'0'` .. `'3'`, every address and every
buffer of `sz` bytes with `addr_sz(t) + sz + 1 <= 255`, `srec_write` produces a line
and `srec_read` on that line returns 0 with the type `t`, the address modulo
`2 ^ (8 * addr_sz(t))`, the size `sz` and the same bytes; for the types `'7'`, `'8'`
and `'9'` with `sz = 0` it returns 0 with the same type and address and the size 0. -/
theorem srec_round_trip (t : Char) (addr : Nat) (buf : List Nat) (sz : Nat)
    (ht : t ∈ ['0', '1', '2', '3'] ∨ (t ∈ ['7', '8', '9'] ∧ sz = 0))
    (hbuf : ∀ b ∈ buf, b < 256) (hlen : buf.length = sz)
    (hcount : srec_addr_sz t + sz + 1 ≤ 255) :
    ∃ line, srec_write t addr buf sz = some line ∧
      srec_read line = some ⟨t, addr % 2 ^ (8 * srec_addr_sz t), buf, sz⟩ := by
  refine ⟨_, srec_write_line t addr buf sz hbuf hlen hcount, ?_⟩
  have hA : (if t = '0' ∨ t = '1' ∨ t = '5' ∨ t = '9' then some 2
      else if t = '2' ∨ t = '8' then some 3
      else if t = '3' ∨ t = '7' then some 4 else none) = some (srec_addr_sz t) := by
    simp only [List.mem_cons, List.mem_singleton, List.mem_nil_iff, or_false] at ht
    rcases ht with (rfl | rfl | rfl | rfl) | ⟨rfl | rfl | rfl, _⟩ <;> rfl
  have hdata : (48 ≤ t.toNat ∧ t.toNat ≤ 51) ∨ sz = 0 := by
    simp only [List.mem_cons, List.mem_singleton, List.mem_nil_iff, or_false] at ht
    rcases ht with (rfl | rfl | rfl | rfl) | ⟨_, h⟩
    · exact Or.inl (by decide)
    · exact Or.inl (by decide)
    · exact Or.inl (by decide)
    · exact Or.inl (by decide)
    · exact Or.inr h
  exact srec_read_line t addr (srec_addr_sz t) buf sz ['\r', '\n'] hA
    (by have := (srec_addr_sz_bounds t).2; omega) hdata hbuf hlen hcount

/-- C28 on a data record of type `'1'` with three bytes, whose address does not fit
the two address bytes, and on a termination record of type `'9'`. -/
theorem srec_round_trip_witness :
    (∃ line, srec_write '1' 0x12345 [0xDE, 0xAD, 0x00] 3 = some line ∧
      srec_read line = some ⟨'1', 0x2345, [0xDE, 0xAD, 0x00], 3⟩) ∧
    (∃ line, srec_write '9' 0x8000 [] 0 = some line ∧
      srec_read line = some ⟨'9', 0x8000, [], 0⟩) :=
  ⟨srec_round_trip '1' 0x12345 [0xDE, 0xAD, 0x00] 3 (Or.inl (by decide)) (by decide) rfl
      (by decide),
    srec_round_trip '9' 0x8000 [] 0 (Or.inr ⟨by decide, rfl⟩) (by decide) rfl (by decide)⟩

/-! ## Intel HEX -/

/-- Decoding the digits of a sequence of bytes gives the bytes back. -/
theorem decode_hex_of_bytes (bs : List Nat) (h : ∀ b ∈ bs, b < 256) :
    decode_pairs (hex_of_bytes bs) = some bs := by
  induction bs with
  | nil => rfl
  | cons b t ih =>
    have hb := h b (List.mem_cons_self _ _)
    have hsplit : hex_of_bytes (b :: t) =
        hex_digit ((b >>> 4) % 16) :: hex_digit (b % 16) :: hex_of_bytes t := by
      simp [hex_of_bytes, List.flatMap, hex_pair]
    obtain ⟨d1, v1⟩ := hex_digit_ok ((b >>> 4) % 16) (Nat.mod_lt _ (by norm_num))
    obtain ⟨d2, v2⟩ := hex_digit_ok (b % 16) (Nat.mod_lt _ (by norm_num))
    have hv : (b >>> 4) % 16 * 16 + b % 16 = b := by
      rw [Nat.shiftRight_eq_div_pow]; omega
    rw [hsplit, decode_pairs]
    simp only [d1, d2, and_self, if_true, v1, v2, hv,
      ih (fun x hx => h x (List.mem_cons_of_mem _ hx)), Option.map_some']

/-- The byte that `write_num` writes for the size 1. -/
theorem bytes_be_one (x : Nat) : bytes_be x 1 = [x % 256] := by
  simp only [bytes_be]
  have : ((x % 2 ^ 64) >>> (0 * 8)) % 256 = x % 256 := by
    rw [Nat.zero_mul, Nat.shiftRight_zero]; omega
  rw [this]

/-- The bytes of the payload of a line of `ihex_write`: the first `sz` bytes of the
buffer, or the `sz` low bytes of `num` for a NULL buffer. -/
theorem ihex_write_line (type : Int) (addr num : Nat) (buf : Option (List Nat)) (sz : Nat)
    (payload : List Nat) (hsz : sz ≤ 16)
    (hbuf : ∀ bytes, buf = some bytes →
      sz ≤ bytes.length ∧ (∀ b ∈ bytes, b < 256) ∧ payload = bytes.take sz)
    (hnum : buf = none → sz ≤ 8 ∧ payload = bytes_be num sz) :
    payload.length = sz ∧ (∀ b ∈ payload, b < 256) ∧
    ihex_write type addr num buf sz =
      some ([':'] ++ hex_of_bytes [sz] ++ hex_of_bytes (bytes_be addr 2) ++
        hex_of_bytes [(type % 2 ^ 64).toNat % 256] ++ hex_of_bytes payload ++
        hex_of_bytes [(256 - (sz + (bytes_be addr 2).sum + (type % 2 ^ 64).toNat % 256 +
          payload.sum) % 256) % 256] ++ ['\r', '\n']) := by
  have hL : _LINE_BUFSZ = 1024 := rfl
  have hpl : payload.length = sz := by
    cases buf with
    | none => rw [(hnum rfl).2, bytes_be_length]
    | some bytes =>
      obtain ⟨h1, _, h3⟩ := hbuf bytes rfl
      rw [h3, List.length_take]; omega
  have hpb : ∀ b ∈ payload, b < 256 := by
    cases buf with
    | none => rw [(hnum rfl).2]; exact bytes_be_lt num sz
    | some bytes =>
      obtain ⟨_, h2, h3⟩ := hbuf bytes rfl
      intro b hb
      rw [h3] at hb
      exact h2 b (List.mem_of_mem_take hb)
  refine ⟨hpl, hpb, ?_⟩
  have hg : ¬ (sz > 16) := by omega
  have w1 := write_num_spec sz true 1 [':'] 0 (by omega) (by simp [hL]) (by omega)
  rw [bytes_be_byte _ (by omega)] at w1
  have w2 := write_num_spec addr true 2 ([':'] ++ hex_of_bytes [sz]) ((0 + [sz].sum) % 256)
    (by omega) (by simp [hL, hex_of_bytes_length]) (Nat.mod_lt _ (by norm_num))
  have w3 := write_num_spec (type % 2 ^ 64).toNat true 1
    ([':'] ++ hex_of_bytes [sz] ++ hex_of_bytes (bytes_be addr 2))
    (((0 + [sz].sum) % 256 + (bytes_be addr 2).sum) % 256)
    (by omega) (by simp [hL, hex_of_bytes_length, bytes_be_length]) (Nat.mod_lt _ (by norm_num))
  rw [bytes_be_one] at w3
  have hlen4 : ([':'] ++ hex_of_bytes [sz] ++ hex_of_bytes (bytes_be addr 2) ++
      hex_of_bytes [(type % 2 ^ 64).toNat % 256]).length + 2 * sz ≤ _LINE_BUFSZ := by
    simp [hL, hex_of_bytes_length, bytes_be_length]; omega
  have hsum : (256 - ((((0 + [sz].sum) % 256 + (bytes_be addr 2).sum) % 256 +
      [(type % 2 ^ 64).toNat % 256].sum) % 256 + payload.sum) % 256 % 256) % 256 =
      (256 - (sz + (bytes_be addr 2).sum + (type % 2 ^ 64).toNat % 256 + payload.sum) % 256) %
        256 := by
    simp only [List.sum_cons, List.sum_nil]
    omega
  have w5 := write_num_spec
    ((256 - (sz + (bytes_be addr 2).sum + (type % 2 ^ 64).toNat % 256 + payload.sum) % 256) %
        256) false 1
    ([':'] ++ hex_of_bytes [sz] ++ hex_of_bytes (bytes_be addr 2) ++
      hex_of_bytes [(type % 2 ^ 64).toNat % 256] ++ hex_of_bytes payload) 0 (by omega)
    (by simp [hL, hex_of_bytes_length, bytes_be_length, hpl]; omega) (by omega)
  rw [bytes_be_byte _ (Nat.mod_lt _ (by norm_num))] at w5
  have hfin : ¬ (([':'] ++ hex_of_bytes [sz] ++ hex_of_bytes (bytes_be addr 2) ++
      hex_of_bytes [(type % 2 ^ 64).toNat % 256] ++ hex_of_bytes payload ++
      hex_of_bytes [(256 - (sz + (bytes_be addr 2).sum + (type % 2 ^ 64).toNat % 256 +
        payload.sum) % 256) % 256]).length + 2 > _LINE_BUFSZ) := by
    simp [hL, hex_of_bytes_length, bytes_be_length, hpl]; omega
  unfold ihex_write
  simp only [if_neg hg, w1, if_true, w2, w3]
  by_cases h0 : sz > 0
  · simp only [h0, if_true]
    cases buf with
    | none =>
      obtain ⟨h8, hp⟩ := hnum rfl
      rw [write_num_spec num true sz _ _ h8 hlen4 (Nat.mod_lt _ (by norm_num)), ← hp]
      simp only [if_true, hsum, w5, if_neg hfin]
    | some bytes =>
      obtain ⟨h1, h2, h3⟩ := hbuf bytes rfl
      have hlt : ¬ (bytes.length < sz) := by omega
      simp only [if_neg hlt]
      rw [← h3, write_buf_spec payload _ _ hpb (by rw [hpl]; exact hlen4)
        (Nat.mod_lt _ (by norm_num))]
      simp only [hsum, w5, if_neg hfin]
  · have hz : sz = 0 := by omega
    have hnil : payload = [] := List.length_eq_zero.1 (by rw [hpl, hz])
    have he : hex_of_bytes ([] : List Nat) = [] := rfl
    rw [hnil, he, List.append_nil] at w5 hfin
    have hs0 : (256 - ((((0 + [sz].sum) % 256 + (bytes_be addr 2).sum) % 256 +
        [(type % 2 ^ 64).toNat % 256].sum) % 256) % 256) % 256 =
        (256 - (sz + (bytes_be addr 2).sum + (type % 2 ^ 64).toNat % 256 +
          ([] : List Nat).sum) % 256) % 256 := by
      simp only [List.sum_cons, List.sum_nil]
      omega
    simp only [h0, if_false, hs0, w5, if_neg hfin, hnil, he, List.append_nil]

/-- C29: for every line that `ihex_write` emits - a size of at most 16, any type
and address, and as the payload either the first `sz` bytes of the buffer or, for a
NULL buffer, the `sz <= 8` low bytes of `num`, most significant first - the
characters between `':'` and `"\r\n"` are the digit pairs of the bytes length, two
address bytes, type, payload and checksum, and decode to them; the length byte is
`sz`, the payload bytes are those of the buffer (of `num`), the checksum is a byte
and the sum of all the bytes is 0 modulo 256. -/
theorem ihex_checksum (type : Int) (addr num : Nat) (buf : Option (List Nat)) (sz : Nat)
    (hsz : sz ≤ 16)
    (hbuf : ∀ bytes, buf = some bytes → sz ≤ bytes.length ∧ ∀ b ∈ bytes, b < 256)
    (hnum : buf = none → sz ≤ 8) :
    ∃ body bytes payload ck,
      ihex_write type addr num buf sz = some ([':'] ++ body ++ ['\r', '\n']) ∧
      decode_pairs body = some bytes ∧
      bytes = [sz] ++ bytes_be addr 2 ++ [(type % 2 ^ 64).toNat % 256] ++ payload ++ [ck] ∧
      payload.length = sz ∧ bytes.head? = some sz ∧ bytes.sum % 256 = 0 ∧
      body = hex_of_bytes bytes ∧
      (∀ b, buf = some b → payload = b.take sz) ∧
      (buf = none → payload = bytes_be num sz) ∧ ck < 256 := by
  obtain ⟨payload, hsome, hnone, hpl, hpb, hw⟩ : ∃ payload : List Nat,
      (∀ b, buf = some b → payload = b.take sz) ∧
      (buf = none → payload = bytes_be num sz) ∧ payload.length = sz ∧
      (∀ b ∈ payload, b < 256) ∧
      ihex_write type addr num buf sz =
        some ([':'] ++ hex_of_bytes [sz] ++ hex_of_bytes (bytes_be addr 2) ++
          hex_of_bytes [(type % 2 ^ 64).toNat % 256] ++ hex_of_bytes payload ++
          hex_of_bytes [(256 - (sz + (bytes_be addr 2).sum + (type % 2 ^ 64).toNat % 256 +
            payload.sum) % 256) % 256] ++ ['\r', '\n']) := by
    cases buf with
    | none =>
      exact ⟨bytes_be num sz, (fun b hb => by cases hb), (fun _ => rfl),
        ihex_write_line type addr num none sz _ hsz
          (fun bytes hb => by cases hb) (fun _ => ⟨hnum rfl, rfl⟩)⟩
    | some b =>
      exact ⟨b.take sz, (fun b2 hb => by cases hb; rfl), (fun h => by cases h),
        ihex_write_line type addr num (some b) sz _ hsz
          (fun bytes hb => by
            cases hb
            exact ⟨(hbuf b rfl).1, (hbuf b rfl).2, rfl⟩)
          (fun h => by cases h)⟩
  obtain ⟨ck, hck⟩ : ∃ ck, ck = (256 - (sz + (bytes_be addr 2).sum +
      (type % 2 ^ 64).toNat % 256 + payload.sum) % 256) % 256 := ⟨_, rfl⟩
  rw [← hck] at hw
  have hckb : ck < 256 := by rw [hck]; exact Nat.mod_lt _ (by norm_num)
  refine ⟨hex_of_bytes ([sz] ++ bytes_be addr 2 ++ [(type % 2 ^ 64).toNat % 256] ++ payload ++
      [ck]), [sz] ++ bytes_be addr 2 ++ [(type % 2 ^ 64).toNat % 256] ++ payload ++ [ck],
    payload, ck, ?_, ?_, rfl, hpl, by simp, ?_, rfl, hsome, hnone, hckb⟩
  · rw [hw]
    simp only [hex_of_bytes_append, List.append_assoc]
  · apply decode_hex_of_bytes
    intro b hb
    simp only [List.mem_append, List.mem_singleton] at hb
    rcases hb with (((rfl | h) | rfl) | h) | rfl
    · omega
    · exact bytes_be_lt addr 2 b h
    · exact Nat.mod_lt _ (by norm_num)
    · exact hpb b h
    · exact hckb
  · simp only [List.sum_append, List.sum_cons, List.sum_nil]
    omega

/-- C29 on a data record with three bytes of a buffer, which is the line
`:0301000021460194`, and on the record of type 4 that `ihex_write_04` writes for the
upper address `0x1234`, which is the line `:020000041234B4`. -/
theorem ihex_checksum_witness :
    (ihex_write 0 0x0100 0 (some [0x21, 0x46, 0x01]) 3 =
        some ":0301000021460194\r\n".toList ∧
      decode_pairs "0301000021460194".toList =
        some [3, 0x01, 0x00, 0, 0x21, 0x46, 0x01, 0x94] ∧
      [3, 0x01, 0x00, 0, 0x21, 0x46, 0x01, 0x94].sum % 256 = 0) ∧
    (ihex_write 4 0 0x1234 none 2 = some ":020000041234B4\r\n".toList ∧
      decode_pairs "020000041234B4".toList = some [2, 0, 0, 4, 0x12, 0x34, 0xB4] ∧
      [2, 0, 0, 4, 0x12, 0x34, 0xB4].sum % 256 = 0) := by
  constructor
  · obtain ⟨body, bytes, payload, ck, hw, hd, hb, _, _, hs, hbody, hp, _, hck⟩ :=
      ihex_checksum 0 0x0100 0 (some [0x21, 0x46, 0x01]) 3 (by decide)
        (fun bytes hb => by
          cases hb
          exact ⟨by decide, by decide⟩)
        (fun h => by cases h)
    have hpay : payload = [0x21, 0x46, 0x01] := hp _ rfl
    subst hpay
    have hab : bytes_be 0x0100 2 = [0x01, 0x00] := by decide
    rw [hab] at hb
    have hckv : ck = 0x94 := by
      rw [hb] at hs
      simp only [List.sum_append, List.sum_cons, List.sum_nil] at hs
      omega
    subst hckv
    subst hb
    subst hbody
    exact ⟨hw, hd, hs⟩
  · obtain ⟨body, bytes, payload, ck, hw, hd, hb, _, _, hs, hbody, _, hp, hck⟩ :=
      ihex_checksum 4 0 0x1234 none 2 (by decide) (fun bytes hb => by cases hb)
        (fun _ => by decide)
    have hpay : payload = [0x12, 0x34] := by rw [hp rfl]; decide
    subst hpay
    have hab : bytes_be 0 2 = [0, 0] := by decide
    rw [hab] at hb
    have hckv : ck = 0xB4 := by
      rw [hb] at hs
      simp only [List.sum_append, List.sum_cons, List.sum_nil] at hs
      omega
    subst hckv
    subst hb
    subst hbody
    exact ⟨hw, hd, hs⟩

/-! ## The number codec -/

end Ascii

/-! # Properties of the sibling lookup -/

namespace Dwarf

/-- The first DIE of a tail of the queue. -/
theorem drop_eq_cons (dies : List Dwarf_Die_) (b : Nat) (d : Dwarf_Die_)
    (r : List Dwarf_Die_) (h : dies.drop b = d :: r) :
    level_at dies b = d.die_level ∧ dies.drop (b + 1) = r ∧ b < dies.length := by
  have h0 : (dies.drop b)[0]? = some d := by rw [h]; simp
  rw [List.getElem?_drop] at h0
  simp only [Nat.add_zero] at h0
  refine ⟨?_, ?_, ?_⟩
  · simp [level_at, h0]
  · have : dies.drop (b + 1) = (dies.drop b).drop 1 := by rw [List.drop_drop, Nat.add_comm]
    rw [this, h]; rfl
  · rcases Nat.lt_or_ge b dies.length with hlt | hge
    · exact hlt
    · rw [List.drop_eq_nil_of_le hge] at h; cases h

/-- When the loop ends on a DIE, that DIE has the level looked for and all DIEs
before it have a greater one. -/
theorem sibling_loop_some (dies : List Dwarf_Die_) (level : Int) :
    ∀ (rest : List Dwarf_Die_) (b j : Nat), dies.drop b = rest →
      sibling_loop level rest b = some j →
      b ≤ j ∧ j < dies.length ∧ level_at dies j = level ∧
        ∀ k, b ≤ k → k < j → level < level_at dies k := by
  intro rest
  induction rest with
  | nil => intro b j _ h; simp [sibling_loop] at h
  | cons d r ih =>
    intro b j hd h
    obtain ⟨hl, hr, hb⟩ := drop_eq_cons dies b d r hd
    rw [sibling_loop] at h
    by_cases h1 : d.die_level < level
    · simp [h1] at h
    · by_cases h2 : d.die_level = level
      · rw [if_neg h1, if_pos h2] at h
        injection h with h
        subst h
        exact ⟨le_refl _, hb, by rw [hl, h2], fun k hk1 hk2 => by omega⟩
      · simp only [if_neg h1, if_neg h2] at h
        obtain ⟨g1, g2, g3, g4⟩ := ih (b + 1) j hr h
        refine ⟨by omega, g2, g3, ?_⟩
        intro k hk1 hk2
        rcases Nat.eq_or_lt_of_le hk1 with he | hlt
        · rw [← he, hl]; omega
        · exact g4 k hlt hk2

/-- When the loop ends on NULL, every DIE of the level looked for has a DIE of a
smaller level before it. -/
theorem sibling_loop_none (dies : List Dwarf_Die_) (level : Int) :
    ∀ (rest : List Dwarf_Die_) (b : Nat), dies.drop b = rest →
      sibling_loop level rest b = none →
      ∀ m, b ≤ m → m < dies.length → level_at dies m = level →
        ∃ k, b ≤ k ∧ k < m ∧ level_at dies k < level := by
  intro rest
  induction rest with
  | nil =>
    intro b hd _ m hm1 hm2 _
    have : dies.length ≤ b := by
      rcases Nat.lt_or_ge b dies.length with hlt | hge
      · have := List.drop_eq_nil_iff.1 hd; omega
      · exact hge
    omega
  | cons d r ih =>
    intro b hd h m hm1 hm2 hm3
    obtain ⟨hl, hr, hb⟩ := drop_eq_cons dies b d r hd
    rw [sibling_loop] at h
    by_cases h1 : d.die_level < level
    · rcases Nat.eq_or_lt_of_le hm1 with he | hlt
      · rw [← he, hl] at hm3; omega
      · exact ⟨b, le_refl _, hlt, by rw [hl]; exact h1⟩
    · by_cases h2 : d.die_level = level
      · simp [h1, h2] at h
      · simp only [if_neg h1, if_neg h2] at h
        rcases Nat.eq_or_lt_of_le hm1 with he | hlt
        · rw [← he, hl] at hm3; exact absurd hm3 h2
        · obtain ⟨k, k1, k2, k3⟩ := ih (b + 1) hr h m hlt hm2 hm3
          exact ⟨k, by omega, k2, k3⟩

/-- C30: for a debug context with a current compilation unit and a DIE of its
queue, `dwarf_siblingof` returns `DW_DLV_OK` with the first later DIE of the same
level when there is one and no DIE between the two has a smaller level; otherwise it
returns `DW_DLV_NO_ENTRY` and sets the result to NULL. With NULL for the DIE it
returns the first DIE of the queue, or `DW_DLV_NO_ENTRY` for an empty queue. -/
theorem siblingof_first_later_equal (cu : Dwarf_CU_) (cell : Option Nat) :
    (∀ i, i < cu.cu_die.length →
      (∀ j, first_equal_level cu.cu_die i j → none_smaller_between cu.cu_die i j →
        dwarf_siblingof (some ⟨some cu⟩) (some i) (some cell) =
          some (.DW_DLV_OK, some (some j))) ∧
      ((∀ j, first_equal_level cu.cu_die i j → ¬ none_smaller_between cu.cu_die i j) →
        dwarf_siblingof (some ⟨some cu⟩) (some i) (some cell) =
          some (.DW_DLV_NO_ENTRY, some none))) ∧
    (cu.cu_die ≠ [] →
      dwarf_siblingof (some ⟨some cu⟩) none (some cell) = some (.DW_DLV_OK, some (some 0))) ∧
    (cu.cu_die = [] →
      dwarf_siblingof (some ⟨some cu⟩) none (some cell) =
        some (.DW_DLV_NO_ENTRY, some none)) := by
  refine ⟨fun i hi => ?_, ?_, ?_⟩
  rotate_left
  · intro hne
    cases hc : cu.cu_die with
    | nil => exact absurd hc hne
    | cons a t => simp [dwarf_siblingof, hc]
  · intro hnil
    simp [dwarf_siblingof, hnil]
  obtain ⟨d, hd⟩ : ∃ d, cu.cu_die.get? i = some d := ⟨cu.cu_die.get ⟨i, hi⟩, List.get?_eq_get hi⟩
  have hlv : level_at cu.cu_die i = d.die_level := by unfold level_at; rw [hd]
  have hnone : sibling_loop d.die_level (cu.cu_die.drop (i + 1)) (i + 1) = none →
      dwarf_siblingof (some ⟨some cu⟩) (some i) (some cell) =
        some (.DW_DLV_NO_ENTRY, some none) := by
    intro h; simp only [dwarf_siblingof, hd, h]
  have hsome : ∀ j, sibling_loop d.die_level (cu.cu_die.drop (i + 1)) (i + 1) = some j →
      dwarf_siblingof (some ⟨some cu⟩) (some i) (some cell) =
        some (.DW_DLV_OK, some (some j)) := by
    intro j h; simp only [dwarf_siblingof, hd, h]
  refine ⟨?_, ?_⟩
  · intro j ⟨hj1, hj2, hj3, hj4⟩ hns
    cases hloop : sibling_loop d.die_level (cu.cu_die.drop (i + 1)) (i + 1) with
    | none =>
      obtain ⟨k, k1, k2, k3⟩ := sibling_loop_none cu.cu_die d.die_level _ (i + 1) rfl hloop j
        (by omega) hj2 (by rw [hj3, hlv])
      exact absurd (by rw [hlv]; exact k3) (hns k (by omega) k2)
    | some j2 =>
      obtain ⟨g1, g2, g3, g4⟩ := sibling_loop_some cu.cu_die d.die_level _ (i + 1) j2 rfl hloop
      have : j2 = j := by
        rcases Nat.lt_trichotomy j2 j with h | h | h
        · exact absurd (by rw [g3, hlv]) (hj4 j2 (by omega) h)
        · exact h
        · have := g4 j (by omega) h
          rw [hj3, hlv] at this
          omega
      rw [← this]
      exact hsome j2 hloop
  · intro hno
    cases hloop : sibling_loop d.die_level (cu.cu_die.drop (i + 1)) (i + 1) with
    | none => exact hnone hloop
    | some j2 =>
      obtain ⟨g1, g2, g3, g4⟩ := sibling_loop_some cu.cu_die d.die_level _ (i + 1) j2 rfl hloop
      have hfe : first_equal_level cu.cu_die i j2 :=
        ⟨by omega, g2, by rw [g3, hlv], fun k hk1 hk2 => by
          have := g4 k (by omega) hk2
          rw [hlv]; omega⟩
      have hns : none_smaller_between cu.cu_die i j2 := fun k hk1 hk2 => by
        have := g4 k (by omega) hk2
        rw [hlv]; omega
      exact absurd hns (hno j2 hfe)

/-- C30 on the queue with the levels 0, 1, 2, 1, 0: the sibling of the DIE at 1 is
the DIE at 3, which has no sibling; and on the empty queue with NULL for the DIE. -/
theorem siblingof_first_later_equal_witness :
    dwarf_siblingof (some ⟨some ⟨[⟨0⟩, ⟨1⟩, ⟨2⟩, ⟨1⟩, ⟨0⟩]⟩⟩) (some 1) (some none) =
      some (.DW_DLV_OK, some (some 3)) ∧
    dwarf_siblingof (some ⟨some ⟨[]⟩⟩) none (some (some 5)) =
      some (.DW_DLV_NO_ENTRY, some none) :=
  ⟨((siblingof_first_later_equal ⟨[⟨0⟩, ⟨1⟩, ⟨2⟩, ⟨1⟩, ⟨0⟩]⟩ none).1 1 (by decide)).1 3
      ⟨by decide, by decide, by decide, fun k h1 h2 => by
        have : k = 2 := by omega
        subst this; decide⟩
      (fun k h1 h2 => by
        have : k = 2 := by omega
        subst this; decide),
    (siblingof_first_later_equal ⟨[]⟩ (some 5)).2.2 rfl⟩

end Dwarf
